import Mathlib

/-!
Kiali back end: mTLS status resolver, gateway host/port overlap matcher,
routing-rule host grouper, the two namespace-wide mTLS checks and the telemetry
helpers

A shallow embedding of `util/mtls/status.go`, of
`business/checkers/gateways/multi_match_checker.go`, of
`business/checkers/virtual_services/single_host_checker.go`, of
`business/checkers/destinationrules/disabled_namespacewide_mtls_checker.go`, of
`business/checkers/peerauthentications/disabled_namespacewide_checker.go` and of
`graph/telemetry/istio/util/util.go`, followed by the properties established
about them.
-/

namespace Kiali

/-! ## util/mtls/status.go -/

namespace Mtls

def MTLSEnabled : String := "MTLS_ENABLED"
def MTLSPartiallyEnabled : String := "MTLS_PARTIALLY_ENABLED"
def MTLSNotEnabled : String := "MTLS_NOT_ENABLED"
def MTLSDisabled : String := "MTLS_DISABLED"

/-- The receiver of the resolver. Only the fields read by `finalStatus` and
`OverallMtlsStatus` are kept; the two object lists of the Go struct are read by
the mode scanners alone. -/
structure MtlsStatus where
  Namespace : String
  AutoMtlsEnabled : Bool
  AllowPermissive : Bool
  deriving DecidableEq, Repr

/-- The Go struct `TlsStatus`; `TlsStatus{}` is `default`. -/
structure TlsStatus where
  DestinationRuleStatus : String := ""
  PeerAuthenticationStatus : String := ""
  OverallStatus : String := ""
  deriving DecidableEq, Repr

instance : Inhabited TlsStatus := ⟨{}⟩

/-- The Go function `func (m MtlsStatus) finalStatus(drStatus, paStatus string) TlsStatus` -/
def MtlsStatus.finalStatus (m : MtlsStatus) (drStatus paStatus : String) : TlsStatus :=
  let mtlsEnabled := drStatus == "ISTIO_MUTUAL" || drStatus == "MUTUAL" ||
    (drStatus == "" && m.AutoMtlsEnabled)
  let mtlsDisabled := drStatus == "DISABLE" || (drStatus == "" && m.AutoMtlsEnabled)
  let finalStatus :=
    if (paStatus == "STRICT" || (paStatus == "PERMISSIVE" && m.AllowPermissive)) && mtlsEnabled then
      MTLSEnabled
    else if paStatus == "DISABLE" && mtlsDisabled then
      MTLSDisabled
    else if paStatus == "" && drStatus == "" then
      MTLSNotEnabled
    else
      MTLSPartiallyEnabled
  { DestinationRuleStatus := drStatus
    PeerAuthenticationStatus := paStatus
    OverallStatus := finalStatus }

/-- The Go function `func (t TlsStatus) hasDefinedTls() bool` -/
def TlsStatus.hasDefinedTls (t : TlsStatus) : Bool :=
  t.OverallStatus == MTLSEnabled || t.OverallStatus == MTLSDisabled

/-- The Go function `func (t TlsStatus) hasPartialTlsConfig() bool` -/
def TlsStatus.hasPartialTlsConfig (t : TlsStatus) : Bool :=
  t.OverallStatus == MTLSPartiallyEnabled

/-- The Go function `func (t TlsStatus) hasHalfTlsConfigDefined(autoMtls, allowPermissive bool) bool` -/
def TlsStatus.hasHalfTlsConfigDefined (t : TlsStatus) (autoMtls allowPermissive : Bool) : Bool :=
  let defined := false
  if autoMtls then
    let defined := (t.PeerAuthenticationStatus == "STRICT" && t.DestinationRuleStatus == "") ||
      ((t.DestinationRuleStatus == "ISTIO_MUTUAL" || t.DestinationRuleStatus == "MUTUAL") &&
        t.PeerAuthenticationStatus == "")
    if !defined && allowPermissive then
      t.PeerAuthenticationStatus == "PERMISSIVE" && t.DestinationRuleStatus == ""
    else
      defined
  else
    defined

/-- The Go function `func (t TlsStatus) hasNoConfig() bool` -/
def TlsStatus.hasNoConfig (t : TlsStatus) : Bool :=
  t.PeerAuthenticationStatus == "" && t.DestinationRuleStatus == ""

/-- The Go function `func (t TlsStatus) hasPartialDisabledConfig() bool` -/
def TlsStatus.hasPartialDisabledConfig (t : TlsStatus) : Bool :=
  (t.PeerAuthenticationStatus == "DISABLE" && t.DestinationRuleStatus == "") ||
    (t.DestinationRuleStatus == "DISABLE" && t.PeerAuthenticationStatus == "")

mutual
/-- The Go function `func (m MtlsStatus) OverallMtlsStatus(nsStatus, meshStatus TlsStatus) string` -/
def MtlsStatus.OverallMtlsStatus (m : MtlsStatus) (nsStatus meshStatus : TlsStatus) : String :=
  if nsStatus.hasDefinedTls then
    nsStatus.OverallStatus
  else if _h : nsStatus.hasPartialTlsConfig = true then
    m.inheritedOverallStatus nsStatus meshStatus
  else if meshStatus.hasDefinedTls then
    meshStatus.OverallStatus
  else if meshStatus.hasNoConfig then
    MTLSNotEnabled
  else if meshStatus.hasPartialDisabledConfig then
    MTLSDisabled
  else if meshStatus.hasHalfTlsConfigDefined m.AutoMtlsEnabled m.AllowPermissive then
    MTLSEnabled
  else if !m.AutoMtlsEnabled && meshStatus.hasPartialTlsConfig then
    MTLSPartiallyEnabled
  else
    MTLSPartiallyEnabled
termination_by (if nsStatus.hasPartialTlsConfig then 2 else 0)
decreasing_by simp [*]
/-- The Go function `func (m MtlsStatus) inheritedOverallStatus(nsStatus, meshStatus TlsStatus) string` -/
def MtlsStatus.inheritedOverallStatus (m : MtlsStatus) (nsStatus meshStatus : TlsStatus) : String :=
  let partialDRStatus :=
    if nsStatus.DestinationRuleStatus == "" then meshStatus.DestinationRuleStatus
    else nsStatus.DestinationRuleStatus
  let partialPAStatus :=
    if nsStatus.PeerAuthenticationStatus == "" then meshStatus.PeerAuthenticationStatus
    else nsStatus.PeerAuthenticationStatus
  m.OverallMtlsStatus {} (m.finalStatus partialDRStatus partialPAStatus)
termination_by 1
decreasing_by
  have : TlsStatus.hasPartialTlsConfig {} = false := by decide
  simp [this]
end

mutual
/-- The same cascade with a bound on the number of times `OverallMtlsStatus`
may be entered: `none` when the bound is used up before a status is returned. -/
def MtlsStatus.OverallMtlsStatusFuel (m : MtlsStatus) :
    Nat → TlsStatus → TlsStatus → Option String
  | 0, _, _ => none
  | fuel + 1, nsStatus, meshStatus =>
    if nsStatus.hasDefinedTls then
      some nsStatus.OverallStatus
    else if nsStatus.hasPartialTlsConfig then
      m.inheritedOverallStatusFuel fuel nsStatus meshStatus
    else if meshStatus.hasDefinedTls then
      some meshStatus.OverallStatus
    else if meshStatus.hasNoConfig then
      some MTLSNotEnabled
    else if meshStatus.hasPartialDisabledConfig then
      some MTLSDisabled
    else if meshStatus.hasHalfTlsConfigDefined m.AutoMtlsEnabled m.AllowPermissive then
      some MTLSEnabled
    else if !m.AutoMtlsEnabled && meshStatus.hasPartialTlsConfig then
      some MTLSPartiallyEnabled
    else
      some MTLSPartiallyEnabled
/-- The bounded form of `inheritedOverallStatus`; its nested call gets the
entries that are left. -/
def MtlsStatus.inheritedOverallStatusFuel (m : MtlsStatus) :
    Nat → TlsStatus → TlsStatus → Option String
  | fuel, nsStatus, meshStatus =>
    let partialDRStatus :=
      if nsStatus.DestinationRuleStatus == "" then meshStatus.DestinationRuleStatus
      else nsStatus.DestinationRuleStatus
    let partialPAStatus :=
      if nsStatus.PeerAuthenticationStatus == "" then meshStatus.PeerAuthenticationStatus
      else nsStatus.PeerAuthenticationStatus
    m.OverallMtlsStatusFuel fuel {} (m.finalStatus partialDRStatus partialPAStatus)
end

/-- The two-input table as the specification writes it (section 4.4). -/
def specTable (drMode paMode : String) (autoMtlsEnabled allowPermissive : Bool) : String :=
  let mtlsEnabled : Prop := (drMode = "ISTIO_MUTUAL" ∨ drMode = "MUTUAL") ∨
    (drMode = "" ∧ autoMtlsEnabled = true)
  let mtlsDisabled : Prop := drMode = "DISABLE" ∨ (drMode = "" ∧ autoMtlsEnabled = true)
  if (paMode = "STRICT" ∨ (paMode = "PERMISSIVE" ∧ allowPermissive = true)) ∧ mtlsEnabled then
    "MTLS_ENABLED"
  else if paMode = "DISABLE" ∧ mtlsDisabled then "MTLS_DISABLED"
  else if paMode = "" ∧ drMode = "" then "MTLS_NOT_ENABLED"
  else "MTLS_PARTIALLY_ENABLED"

/-- The mesh-only part of the precedence cascade as the specification writes it
(steps 3 to 8 of section 4.4), first match wins. -/
def specMeshCascade (mesh : TlsStatus) (autoMtlsEnabled allowPermissive : Bool) : String :=
  let dr := mesh.DestinationRuleStatus
  let pa := mesh.PeerAuthenticationStatus
  if mesh.OverallStatus = "MTLS_ENABLED" ∨ mesh.OverallStatus = "MTLS_DISABLED" then
    mesh.OverallStatus
  else if pa = "" ∧ dr = "" then "MTLS_NOT_ENABLED"
  else if (pa = "DISABLE" ∧ dr = "") ∨ (dr = "DISABLE" ∧ pa = "") then "MTLS_DISABLED"
  else if autoMtlsEnabled = true ∧
      ((pa = "STRICT" ∧ dr = "") ∨ ((dr = "ISTIO_MUTUAL" ∨ dr = "MUTUAL") ∧ pa = "") ∨
        (allowPermissive = true ∧ pa = "PERMISSIVE" ∧ dr = "")) then "MTLS_ENABLED"
  else "MTLS_PARTIALLY_ENABLED"

end Mtls

/-! ## Collaborators of the gateway checker that are not part of its source -/

namespace Models

/-- Modelled from the spec: the key of a validation entry, `{ObjectType, Namespace, Name}`
(`models.IstioValidationKey`, whose declaration is not among the sources). -/
structure IstioValidationKey where
  ObjectType : String
  Namespace : String
  Name : String
  deriving DecidableEq, Repr

/-- Modelled from the spec: the severity of a finding, `Error` or `Warning`. -/
inductive SeverityLevel where
  | ErrorSeverity
  | WarningSeverity
  deriving DecidableEq, Repr

/-- Modelled from the spec: a validation finding `{Message, Path, Severity}`
(`models.IstioCheck`, whose declaration is not among the sources). -/
structure IstioCheck where
  Message : String
  Severity : SeverityLevel
  Path : String
  deriving DecidableEq, Repr

/-- Modelled from the spec: a validation entry (`models.IstioValidation`, whose
declaration is not among the sources), with its `Valid` flag, its ordered list
of findings and its reference keys. -/
structure IstioValidation where
  Name : String
  ObjectType : String
  Valid : Bool
  Checks : List IstioCheck
  References : List IstioValidationKey
  deriving DecidableEq, Repr

/-- Modelled from the spec: the validation graph (`models.IstioValidations`, a Go
map from keys to entries, whose declaration is not among the sources), kept as
an association list without repeated keys, in order of first insertion. -/
abbrev IstioValidations := List (IstioValidationKey × IstioValidation)

/-- Modelled from the spec: `models.Build` is not among the sources; it makes the
finding of a message key at a path. The routing-rule message is a warning, every
other message of the specification an error. -/
def Build (checkId path : String) : IstioCheck :=
  { Message := checkId
    Severity := if checkId = "virtualservices.singlehost" then .WarningSeverity
      else .ErrorSeverity
    Path := path }

/-- Modelled from the spec: the union of two reference sets (`References` is a
set of keys), kept as a list, the keys of the first one first. -/
def unionReferences (refs more : List IstioValidationKey) : List IstioValidationKey :=
  more.foldl (fun acc k => if k ∈ acc then acc else acc ++ [k]) refs

/-- Modelled from the spec: two entries for the same key merge monotonically;
findings concatenate, references union, `Valid` is the logical AND. -/
def mergeEntry (v w : IstioValidation) : IstioValidation :=
  { v with
    Checks := v.Checks ++ w.Checks
    Valid := v.Valid && w.Valid
    References := unionReferences v.References w.References }

/-- Modelled from the spec: the merge of one keyed entry into a graph, the step of
`MergeValidations`. -/
def mergeOne (iv : IstioValidations) (key : IstioValidationKey) (validation : IstioValidation) :
    IstioValidations :=
  if iv.any (fun e => e.1 = key) then
    iv.map (fun e => if e.1 = key then (e.1, mergeEntry e.2 validation) else e)
  else
    iv ++ [(key, validation)]

/-- Modelled from the spec: `IstioValidations.MergeValidations` is not among the
sources; every entry of the argument is merged into the receiver, under its key. -/
def IstioValidations.MergeValidations (iv validations : IstioValidations) : IstioValidations :=
  validations.foldl (fun acc e => mergeOne acc e.1 e.2) iv

/-- Modelled from the spec: `IstioValidations.MergeReferences` is not among the
sources; every entry of the receiver gets a reference to every key of the
argument. -/
def IstioValidations.MergeReferences (iv validations : IstioValidations) : IstioValidations :=
  iv.map (fun e =>
    (e.1, { e.2 with References := unionReferences e.2.References (validations.map (·.1)) }))

/-- The entry of the first key of a graph lists the second key among its
references. -/
def refers (iv : IstioValidations) (a b : IstioValidationKey) : Prop :=
  ∃ v, (a, v) ∈ iv ∧ b ∈ v.References

/-- The findings of the entry of a key in a graph; none when the key has no
entry. -/
def checksOf : IstioValidations → IstioValidationKey → List IstioCheck
  | [], _ => []
  | e :: t, k => if e.1 = k then e.2.Checks else checksOf t k

end Models

/-! ## Go library functions used by `findMatch` -/

namespace GoLib

/-- The function `strings.Replace(s, old, new, -1)` for a one-character `old`. -/
def stringsReplace (s : String) (old : Char) (new : String) : String :=
  ⟨s.data.flatMap (fun c => if c = old then new.data else [c])⟩

/-- The function `strings.ToLower`, on ASCII letters (Go also lowers the letters
outside ASCII). -/
def stringsToLower (s : String) : String :=
  ⟨s.data.map Char.toLower⟩

/-- The function `strings.Join(elems, "")`. -/
def stringsJoin (elems : List String) : String :=
  ⟨(elems.map String.data).flatten⟩

/-- An atom of a parsed regular expression. -/
inductive Atom where
  | beginText
  | endText
  | lit (c : Char)
  deriving DecidableEq, Repr

/-- An atom, possibly under the repetition operator `*`. -/
structure Piece where
  atom : Atom
  star : Bool
  deriving DecidableEq, Repr

/-- A character that the parser reads as a literal. -/
def literalChar (c : Char) : Prop :=
  c ≠ '\\' ∧ c ≠ '*' ∧ c ≠ '^' ∧ c ≠ '$' ∧ c ∉ ['.', '+', '?', '(', ')', '|', '[', ']', '{', '}']

/-- The pieces of a run of literal characters. -/
def litPieces (a : List Char) : List Piece :=
  a.map fun c => ⟨.lit c, false⟩

/-- The parser of `regexp.MustCompile` on the patterns `findMatch` builds: `^`,
`$`, `\.`, `*` applied to the atom before it, and literal characters. The
arguments are the pattern left to read, the pieces read (the latest first) and
whether the last token read was a repetition. The result is `none` where Go
rejects the pattern (a `*` with nothing before it, a `*` right after a `*`), so
that `MustCompile` panics, and for patterns with a construct outside this
fragment, whose behaviour is not modelled. -/
def parseRegexp : List Char → List Piece → Bool → Option (List Piece)
  | [], acc, _ => some acc.reverse
  | c :: rest, acc, lastRepeat =>
    if c = '\\' then
      match rest with
      | '.' :: rest' => parseRegexp rest' (⟨.lit '.', false⟩ :: acc) false
      | _ => none
    else if c = '*' then
      match acc, lastRepeat with
      | p :: acc', false => parseRegexp rest (⟨p.atom, true⟩ :: acc') true
      | _, _ => none
    else if c = '^' then parseRegexp rest (⟨.beginText, false⟩ :: acc) false
    else if c = '$' then parseRegexp rest (⟨.endText, false⟩ :: acc) false
    else if c ∈ ['.', '+', '?', '(', ')', '|', '[', ']', '{', '}'] then none
    else parseRegexp rest (⟨.lit c, false⟩ :: acc) false

/-- Zero or more copies of the character `c`, then the continuation `k`. -/
def starLit (c : Char) (k : Bool → List Char → Bool) : List Char → Bool → Bool
  | [], atStart => k atStart []
  | d :: t, atStart => k atStart (d :: t) || (c == d && starLit c k t false)

/-- Whether the pieces match a prefix of the text; `atStart` tells whether the
text begins at the beginning of the searched string. -/
def matchPieces : List Piece → Bool → List Char → Bool
  | [], _, _ => true
  | ⟨.beginText, false⟩ :: ps, atStart, s => atStart && matchPieces ps atStart s
  | ⟨.endText, false⟩ :: ps, atStart, s => s.isEmpty && matchPieces ps atStart s
  | ⟨.lit c, false⟩ :: ps, _, s =>
    match s with
    | [] => false
    | d :: t => c == d && matchPieces ps false t
  | ⟨.lit c, true⟩ :: ps, atStart, s => starLit c (matchPieces ps) s atStart
  | ⟨_, true⟩ :: ps, atStart, s => matchPieces ps atStart s

/-- Whether the pieces match at some position of the text (an unanchored search,
as `MatchString` does). -/
def searchFrom (ps : List Piece) : List Char → Bool → Bool
  | [], atStart => matchPieces ps atStart []
  | d :: t, atStart => matchPieces ps atStart (d :: t) || searchFrom ps t false

/-- The call `regexp.MustCompile(pattern).MatchString(text)`; `none` when
`MustCompile` panics or the pattern is outside the modelled fragment. -/
def regexpMatchString (pattern text : String) : Option Bool :=
  (parseRegexp pattern.data [] false).map fun ps => searchFrom ps text.data true

end GoLib

/-! ## business/checkers/gateways/multi_match_checker.go -/

namespace Gateways

open Models GoLib

/-- A value of Go's `interface{}` inside the free-form body of a mesh object.
Numbers are kept as integers. -/
inductive Value where
  | null
  | bool (b : Bool)
  | int (n : Int)
  | str (s : String)
  | list (xs : List Value)
  | map (kvs : List (String × Value))

/-- The view of `kubernetes.IstioObject` the checkers read: the name, the
namespace and the cluster name of `GetObjectMeta()` and the map of `GetSpec()`. -/
structure IstioObject where
  Name : String
  Namespace : String
  Spec : List (String × Value)
  ClusterName : String := ""

/-- The two functions of other packages that the checker calls and that are not
among the sources: `labels.Set(m).String()` of the Kubernetes library and
`intutil.Convert` (`none` for its error result). -/
structure External where
  labelsSetString : List (String × String) → String
  intutilConvert : Value → Option Int

def GatewayCheckerType : String := "gateway"
def wildCardMatch : String := "*"

structure Host where
  Port : Int
  Hostname : String
  Namespace : String
  ServerIndex : Nat
  HostIndex : Nat
  GatewayRuleName : String
  deriving DecidableEq, Repr

/-- The Go function `func createError(gatewayRuleName, namespace string, serverIndex, hostIndex int)` -/
def createError (gatewayRuleName «namespace» : String) (serverIndex hostIndex : Nat) :
    IstioValidations :=
  let key : IstioValidationKey :=
    { Name := gatewayRuleName, Namespace := «namespace», ObjectType := GatewayCheckerType }
  let checks := Build "gateways.multimatch"
    ("spec/servers[" ++ toString serverIndex ++ "]/hosts[" ++ toString hostIndex ++ "]")
  let rrValidation : IstioValidation :=
    { Name := gatewayRuleName
      ObjectType := GatewayCheckerType
      Valid := true
      Checks := [checks]
      References := [] }
  [(key, rrValidation)]

/-- The Go function `func parsePortAndHostnames(serverDef map[string]interface{}) []Host` -/
def parsePortAndHostnames (ext : External) (serverDef : List (String × Value)) : List Host :=
  let port : Int :=
    match serverDef.lookup "port" with
    | some (.map ports) =>
      match ports.lookup "number" with
      | some numberDef =>
        match ext.intutilConvert numberDef with
        | some portNumber => portNumber
        | none => 0
      | none => 0
    | _ => 0
  match serverDef.lookup "hosts" with
  | some (.list hostnames) =>
    hostnames.filterMap fun hostinterface =>
      match hostinterface with
      | .str hostname =>
        some { Port := port, Hostname := hostname, Namespace := "", ServerIndex := 0,
               HostIndex := 0, GatewayRuleName := "" }
      | _ => none
  | _ => []

/-- The hostname test of `findMatch` for two bindings on the same port: `*` on
either side, or one hostname, as an anchored regular expression with its dots
escaped, matching the other one lower-cased with `*` replaced by `.*`. The
second expression is compiled only when the first one does not match. -/
def hostnamesMatch (host h : Host) : Option Bool :=
  if host.Hostname = wildCardMatch ∨ h.Hostname = wildCardMatch then
    some true
  else
    let current := stringsToLower (stringsReplace host.Hostname '*' ".*")
    let previous := stringsToLower (stringsReplace h.Hostname '*' ".*")
    let escapedCurrent := stringsReplace host.Hostname '.' "\\."
    let escapedPrevious := stringsReplace h.Hostname '.' "\\."
    let currentRegexp := stringsJoin ["^", escapedCurrent, "$"]
    let previousRegexp := stringsJoin ["^", escapedPrevious, "$"]
    match regexpMatchString currentRegexp previous with
    | none => none
    | some true => some true
    | some false => regexpMatchString previousRegexp current

/-- The loop of `findMatch` over the bindings of one selector group. -/
def findDuplicates (host : Host) : List Host → List Host → Option (List Host)
  | [], duplicates => some duplicates
  | h :: hostGroup, duplicates =>
    if h.Port = host.Port then
      match hostnamesMatch host h with
      | none => none
      | some true => findDuplicates host hostGroup (duplicates ++ [host, h])
      | some false => findDuplicates host hostGroup duplicates
    else
      findDuplicates host hostGroup duplicates

/-- The Go function `func (m MultiMatchChecker) findMatch(host Host, selector string) (bool, []Host)`;
`existingList` is the Go map from selector strings to bindings (a missing key
is the empty list), and the result is `none` when a `MustCompile` panics. -/
def findMatch (existingList : String → List Host) (host : Host) (selector : String) :
    Option (Bool × List Host) :=
  (findDuplicates host (existingList selector) []).map fun duplicates =>
    (decide (duplicates.length > 0), duplicates)

/-- The variables `validations` and `m.existingList` of `Check`. -/
structure CheckState where
  validations : IstioValidations
  existingList : String → List Host

/-- The body of the loop of `Check` over `dhosts[1:]`, on the pair of `validations`
and `currentHostValidation`. -/
def mergeDuplicate (acc : IstioValidations × IstioValidations) (dh : Host) :
    IstioValidations × IstioValidations :=
  let refValidation := createError dh.GatewayRuleName dh.Namespace dh.ServerIndex dh.HostIndex
  let refValidation := refValidation.MergeReferences acc.2
  let currentHostValidation := acc.2.MergeReferences refValidation
  (acc.1.MergeValidations refValidation, currentHostValidation)

/-- The loop of `Check` over `dhosts[1:]`: the current binding is always the first
of the duplicates and is skipped. -/
def mergeDuplicates (dhosts : List Host) (validations currentHostValidation : IstioValidations) :
    IstioValidations × IstioValidations :=
  (dhosts.drop 1).foldl mergeDuplicate (validations, currentHostValidation)

/-- The body of the innermost loop of `Check`, for one binding of a gateway. -/
def checkHost (selectorString : String) (st : CheckState) (host : Host) : Option CheckState :=
  match findMatch st.existingList host selectorString with
  | none => none
  | some (duplicate, dhosts) =>
    let validations :=
      if duplicate then
        let currentHostValidation :=
          createError host.GatewayRuleName host.Namespace host.ServerIndex host.HostIndex
        let merged := mergeDuplicates dhosts st.validations currentHostValidation
        merged.1.MergeValidations merged.2
      else
        st.validations
    some
      { validations := validations
        existingList := fun s =>
          if s = selectorString then st.existingList s ++ [host] else st.existingList s }

/-- The selector string of a gateway in `Check`: empty when `spec.selector` is
absent or is not a map; `none` when the type assertion `v.(string)` panics. -/
def selectorString (ext : External) (g : IstioObject) : Option String :=
  match g.Spec.lookup "selector" with
  | some (.map selector) =>
    let selectorMap : Option (List (String × String)) :=
      selector.mapM fun (kv : String × Value) =>
        match kv.2 with
        | .str v => some (kv.1, v)
        | _ => none
    selectorMap.map ext.labelsSetString
  | _ => some ""

/-- The bindings of one server entry of a gateway, with their positions and owner. -/
def serverHosts (ext : External) (g : IstioObject) (i : Nat) (serverDef : Value) : List Host :=
  match serverDef with
  | .map serverDef =>
    (parsePortAndHostnames ext serverDef).enum.map fun hh =>
      { hh.2 with
        ServerIndex := i
        HostIndex := hh.1
        GatewayRuleName := g.Name
        Namespace := g.Namespace }
  | _ => []

/-- The body of the loop of `Check` over the gateways. -/
def checkGateway (ext : External) (st : CheckState) (g : IstioObject) : Option CheckState :=
  match selectorString ext g with
  | none => none
  | some sel =>
    match g.Spec.lookup "servers" with
    | some (.list servers) =>
      servers.enum.foldlM
        (fun (st : CheckState) (idef : Nat × Value) =>
          (serverHosts ext g idef.1 idef.2).foldlM (checkHost sel) st) st
    | _ => some st

/-- The Go function `func (m MultiMatchChecker) Check() models.IstioValidations`; `none` when the
run panics. -/
def Check (ext : External) (GatewaysPerNamespace : List (List IstioObject)) :
    Option IstioValidations :=
  let start : CheckState := { validations := [], existingList := fun _ => [] }
  let final : Option CheckState :=
    GatewaysPerNamespace.foldlM
      (fun (st : CheckState) (nsG : List IstioObject) => nsG.foldlM (checkGateway ext) st) start
  final.map (·.validations)

/-- The characters of a wildcard-free hostname in lower case: lower-case
letters, digits, `-` and `.`. -/
def isHostnameChar (c : Char) : Bool :=
  c.isLower || c.isDigit || c == '-' || c == '.'

/-- A wildcard-free hostname in lower case. -/
def plainHostname (s : String) : Prop :=
  ∀ c ∈ s.data, isHostnameChar c = true

instance (s : String) : Decidable (plainHostname s) := by
  unfold plainHostname
  infer_instance

/-- The key of the validation entry of the gateway that owns a binding. -/
def hostKey (h : Host) : IstioValidationKey :=
  { ObjectType := GatewayCheckerType, Namespace := h.Namespace, Name := h.GatewayRuleName }

/-- The bindings of one gateway, in the order `Check` visits them. -/
def gatewayHosts (ext : External) (g : IstioObject) : List Host :=
  match g.Spec.lookup "servers" with
  | some (.list servers) =>
    servers.enum.flatMap fun (idef : Nat × Value) => serverHosts ext g idef.1 idef.2
  | _ => []

/-- The bindings of a list of gateways with the selector string each one is
checked under, in the order `Check` visits them; `none` when a selector makes
`Check` panic. -/
def bindingsOf (ext : External) : List IstioObject → Option (List (Host × String))
  | [] => some []
  | g :: gs =>
    match selectorString ext g, bindingsOf ext gs with
    | some sel, some rest => some ((gatewayHosts ext g).map (fun h => (h, sel)) ++ rest)
    | _, _ => none

/-- All the bindings of an input of `Check`, group after group. -/
def allBindings (ext : External) (GatewaysPerNamespace : List (List IstioObject)) :
    Option (List (Host × String)) :=
  bindingsOf ext GatewaysPerNamespace.flatten

/-- No comparison of a binding with an earlier binding of the same selector and
port makes `regexp.MustCompile` panic. -/
def comparable (bs : List (Host × String)) : Prop :=
  bs.Pairwise fun b1 b2 =>
    b1.2 = b2.2 → b1.1.Port = b2.1.Port → hostnamesMatch b2.1 b1.1 ≠ none

instance (bs : List (Host × String)) : Decidable (comparable bs) := by
  unfold comparable
  infer_instance

/-- The finding `createError` makes for a binding. -/
def findingOf (h : Host) : IstioCheck :=
  Build "gateways.multimatch"
    ("spec/servers[" ++ toString h.ServerIndex ++ "]/hosts[" ++ toString h.HostIndex ++ "]")

/-- The duplicates `findMatch` returns when no comparison panics: the new binding
and the old one, for every old binding on the same port whose hostname matches. -/
def matchingPairs (existing : List Host) (host : Host) : List Host :=
  existing.flatMap fun h =>
    if h.Port = host.Port ∧ hostnamesMatch host h = some true then [host, h] else []

/-- The graph after the step of `Check` for one binding, given the bindings of
its selector group, when no comparison panics. -/
def stepValidations (validations : IstioValidations) (existing : List Host) (host : Host) :
    IstioValidations :=
  if (matchingPairs existing host).length > 0 then
    (mergeDuplicates (matchingPairs existing host) validations
      (createError host.GatewayRuleName host.Namespace host.ServerIndex host.HostIndex)).1.MergeValidations
    (mergeDuplicates (matchingPairs existing host) validations
      (createError host.GatewayRuleName host.Namespace host.ServerIndex host.HostIndex)).2
  else
    validations

/-- A stand-in for the two external functions, for concrete runs: labels are
rendered `key=value` and joined by commas in the order given, and a port number
is an integer value. -/
def External.sample : External where
  labelsSetString := fun kvs => String.intercalate "," (kvs.map fun kv => kv.1 ++ "=" ++ kv.2)
  intutilConvert := fun v =>
    match v with
    | .int n => some n
    | _ => none

/-- A gateway with one server entry, as the tests of the checker build them. -/
def sampleGateway (name «namespace» app : String) (port : Int) (hosts : List String) :
    IstioObject where
  Name := name
  Namespace := «namespace»
  Spec :=
    [("selector", .map [("app", .str app)]),
     ("servers", .list
        [.map [("port", .map [("number", .int port)]), ("hosts", .list (hosts.map Value.str))]])]

end Gateways

/-! ## business/checkers/virtual_services/single_host_checker.go -/

namespace VirtualServices

open Models Gateways

/-- The resolved host `kubernetes.Host`, the result of the external resolver. -/
structure Host where
  Service : String
  Namespace : String
  Cluster : String
  CompleteInput : Bool
  deriving DecidableEq, Repr

/-- What the checker takes from other packages and that is not among the
sources: the resolver `kubernetes.GetHost(hostName, namespace, clusterName,
names)` and the configured identity domain
`config.Get().ExternalServices.Istio.IstioIdentityDomain`. -/
structure Environment where
  getHost : String → String → String → List String → Host
  istioIdentityDomain : String

/-- The order in which a `range` over a Go map visits its entries: some
arrangement of the entries, not fixed by the language. -/
structure RangeOrder where
  order : {α : Type} → List (String × α) → List (String × α)
  arranges : ∀ {α : Type} (m : List (String × α)), (order m).Perm m

/-- The receiver of the checker; `Namespaces` holds the names that
`s.Namespaces.GetNames()` returns. -/
structure SingleHostChecker where
  Namespace : String
  Namespaces : List String
  VirtualServices : List IstioObject

/-- A Go map with string keys, kept as an association list in order of first
insertion. The function sets the value of a key: `init` when the key is absent,
`update` of the old value otherwise. -/
def mapUpsert {α : Type} (m : List (String × α)) (key : String) (init : α) (update : α → α) :
    List (String × α) :=
  if m.any (fun e => e.1 = key) then
    m.map (fun e => if e.1 = key then (e.1, update e.2) else e)
  else
    m ++ [(key, init)]

/-- The map `hostCounter` of `Check`: gateway, cluster, namespace, service, and
the routing rules stored under them. -/
abbrev HostCounter :=
  List (String × List (String × List (String × List (String × List IstioObject))))

/-- The Go function `func getGateways(virtualService *kubernetes.IstioObject) []string` -/
def getGateways (virtualService : IstioObject) : List String :=
  match virtualService.Spec.lookup "gateways" with
  | some (.list vsGateways) =>
    vsGateways.filterMap fun gwRaw =>
      match gwRaw with
      | .str gw => some gw
      | _ => none
  | _ => []

/-- The Go function `func (s SingleHostChecker) getHosts(virtualService kubernetes.IstioObject) []kubernetes.Host` -/
def getHosts (env : Environment) (s : SingleHostChecker) (virtualService : IstioObject) :
    List Host :=
  let «namespace» := virtualService.Namespace
  let clusterName :=
    if virtualService.ClusterName = "" then env.istioIdentityDomain
    else virtualService.ClusterName
  match virtualService.Spec.lookup "hosts" with
  | some (.list slice) =>
    slice.filterMap fun entry =>
      match entry with
      | .str hostName => some (env.getHost hostName «namespace» clusterName s.Namespaces)
      | _ => none
  | _ => []

/-- The Go function `func storeHost(hostCounter map[string]map[string]map[string]map[string][]*kubernetes.IstioObject, vs kubernetes.IstioObject, host kubernetes.Host)` -/
def storeHost (env : Environment) (hostCounter : HostCounter) (vs : IstioObject) (host : Host) :
    HostCounter :=
  let vsList := [vs]
  let gwList := getGateways vs
  let gwList := if gwList.length = 0 then ["no-gateway"] else gwList
  let host : Host :=
    if !host.CompleteInput then
      { host with Cluster := env.istioIdentityDomain, Namespace := vs.Namespace }
    else host
  gwList.foldl
    (fun hostCounter gw =>
      mapUpsert hostCounter gw [(host.Cluster, [(host.Namespace, [(host.Service, vsList)])])]
        fun clusters =>
          mapUpsert clusters host.Cluster [(host.Namespace, [(host.Service, vsList)])]
            fun namespaces =>
              mapUpsert namespaces host.Namespace [(host.Service, vsList)]
                fun services => mapUpsert services host.Service vsList fun l => l ++ [vs])
    hostCounter

/-- The key of the validation entry of a routing rule. -/
def vsKey (virtualService : IstioObject) : IstioValidationKey :=
  { Name := virtualService.Name, Namespace := virtualService.Namespace,
    ObjectType := "virtualservice" }

/-- The Go function `func multipleVirtualServiceCheck(virtualService kubernetes.IstioObject, validations models.IstioValidations, references []*kubernetes.IstioObject)`;
the graph it updates in place is returned. -/
def multipleVirtualServiceCheck (virtualService : IstioObject) (validations : IstioValidations)
    (references : List IstioObject) : IstioValidations :=
  let virtualServiceName := virtualService.Name
  let key : IstioValidationKey :=
    { Name := virtualServiceName, Namespace := virtualService.Namespace,
      ObjectType := "virtualservice" }
  let checks := Build "virtualservices.singlehost" "spec/hosts"
  let rrValidation : IstioValidation :=
    { Name := virtualServiceName
      ObjectType := "virtualservice"
      Valid := true
      Checks := [checks]
      References :=
        references.filterMap fun ref =>
          let refKey : IstioValidationKey :=
            { Name := ref.Name, Namespace := ref.Namespace, ObjectType := "virtualservice" }
          if refKey ≠ key then some refKey else none }
  validations.MergeValidations [(key, rrValidation)]

/-- The first loop of `Check`: every host of every routing rule is stored. -/
def buildHostCounter (env : Environment) (s : SingleHostChecker) : HostCounter :=
  s.VirtualServices.foldl
    (fun hostCounter vs =>
      (getHosts env s vs).foldl (fun hostCounter host => storeHost env hostCounter vs host)
        hostCounter)
    []

/-- The body of the loop of `Check` over the services of one namespace. -/
def checkService (ro : RangeOrder) (namespaceCounter : List (String × List IstioObject))
    (validations : IstioValidations) (serviceCounter : List IstioObject) : IstioValidations :=
  let isNamespaceWildcard := decide (((namespaceCounter.lookup "*").getD []).length > 0)
  let targetSameHost := decide (serviceCounter.length > 1)
  let otherServiceHosts := decide (namespaceCounter.length > 1)
  serviceCounter.foldl
    (fun validations virtualService =>
      let validations :=
        if targetSameHost then
          multipleVirtualServiceCheck virtualService validations serviceCounter
        else validations
      if isNamespaceWildcard && otherServiceHosts then
        let refs := (ro.order namespaceCounter).flatMap fun serviceCounter => serviceCounter.2
        multipleVirtualServiceCheck virtualService validations refs
      else validations)
    validations

/-- The second loop of `Check`, over a host counter. -/
def checkHostCounter (ro : RangeOrder) (hostCounter : HostCounter) : IstioValidations :=
  (ro.order hostCounter).foldl
    (fun validations gateways =>
      (ro.order gateways.2).foldl
        (fun validations clusterCounter =>
          (ro.order clusterCounter.2).foldl
            (fun validations namespaceCounter =>
              (ro.order namespaceCounter.2).foldl
                (fun validations serviceCounter =>
                  checkService ro namespaceCounter.2 validations serviceCounter.2)
                validations)
            validations)
        validations)
    []

/-- The Go function `func (s SingleHostChecker) Check() models.IstioValidations` -/
def Check (env : Environment) (ro : RangeOrder) (s : SingleHostChecker) : IstioValidations :=
  checkHostCounter ro (buildHostCounter env s)

/-- The order of first insertion, one of the orders a `range` may take. -/
def RangeOrder.insertion : RangeOrder where
  order := fun m => m
  arranges := fun m => List.Perm.refl m

/-- A stand-in for the resolver, for concrete runs: every host string is taken
as a bare service name of the rule's namespace and cluster. -/
def Environment.sample : Environment where
  getHost := fun hostName «namespace» clusterName _ =>
    { Service := hostName, Namespace := «namespace», Cluster := clusterName,
      CompleteInput := false }
  istioIdentityDomain := "svc.cluster.local"

/-- A routing rule of the namespace `bookinfo`, as the tests of the checker build
them. -/
def sampleVirtualService (name : String) (hosts : List String) : IstioObject where
  Name := name
  Namespace := "bookinfo"
  Spec := [("hosts", .list (hosts.map Value.str))]

/-- The effective gateway scope of a routing rule in `storeHost`: the gateway
names it declares, or the sentinel `no-gateway` when it declares none. -/
def gatewayScope (vs : IstioObject) : List String :=
  let gwList := getGateways vs
  if gwList.length = 0 then ["no-gateway"] else gwList

/-- The resolved host as `storeHost` uses it for the grouping key, after the
assignments it makes when `CompleteInput` is false. -/
def groupingHost (env : Environment) (vs : IstioObject) (host : Host) : Host :=
  if !host.CompleteInput then
    { host with Cluster := env.istioIdentityDomain, Namespace := vs.Namespace }
  else host

/-- The body of the loop of `storeHost` over the gateways, for the host as it is
grouped. -/
def storeUnder (hostCounter : HostCounter) (vs : IstioObject) (host : Host) (gw : String) :
    HostCounter :=
  mapUpsert hostCounter gw [(host.Cluster, [(host.Namespace, [(host.Service, [vs])])])]
    fun clusters =>
      mapUpsert clusters host.Cluster [(host.Namespace, [(host.Service, [vs])])]
        fun namespaces =>
          mapUpsert namespaces host.Namespace [(host.Service, [vs])]
            fun services => mapUpsert services host.Service [vs] fun l => l ++ [vs]

/-- The value of a Go map at a key, `m[key]`: the zero value of the slice and map
types, here the empty list, when the key is absent. -/
def mapIndex {α : Type} (m : List (String × List α)) (key : String) : List α :=
  (m.lookup key).getD []

/-- The routing rules of `hostCounter[gw][cluster][namespace][service]`. -/
def storedAt (hostCounter : HostCounter) (gw cluster «namespace» service : String) :
    List IstioObject :=
  mapIndex (mapIndex (mapIndex (mapIndex hostCounter gw) cluster) «namespace») service

/-- A routing rule of the checker maps to the key (gateway, cluster, namespace,
service): the gateway is in its scope and one of its hosts resolves to the
cluster, the namespace and the service. -/
def mapsTo (env : Environment) (s : SingleHostChecker) (vs : IstioObject)
    (gw cluster «namespace» service : String) : Prop :=
  vs ∈ s.VirtualServices ∧ ∃ host ∈ getHosts env s vs, gw ∈ gatewayScope vs ∧
    (groupingHost env vs host).Cluster = cluster ∧
    (groupingHost env vs host).Namespace = «namespace» ∧
    (groupingHost env vs host).Service = service

/-- A routing rule takes part in a conflict, in the words of the specification
and of the comment in `Check` (more than one virtual service per host, or one
virtual service with the wildcard and other virtual services): another routing
rule of the input maps to the same gateway, cluster and namespace, and the two
map to the same service or one of them maps to the service `*`. -/
def inConflict (env : Environment) (s : SingleHostChecker) (vs : IstioObject) : Prop :=
  ∃ other ∈ s.VirtualServices, other ≠ vs ∧
    ∃ gw cluster «namespace» service service',
      mapsTo env s vs gw cluster «namespace» service ∧
      mapsTo env s other gw cluster «namespace» service' ∧
      (service = service' ∨ service = "*" ∨ service' = "*")

/-- The calls of `multipleVirtualServiceCheck` that `Check` makes for the routing
rules of one service of a namespace, in order: the routing rule and the
references it is called with. -/
def serviceCalls (ro : RangeOrder) (namespaceCounter : List (String × List IstioObject))
    (serviceCounter : List IstioObject) : List (IstioObject × List IstioObject) :=
  serviceCounter.flatMap fun virtualService =>
    (if serviceCounter.length > 1 then [(virtualService, serviceCounter)] else []) ++
    (if ((namespaceCounter.lookup "*").getD []).length > 0 ∧ namespaceCounter.length > 1 then
      [(virtualService, (ro.order namespaceCounter).flatMap fun serviceCounter => serviceCounter.2)]
    else [])

/-- The calls of `multipleVirtualServiceCheck` that the second loop of `Check`
makes, in order. -/
def calls (ro : RangeOrder) (hostCounter : HostCounter) : List (IstioObject × List IstioObject) :=
  (ro.order hostCounter).flatMap fun gateways =>
    (ro.order gateways.2).flatMap fun clusterCounter =>
      (ro.order clusterCounter.2).flatMap fun namespaceCounter =>
        (ro.order namespaceCounter.2).flatMap fun serviceCounter =>
          serviceCalls ro namespaceCounter.2 serviceCounter.2

/-- The entry `multipleVirtualServiceCheck` makes for a routing rule and its
references. -/
def entryOf (virtualService : IstioObject) (references : List IstioObject) : IstioValidation :=
  { Name := virtualService.Name
    ObjectType := "virtualservice"
    Valid := true
    Checks := [Build "virtualservices.singlehost" "spec/hosts"]
    References := references.filterMap fun ref =>
      if vsKey ref ≠ vsKey virtualService then some (vsKey ref) else none }

/-- Every map of a host counter holds each of its keys once, as a Go map does. -/
def keyed {α : Type} (P : α → Prop) (m : List (String × α)) : Prop :=
  (m.map (·.1)).Nodup ∧ ∀ e ∈ m, P e.2

/-- The four levels of a host counter are maps, and every list of routing rules
in it holds a rule. -/
def wellKeyed (hostCounter : HostCounter) : Prop :=
  keyed (keyed (keyed (keyed fun l => l ≠ []))) hostCounter

/-- The reverse of the order of first insertion, another of the orders a
`range` may take. -/
def RangeOrder.reversed : RangeOrder where
  order := fun m => m.reverse
  arranges := fun m => List.reverse_perm m

/-- A routing rule of the namespace `bookinfo` with gateways, as the tests of
the checker build them. -/
def sampleVirtualServiceWithGateways (name : String) (hosts gateways : List String) :
    IstioObject where
  Name := name
  Namespace := "bookinfo"
  Spec := [("hosts", .list (hosts.map Value.str)), ("gateways", .list (gateways.map Value.str))]

/-- The checker of the namespace `bookinfo` on a list of routing rules, as the
tests build it. -/
def sampleChecker (rules : List IstioObject) : SingleHostChecker :=
  { Namespace := "bookinfo", Namespaces := [], VirtualServices := rules }

end VirtualServices

/-! ## The selector map of the gateway checker, visited as `range` visits it -/

namespace Gateways

open Models GoLib

/-- The variables `validations` and `m.existingList` of `Check`, the map
`m.existingList` kept with its entries. -/
structure RangeState where
  validations : IstioValidations
  existingList : List (String × List Host)

/-- The Go function `func (m MultiMatchChecker) findMatch(host Host, selector string) (bool, []Host)`
with its loop over the map `m.existingList` as written, in the order a `range`
visits the entries: the groups of another selector are skipped. -/
def findMatchRange (ro : VirtualServices.RangeOrder) (existingList : List (String × List Host))
    (host : Host) (selector : String) : Option (Bool × List Host) :=
  ((ro.order existingList).foldlM
    (fun (duplicates : List Host) (group : String × List Host) =>
      if group.1 ≠ selector then some duplicates
      else findDuplicates host group.2 duplicates) []).map
    fun duplicates => (decide (duplicates.length > 0), duplicates)

/-- The body of the innermost loop of `Check`, with `findMatchRange`. -/
def checkHostRange (ro : VirtualServices.RangeOrder) (selectorString : String)
    (st : RangeState) (host : Host) : Option RangeState :=
  match findMatchRange ro st.existingList host selectorString with
  | none => none
  | some (duplicate, dhosts) =>
    let validations :=
      if duplicate then
        let currentHostValidation :=
          createError host.GatewayRuleName host.Namespace host.ServerIndex host.HostIndex
        let merged := mergeDuplicates dhosts st.validations currentHostValidation
        merged.1.MergeValidations merged.2
      else
        st.validations
    some
      { validations := validations
        existingList :=
          VirtualServices.mapUpsert st.existingList selectorString [host] fun l => l ++ [host] }

/-- The body of the loop of `Check` over the gateways, with `findMatchRange`. -/
def checkGatewayRange (ext : External) (ro : VirtualServices.RangeOrder) (st : RangeState)
    (g : IstioObject) : Option RangeState :=
  match selectorString ext g with
  | none => none
  | some sel =>
    match g.Spec.lookup "servers" with
    | some (.list servers) =>
      servers.enum.foldlM
        (fun (st : RangeState) (idef : Nat × Value) =>
          (serverHosts ext g idef.1 idef.2).foldlM (checkHostRange ro sel) st) st
    | _ => some st

/-- The Go function `func (m MultiMatchChecker) Check() models.IstioValidations` with the loop
of `findMatch` over the map in the order a `range` visits the entries; `none`
when the run panics. -/
def CheckRange (ext : External) (ro : VirtualServices.RangeOrder)
    (GatewaysPerNamespace : List (List IstioObject)) : Option IstioValidations :=
  let start : RangeState := { validations := [], existingList := [] }
  let final : Option RangeState :=
    GatewaysPerNamespace.foldlM
      (fun (st : RangeState) (nsG : List IstioObject) =>
        nsG.foldlM (checkGatewayRange ext ro) st) start
  final.map (·.validations)

/-- The two forms of the state of `Check` hold the same graph and the same
bindings under every selector, and the map holds each selector once. -/
def sameState (st : RangeState) (st2 : CheckState) : Prop :=
  st.validations = st2.validations ∧ (st.existingList.map (·.1)).Nodup ∧
    ∀ sel, VirtualServices.mapIndex st.existingList sel = st2.existingList sel

/-- Two results are both a panic, or both a state, the two states related. -/
def sameResult {σ τ : Type} (R : σ → τ → Prop) : Option σ → Option τ → Prop
  | none, none => True
  | some s, some t => R s t
  | _, _ => False

end Gateways

/-! ## business/checkers/destinationrules/disabled_namespacewide_mtls_checker.go -/

namespace DestinationRules

open Models Gateways

/-- The functions of the package `kubernetes` that the checker calls and that are
not among the sources; each returns what the Go function returns. -/
structure Kubernetes where
  DestinationRuleHasNamespaceWideMTLSEnabled : String → IstioObject → Bool × String
  PeerAuthnHasMTLSEnabled : IstioObject → Bool × String
  PeerAuthnHasStrictMTLS : IstioObject → Bool

/-- The fields of `kubernetes.MTLSDetails` that the checker and its tests use. -/
structure MTLSDetails where
  PeerAuthentications : List IstioObject := []
  MeshPeerAuthentications : List IstioObject := []
  EnabledAutoMtls : Bool := false

structure DisabledNamespaceWideMTLSChecker where
  DestinationRule : IstioObject
  MTLSDetails : MTLSDetails

/-- The loop of `Check` over `m.MTLSDetails.PeerAuthentications`: `some` of the
result it returns, `none` when the loop ends without returning. -/
def checkPeerAuthentications (k : Kubernetes) (validations : List IstioCheck) :
    List IstioObject → Option (List IstioCheck × Bool)
  | [] => none
  | mp :: rest =>
    if (k.PeerAuthnHasMTLSEnabled mp).1 then
      if (k.PeerAuthnHasMTLSEnabled mp).2 = "STRICT" then
        let check := Build "destinationrules.mtls.policymtlsenabled" "spec/trafficPolicy/tls/mode"
        some (validations ++ [check], false)
      else
        some (validations, true)
    else
      checkPeerAuthentications k validations rest

/-- The loop of `Check` over `m.MTLSDetails.MeshPeerAuthentications`: `some` of
the result it returns, `none` when the loop ends without returning. -/
def checkMeshPeerAuthentications (k : Kubernetes) (validations : List IstioCheck) :
    List IstioObject → Option (List IstioCheck × Bool)
  | [] => none
  | mp :: rest =>
    if k.PeerAuthnHasStrictMTLS mp then
      let check := Build "destinationrules.mtls.meshpolicymtlsenabled" "spec/trafficPolicy/tls/mode"
      some (validations ++ [check], false)
    else
      checkMeshPeerAuthentications k validations rest

/-- The Go function `func (m DisabledNamespaceWideMTLSChecker) Check() ([]*models.IstioCheck, bool)` -/
def DisabledNamespaceWideMTLSChecker.Check (k : Kubernetes)
    (m : DisabledNamespaceWideMTLSChecker) : List IstioCheck × Bool :=
  let validations : List IstioCheck := []
  if (k.DestinationRuleHasNamespaceWideMTLSEnabled m.DestinationRule.Namespace
      m.DestinationRule).2 ≠ "DISABLE" then
    (validations, true)
  else
    match checkPeerAuthentications k validations m.MTLSDetails.PeerAuthentications with
    | some result => result
    | none =>
      match checkMeshPeerAuthentications k validations m.MTLSDetails.MeshPeerAuthentications with
      | some result => result
      | none => (validations, true)

/-- A stand-in for the functions of the package `kubernetes`, for concrete runs:
the mode of an object is the string at `mode` in its body, a traffic-routing
policy is namespace-wide for every namespace, and an authentication policy
enables mTLS when its mode is `STRICT` or `PERMISSIVE`. -/
def Kubernetes.sample : Kubernetes where
  DestinationRuleHasNamespaceWideMTLSEnabled := fun _ dr =>
    match dr.Spec.lookup "mode" with
    | some (.str mode) => (mode = "ISTIO_MUTUAL" || mode = "MUTUAL", mode)
    | _ => (false, "")
  PeerAuthnHasMTLSEnabled := fun pa =>
    match pa.Spec.lookup "mode" with
    | some (.str mode) => (mode = "STRICT" || mode = "PERMISSIVE", mode)
    | _ => (false, "")
  PeerAuthnHasStrictMTLS := fun pa =>
    match pa.Spec.lookup "mode" with
    | some (.str mode) => mode = "STRICT"
    | _ => false

/-- An object of a namespace with a mode, for concrete runs with
`Kubernetes.sample`. -/
def sampleObject (name «namespace» mode : String) : IstioObject where
  Name := name
  Namespace := «namespace»
  Spec := [("mode", .str mode)]

end DestinationRules

/-! ## business/checkers/peerauthentications/disabled_namespacewide_checker.go -/

namespace PeerAuthentications

open Models Gateways

/-- The functions of the package `kubernetes` that the checker calls and that are
not among the sources; each returns what the Go function returns. -/
structure Kubernetes where
  PeerAuthnHasMTLSEnabled : IstioObject → Bool × String
  DestinationRuleHasNamespaceWideMTLSEnabled : String → IstioObject → Bool × String
  DestinationRuleHasMeshWideMTLSEnabled : IstioObject → Bool × String

structure DisabledNamespaceWideChecker where
  PeerAuthn : IstioObject
  DestinationRules : List IstioObject

/-- The loop of `Check` over `c.DestinationRules`: `some` of the result it
returns, `none` when the loop ends without returning. -/
def checkDestinationRules (k : Kubernetes) (c : DisabledNamespaceWideChecker)
    (validations : List IstioCheck) : List IstioObject → Option (List IstioCheck × Bool)
  | [] => none
  | dr :: rest =>
    if (k.DestinationRuleHasNamespaceWideMTLSEnabled c.PeerAuthn.Namespace dr).2 = "ISTIO_MUTUAL" ∨
        (k.DestinationRuleHasNamespaceWideMTLSEnabled c.PeerAuthn.Namespace dr).2 = "MUTUAL" then
      let check := Build "peerauthentications.mtls.disabledestinationrulemissing" "spec/mtls"
      some (validations ++ [check], false)
    else if (k.DestinationRuleHasMeshWideMTLSEnabled dr).2 = "ISTIO_MUTUAL" ∨
        (k.DestinationRuleHasMeshWideMTLSEnabled dr).2 = "MUTUAL" then
      let check := Build "peerauthentications.mtls.disabledestinationrulemissing" "spec/mtls"
      some (validations ++ [check], false)
    else
      checkDestinationRules k c validations rest

/-- The Go function `func (c DisabledNamespaceWideChecker) Check() ([]*models.IstioCheck, bool)` -/
def DisabledNamespaceWideChecker.Check (k : Kubernetes) (c : DisabledNamespaceWideChecker) :
    List IstioCheck × Bool :=
  let validations : List IstioCheck := []
  if (k.PeerAuthnHasMTLSEnabled c.PeerAuthn).2 ≠ "DISABLE" then
    (validations, true)
  else
    match checkDestinationRules k c validations c.DestinationRules with
    | some result => result
    | none => (validations, true)

/-- A traffic-routing policy of the list requires mutual TLS, namespace-wide for
the namespace of the policy under test or mesh-wide. -/
def requiresMutual (k : Kubernetes) (c : DisabledNamespaceWideChecker) (dr : IstioObject) :
    Prop :=
  ((k.DestinationRuleHasNamespaceWideMTLSEnabled c.PeerAuthn.Namespace dr).2 = "ISTIO_MUTUAL" ∨
    (k.DestinationRuleHasNamespaceWideMTLSEnabled c.PeerAuthn.Namespace dr).2 = "MUTUAL") ∨
  ((k.DestinationRuleHasMeshWideMTLSEnabled dr).2 = "ISTIO_MUTUAL" ∨
    (k.DestinationRuleHasMeshWideMTLSEnabled dr).2 = "MUTUAL")

/-- A stand-in for the functions of the package `kubernetes`, for concrete runs:
the mode of an object is the string at `mode` in its body, a traffic-routing
policy is namespace-wide when its body holds `scope: namespace` and mesh-wide
otherwise. -/
def Kubernetes.sample : Kubernetes where
  PeerAuthnHasMTLSEnabled := fun pa =>
    match pa.Spec.lookup "mode" with
    | some (.str mode) => (mode = "STRICT" || mode = "PERMISSIVE", mode)
    | _ => (false, "")
  DestinationRuleHasNamespaceWideMTLSEnabled := fun _ dr =>
    match dr.Spec.lookup "scope", dr.Spec.lookup "mode" with
    | some (.str "namespace"), some (.str mode) => (mode = "ISTIO_MUTUAL" || mode = "MUTUAL", mode)
    | _, _ => (false, "")
  DestinationRuleHasMeshWideMTLSEnabled := fun dr =>
    match dr.Spec.lookup "scope", dr.Spec.lookup "mode" with
    | some (.str "namespace"), _ => (false, "")
    | _, some (.str mode) => (mode = "ISTIO_MUTUAL" || mode = "MUTUAL", mode)
    | _, _ => (false, "")

end PeerAuthentications

/-! ## graph/telemetry/istio/util/util.go -/

namespace Util

/-- The function `strings.Split(s, sep)` for a separator of one character, on
the characters of the string: the pieces between the separators, one more than
there are separators. -/
def splitData (sep : Char) : List Char → List (List Char)
  | [] => [[]]
  | c :: cs =>
    if c = sep then [] :: splitData sep cs
    else
      match splitData sep cs with
      | [] => [[c]]
      | piece :: pieces => (c :: piece) :: pieces

/-- The function `strings.Split(s, sep)` for a separator of one character. -/
def stringsSplit (s : String) (sep : Char) : List String :=
  (splitData sep s.data).map String.mk

/-- What `util.go` takes from the packages `graph` and `config`, which are not
among the sources: the constants `graph.Unknown`, `graph.GRPC.Name` and
`config.IstioMultiClusterHostSuffix` and the function `graph.IsHTTPErr`. -/
structure Graph where
  Unknown : String
  GRPCName : String
  IsHTTPErr : String → Bool
  IstioMultiClusterHostSuffix : String

/-- The Go function `func handleMultiClusterRequest(sourceWlNs, sourceWl, destSvcNs, destSvcName string) (string, string, bool)` -/
def handleMultiClusterRequest (g : Graph) (sourceWlNs sourceWl destSvcNs destSvcName : String) :
    String × String × Bool :=
  if sourceWlNs = g.Unknown ∧ sourceWl = g.Unknown then
    let destSvcNameEntries := stringsSplit destSvcName '.'
    match destSvcNameEntries with
    | [e0, e1, e2] =>
      if e2 = g.IstioMultiClusterHostSuffix then (e1, e0, true)
      else (destSvcNs, destSvcName, false)
    | _ => (destSvcNs, destSvcName, false)
  else
    (destSvcNs, destSvcName, false)

/-- The Go function `func HandleResponseCode(protocol, responseCode string, grpcResponseStatusOk bool, grpcResponseStatus string) string` -/
def HandleResponseCode (g : Graph) (protocol responseCode : String) (grpcResponseStatusOk : Bool)
    (grpcResponseStatus : String) : String :=
  if responseCode = "0" then
    "-"
  else if protocol ≠ g.GRPCName ∨ g.IsHTTPErr responseCode = true ∨ grpcResponseStatusOk = false then
    responseCode
  else
    grpcResponseStatus

/-- The values the comments of `util.go` give for the constants, with every
response code that begins with `4` or `5` taken as an HTTP error, for concrete
runs. -/
def Graph.sample : Graph where
  Unknown := "unknown"
  GRPCName := "grpc"
  IsHTTPErr := fun code =>
    match code.data with
    | c :: _ => c = '4' || c = '5'
    | [] => false
  IstioMultiClusterHostSuffix := "global"

end Util

end Kiali

/-! ## Properties of the mTLS status resolver -/

namespace Kiali
namespace Mtls

theorem finalStatus_overall (m : MtlsStatus) (dr pa : String) :
    (m.finalStatus dr pa).OverallStatus = specTable dr pa m.AutoMtlsEnabled m.AllowPermissive := by
  simp only [MtlsStatus.finalStatus, specTable, MTLSEnabled, MTLSDisabled, MTLSNotEnabled,
    MTLSPartiallyEnabled, Bool.and_eq_true, Bool.or_eq_true, beq_iff_eq]

theorem specTable_mem (dr pa : String) (a p : Bool) :
    specTable dr pa a p ∈ [MTLSEnabled, MTLSPartiallyEnabled, MTLSNotEnabled, MTLSDisabled] := by
  unfold specTable
  simp only [MTLSEnabled, MTLSDisabled, MTLSNotEnabled, MTLSPartiallyEnabled]
  split_ifs <;> simp

/-- C1: `finalStatus` returns the triple of its two modes and the status of the
specification's table; that status is one of the four (pairwise distinct) labels,
and the four listed quadruples give the listed statuses. -/
theorem finalStatus_is_spec_table (m : MtlsStatus) (drMode paMode : String) :
    m.finalStatus drMode paMode =
        { DestinationRuleStatus := drMode
          PeerAuthenticationStatus := paMode
          OverallStatus := specTable drMode paMode m.AutoMtlsEnabled m.AllowPermissive } ∧
      (m.finalStatus drMode paMode).OverallStatus ∈
        [MTLSEnabled, MTLSPartiallyEnabled, MTLSNotEnabled, MTLSDisabled] ∧
      [MTLSEnabled, MTLSPartiallyEnabled, MTLSNotEnabled, MTLSDisabled].Nodup ∧
      (∀ ns, (MtlsStatus.finalStatus ⟨ns, false, false⟩ "" "").OverallStatus = MTLSNotEnabled) ∧
      (∀ ns, (MtlsStatus.finalStatus ⟨ns, false, false⟩ "ISTIO_MUTUAL" "STRICT").OverallStatus
        = MTLSEnabled) ∧
      (∀ ns, (MtlsStatus.finalStatus ⟨ns, false, false⟩ "DISABLE" "DISABLE").OverallStatus
        = MTLSDisabled) ∧
      (∀ ns, (MtlsStatus.finalStatus ⟨ns, false, false⟩ "STRICT" "").OverallStatus
        = MTLSPartiallyEnabled) := by
  refine ⟨?_, ?_, by decide, ?_, ?_, ?_, ?_⟩
  · have h := finalStatus_overall m drMode paMode
    simp only [MtlsStatus.finalStatus] at h ⊢
    rw [h]
  · rw [finalStatus_overall]; exact specTable_mem _ _ _ _
  · intro ns; rfl
  · intro ns; rfl
  · intro ns; rfl
  · intro ns; rfl

/-- C2 fails as stated: with `drMode = STRICT`, `paMode = ""` and auto-mTLS on,
the table does not give `ENABLED`. -/
theorem finalStatus_strict_dr_auto_not_enabled :
    (MtlsStatus.finalStatus ⟨"bookinfo", true, false⟩ "STRICT" "").OverallStatus ≠ MTLSEnabled := by
  decide

/-- C2 (amended): the quadruple `(STRICT, "", true, false)` gives
`PARTIALLY_ENABLED`; the half-defined case that auto-mTLS turns into `ENABLED`
is `paMode = STRICT` with `drMode` empty, the quadruple `("", STRICT, true, false)`. -/
theorem finalStatus_strict_auto (ns : String) :
    (MtlsStatus.finalStatus ⟨ns, true, false⟩ "STRICT" "").OverallStatus = MTLSPartiallyEnabled ∧
      (MtlsStatus.finalStatus ⟨ns, true, false⟩ "" "STRICT").OverallStatus = MTLSEnabled :=
  ⟨rfl, rfl⟩

theorem hasPartialTlsConfig_empty : TlsStatus.hasPartialTlsConfig {} = false := by decide

theorem hasDefinedTls_empty : TlsStatus.hasDefinedTls {} = false := by decide

/-- The body of `OverallMtlsStatus` when the namespace status is empty. -/
theorem OverallMtlsStatus_empty_ns (m : MtlsStatus) (meshStatus : TlsStatus) :
    m.OverallMtlsStatus {} meshStatus =
      if meshStatus.hasDefinedTls then meshStatus.OverallStatus
      else if meshStatus.hasNoConfig then MTLSNotEnabled
      else if meshStatus.hasPartialDisabledConfig then MTLSDisabled
      else if meshStatus.hasHalfTlsConfigDefined m.AutoMtlsEnabled m.AllowPermissive then
        MTLSEnabled
      else MTLSPartiallyEnabled := by
  rw [MtlsStatus.OverallMtlsStatus]
  simp only [hasDefinedTls_empty, hasPartialTlsConfig_empty]
  simp

/-- The first branch of the cascade. -/
theorem OverallMtlsStatus_of_hasDefinedTls (m : MtlsStatus) (nsStatus meshStatus : TlsStatus)
    (hd : nsStatus.hasDefinedTls = true) :
    m.OverallMtlsStatus nsStatus meshStatus = nsStatus.OverallStatus := by
  rw [MtlsStatus.OverallMtlsStatus]
  simp [hd]

/-- C3: a namespace status that is `ENABLED` or `DISABLED` is returned as it is,
whatever the mesh status and the flags. -/
theorem OverallMtlsStatus_ns_defined (m : MtlsStatus) (nsStatus meshStatus : TlsStatus)
    (h : nsStatus.OverallStatus = MTLSEnabled ∨ nsStatus.OverallStatus = MTLSDisabled) :
    m.OverallMtlsStatus nsStatus meshStatus = nsStatus.OverallStatus := by
  have hd : nsStatus.hasDefinedTls = true := by
    simpa [TlsStatus.hasDefinedTls] using h
  exact OverallMtlsStatus_of_hasDefinedTls m nsStatus meshStatus hd

theorem OverallMtlsStatus_ns_defined_witness :
    (MtlsStatus.finalStatus ⟨"bookinfo", false, false⟩ "ISTIO_MUTUAL" "STRICT").OverallStatus
        = MTLSEnabled ∧
      MtlsStatus.OverallMtlsStatus ⟨"bookinfo", false, false⟩
          (MtlsStatus.finalStatus ⟨"bookinfo", false, false⟩ "ISTIO_MUTUAL" "STRICT")
          ⟨"DISABLE", "DISABLE", MTLSDisabled⟩ =
        (MtlsStatus.finalStatus ⟨"bookinfo", false, false⟩ "ISTIO_MUTUAL" "STRICT").OverallStatus :=
  ⟨rfl, OverallMtlsStatus_ns_defined _ _ _ (Or.inl rfl)⟩

theorem partial_ne_defined (t : TlsStatus) (h : t.OverallStatus = MTLSPartiallyEnabled) :
    t.hasDefinedTls = false ∧ t.hasPartialTlsConfig = true := by
  simp [TlsStatus.hasDefinedTls, TlsStatus.hasPartialTlsConfig, h]
  decide

/-- The inheritance branch: the namespace status is `PARTIALLY_ENABLED`. -/
theorem OverallMtlsStatus_ns_inherits (m : MtlsStatus) (nsStatus meshStatus : TlsStatus)
    (h : nsStatus.OverallStatus = MTLSPartiallyEnabled) :
    m.OverallMtlsStatus nsStatus meshStatus =
      m.OverallMtlsStatus {}
        (m.finalStatus
          (if nsStatus.DestinationRuleStatus == "" then meshStatus.DestinationRuleStatus
            else nsStatus.DestinationRuleStatus)
          (if nsStatus.PeerAuthenticationStatus == "" then meshStatus.PeerAuthenticationStatus
            else nsStatus.PeerAuthenticationStatus)) := by
  obtain ⟨hd, hp⟩ := partial_ne_defined nsStatus h
  rw [MtlsStatus.OverallMtlsStatus]
  simp only [hd, hp, Bool.false_eq_true, if_false, dite_true]
  rw [MtlsStatus.inheritedOverallStatus]

theorem specTable_not_enabled (dr pa : String) (a p : Bool)
    (h : specTable dr pa a p = MTLSNotEnabled) : pa = "" ∧ dr = "" := by
  simp only [specTable] at h
  split_ifs at h with h1 h2 h3
  · exact absurd h (by decide)
  · exact absurd h (by decide)
  · exact h3
  · exact absurd h (by decide)

/-- A status computed by the table gives the same overall status on either side
of an empty status. -/
theorem OverallMtlsStatus_final_swap (m : MtlsStatus) (dr pa : String) :
    m.OverallMtlsStatus (m.finalStatus dr pa) {} = m.OverallMtlsStatus {} (m.finalStatus dr pa) := by
  by_cases hp : (m.finalStatus dr pa).OverallStatus = MTLSPartiallyEnabled
  · rw [OverallMtlsStatus_ns_inherits m _ _ hp]
    have h1 : (m.finalStatus dr pa).DestinationRuleStatus = dr := rfl
    have h2 : (m.finalStatus dr pa).PeerAuthenticationStatus = pa := rfl
    have e1 : (if (dr == "") = true then ("" : String) else dr) = dr := by
      split_ifs with h
      · exact (beq_iff_eq.mp h).symm
      · rfl
    have e2 : (if (pa == "") = true then ("" : String) else pa) = pa := by
      split_ifs with h
      · exact (beq_iff_eq.mp h).symm
      · rfl
    simp only [h1, h2, e1, e2]
  · by_cases hd : (m.finalStatus dr pa).OverallStatus = MTLSEnabled ∨
        (m.finalStatus dr pa).OverallStatus = MTLSDisabled
    · have hdef : (m.finalStatus dr pa).hasDefinedTls = true := by
        simpa [TlsStatus.hasDefinedTls] using hd
      rw [OverallMtlsStatus_of_hasDefinedTls m _ _ hdef, OverallMtlsStatus_empty_ns]
      simp [hdef]
    · have hmem : (m.finalStatus dr pa).OverallStatus ∈
          [MTLSEnabled, MTLSPartiallyEnabled, MTLSNotEnabled, MTLSDisabled] := by
        rw [finalStatus_overall]; exact specTable_mem _ _ _ _
      simp only [List.mem_cons, List.mem_singleton, List.mem_nil_iff, or_false] at hmem
      have hn : (m.finalStatus dr pa).OverallStatus = MTLSNotEnabled := by
        rcases hmem with h | h | h | h
        · exact absurd (Or.inl h) hd
        · exact absurd h hp
        · exact h
        · exact absurd (Or.inr h) hd
      have hcfg : (m.finalStatus dr pa).hasNoConfig = true := by
        have hs := finalStatus_overall m dr pa
        rw [hn] at hs
        simp only [TlsStatus.hasNoConfig, MtlsStatus.finalStatus, Bool.and_eq_true, beq_iff_eq]
        exact specTable_not_enabled _ _ _ _ hs.symm
      have hdef : (m.finalStatus dr pa).hasDefinedTls = false := by
        simp [TlsStatus.hasDefinedTls, hn]; decide
      have hpar : (m.finalStatus dr pa).hasPartialTlsConfig = false := by
        simp [TlsStatus.hasPartialTlsConfig, hn]; decide
      rw [OverallMtlsStatus_empty_ns]
      rw [MtlsStatus.OverallMtlsStatus]
      simp only [hdef, hpar, hcfg, hasDefinedTls_empty, Bool.false_eq_true, if_false, dite_false,
        if_true]
      have : TlsStatus.hasNoConfig {} = true := by decide
      simp [this]

/-- C4: for a namespace status that is `PARTIALLY_ENABLED`, the overall status
is the cascade applied to the recomputed namespace status against an empty mesh
status, each mode the namespace left empty being taken from the mesh. -/
theorem OverallMtlsStatus_partial_inherits (m : MtlsStatus) (nsStatus meshStatus : TlsStatus)
    (h : nsStatus.OverallStatus = MTLSPartiallyEnabled) :
    m.OverallMtlsStatus nsStatus meshStatus =
      m.OverallMtlsStatus
        (m.finalStatus
          (if nsStatus.DestinationRuleStatus ≠ "" then nsStatus.DestinationRuleStatus
            else meshStatus.DestinationRuleStatus)
          (if nsStatus.PeerAuthenticationStatus ≠ "" then nsStatus.PeerAuthenticationStatus
            else meshStatus.PeerAuthenticationStatus))
        {} := by
  rw [OverallMtlsStatus_ns_inherits m nsStatus meshStatus h, OverallMtlsStatus_final_swap]
  congr 2
  · by_cases e : nsStatus.DestinationRuleStatus = "" <;> simp [e]
  · by_cases e : nsStatus.PeerAuthenticationStatus = "" <;> simp [e]

theorem OverallMtlsStatus_partial_inherits_witness :
    MtlsStatus.OverallMtlsStatus ⟨"bookinfo", true, false⟩
        ⟨"", "PERMISSIVE", MTLSPartiallyEnabled⟩ ⟨"ISTIO_MUTUAL", "STRICT", MTLSEnabled⟩ =
      MtlsStatus.OverallMtlsStatus ⟨"bookinfo", true, false⟩
        (MtlsStatus.finalStatus ⟨"bookinfo", true, false⟩
          (if ("" : String) ≠ "" then "" else "ISTIO_MUTUAL")
          (if ("PERMISSIVE" : String) ≠ "" then "PERMISSIVE" else "STRICT"))
        {} :=
  OverallMtlsStatus_partial_inherits _ _ _ rfl

theorem half_defined_bool (a p x y z : Bool) :
    (if a = true then (if (!(x || y) && p) = true then z else (x || y)) else false) = true ↔
      a = true ∧ (x = true ∨ y = true ∨ (p = true ∧ z = true)) := by
  cases a <;> cases p <;> cases x <;> cases y <;> cases z <;> decide

theorem hasHalfTlsConfigDefined_iff (t : TlsStatus) (a p : Bool) :
    t.hasHalfTlsConfigDefined a p = true ↔
      a = true ∧
        ((t.PeerAuthenticationStatus = "STRICT" ∧ t.DestinationRuleStatus = "") ∨
          ((t.DestinationRuleStatus = "ISTIO_MUTUAL" ∨ t.DestinationRuleStatus = "MUTUAL") ∧
            t.PeerAuthenticationStatus = "") ∨
          (p = true ∧ t.PeerAuthenticationStatus = "PERMISSIVE" ∧ t.DestinationRuleStatus = "")) := by
  unfold TlsStatus.hasHalfTlsConfigDefined
  dsimp only
  rw [half_defined_bool]
  simp only [Bool.and_eq_true, Bool.or_eq_true, beq_iff_eq]

/-- The mesh-only chain of the code is the mesh-only cascade of the specification. -/
theorem mesh_chain_eq_spec (m : MtlsStatus) (meshStatus : TlsStatus) :
    (if meshStatus.hasDefinedTls then meshStatus.OverallStatus
      else if meshStatus.hasNoConfig then MTLSNotEnabled
      else if meshStatus.hasPartialDisabledConfig then MTLSDisabled
      else if meshStatus.hasHalfTlsConfigDefined m.AutoMtlsEnabled m.AllowPermissive then
        MTLSEnabled
      else MTLSPartiallyEnabled) =
      specMeshCascade meshStatus m.AutoMtlsEnabled m.AllowPermissive := by
  simp only [specMeshCascade, hasHalfTlsConfigDefined_iff, TlsStatus.hasDefinedTls,
    TlsStatus.hasNoConfig, TlsStatus.hasPartialDisabledConfig, MTLSEnabled, MTLSDisabled,
    MTLSNotEnabled, MTLSPartiallyEnabled, Bool.and_eq_true, Bool.or_eq_true, beq_iff_eq]

/-- C5: when the namespace status is none of `ENABLED`, `DISABLED`,
`PARTIALLY_ENABLED`, the overall status is the mesh-only cascade of the
specification applied to the mesh status and the two flags. -/
theorem OverallMtlsStatus_ns_undefined (m : MtlsStatus) (nsStatus meshStatus : TlsStatus)
    (h1 : nsStatus.OverallStatus ≠ MTLSEnabled) (h2 : nsStatus.OverallStatus ≠ MTLSDisabled)
    (h3 : nsStatus.OverallStatus ≠ MTLSPartiallyEnabled) :
    m.OverallMtlsStatus nsStatus meshStatus =
      specMeshCascade meshStatus m.AutoMtlsEnabled m.AllowPermissive := by
  have hd : nsStatus.hasDefinedTls = false := by
    simp [TlsStatus.hasDefinedTls, h1, h2]
  have hp : nsStatus.hasPartialTlsConfig = false := by
    simp [TlsStatus.hasPartialTlsConfig, h3]
  rw [← mesh_chain_eq_spec, MtlsStatus.OverallMtlsStatus]
  simp [hd, hp]

theorem OverallMtlsStatus_ns_undefined_witness :
    MtlsStatus.OverallMtlsStatus ⟨"bookinfo", true, false⟩
        ⟨"", "", MTLSNotEnabled⟩ ⟨"", "STRICT", MTLSPartiallyEnabled⟩ =
      specMeshCascade ⟨"", "STRICT", MTLSPartiallyEnabled⟩ true false ∧
    specMeshCascade ⟨"", "STRICT", MTLSPartiallyEnabled⟩ true false = MTLSEnabled :=
  ⟨OverallMtlsStatus_ns_undefined _ _ _ (by decide) (by decide) (by decide), by decide⟩

theorem OverallMtlsStatusFuel_empty_ns (m : MtlsStatus) (fuel : Nat) (meshStatus : TlsStatus) :
    m.OverallMtlsStatusFuel (fuel + 1) {} meshStatus = some (m.OverallMtlsStatus {} meshStatus) := by
  rw [MtlsStatus.OverallMtlsStatusFuel, MtlsStatus.OverallMtlsStatus]
  simp only [hasDefinedTls_empty, hasPartialTlsConfig_empty]
  simp only [Bool.false_eq_true, if_false, dite_false]
  split_ifs <;> rfl

/-- C6: `OverallMtlsStatus` returns on every input, entering the cascade at most
twice: with a bound of two entries (or more) the bounded cascade returns the
status; the nested call of `inheritedOverallStatus`, whose namespace status is
empty, returns within a single entry; and a bound of one entry is used up exactly
on the inheritance branch. -/
theorem OverallMtlsStatus_terminates_one_level (m : MtlsStatus) (nsStatus meshStatus : TlsStatus)
    (fuel : Nat) :
    m.OverallMtlsStatusFuel (fuel + 2) nsStatus meshStatus =
        some (m.OverallMtlsStatus nsStatus meshStatus) ∧
      m.inheritedOverallStatusFuel (fuel + 1) nsStatus meshStatus =
        some (m.inheritedOverallStatus nsStatus meshStatus) ∧
      TlsStatus.hasDefinedTls {} = false ∧ TlsStatus.hasPartialTlsConfig {} = false ∧
      (m.OverallMtlsStatusFuel 1 nsStatus meshStatus = none ↔
        (nsStatus.hasDefinedTls = false ∧ nsStatus.hasPartialTlsConfig = true)) := by
  have hin : ∀ k, m.inheritedOverallStatusFuel (k + 1) nsStatus meshStatus =
      some (m.inheritedOverallStatus nsStatus meshStatus) := by
    intro k
    rw [MtlsStatus.inheritedOverallStatusFuel, MtlsStatus.inheritedOverallStatus]
    exact OverallMtlsStatusFuel_empty_ns m k _
  refine ⟨?_, hin fuel, hasDefinedTls_empty, hasPartialTlsConfig_empty, ?_⟩
  · rw [MtlsStatus.OverallMtlsStatusFuel, MtlsStatus.OverallMtlsStatus, hin fuel]
    split_ifs <;> rfl
  · rw [MtlsStatus.OverallMtlsStatusFuel]
    have h0 : m.inheritedOverallStatusFuel 0 nsStatus meshStatus = none := by
      rw [MtlsStatus.inheritedOverallStatusFuel, MtlsStatus.OverallMtlsStatusFuel]
    rw [h0]
    split_ifs <;> simp_all

end Mtls
end Kiali

/-! ## Properties of the regular expressions of `findMatch` -/

namespace Kiali
namespace GoLib

/-- The pattern text of a hostname with its dots escaped. -/
theorem stringsReplace_data (s : String) (old : Char) (new : String) :
    (stringsReplace s old new).data =
      s.data.flatMap (fun c => if c = old then new.data else [c]) := rfl

theorem stringsReplace_absent (s : String) (old : Char) (new : String)
    (h : old ∉ s.data) : stringsReplace s old new = s := by
  have : ∀ l : List Char, old ∉ l →
      l.flatMap (fun c => if c = old then new.data else [c]) = l := by
    intro l
    induction l with
    | nil => intro _; rfl
    | cons c t ih =>
      intro hl
      have hc : c ≠ old := fun e => hl (by simp [e])
      have ht : old ∉ t := fun e => hl (by simp [e])
      simp [List.flatMap_cons, hc, ih ht]
  unfold stringsReplace
  rw [this s.data h]

theorem stringsJoin_anchor (x : String) :
    (stringsJoin ["^", x, "$"]).data = '^' :: (x.data ++ ['$']) := by
  simp [stringsJoin]

theorem matchPieces_lits_end (a : List Char) :
    ∀ (atStart : Bool) (s : List Char),
      matchPieces (litPieces a ++ [⟨.endText, false⟩]) atStart s = decide (s = a) := by
  induction a with
  | nil =>
    intro atStart s
    cases s <;> simp [litPieces, matchPieces]
  | cons c a ih =>
    intro atStart s
    cases s with
    | nil => simp [litPieces, matchPieces]
    | cons d t =>
      have := ih false t
      simp only [litPieces, List.map_cons, List.cons_append] at this ⊢
      simp only [matchPieces, this]
      by_cases h1 : c = d
      · subst h1
        by_cases h2 : t = a
        · subst h2; simp
        · simp [h2]
      · have hne : ¬ (d :: t = c :: a) := by
          intro e
          injection e with e1 e2
          exact h1 e1.symm
        simp [h1, hne]

theorem searchFrom_beginText_later (ps : List Piece) (s : List Char) :
    searchFrom (⟨.beginText, false⟩ :: ps) s false = false := by
  induction s with
  | nil => simp [searchFrom, matchPieces]
  | cons d t ih => simp [searchFrom, matchPieces, ih]

theorem searchFrom_beginText (ps : List Piece) (s : List Char) :
    searchFrom (⟨.beginText, false⟩ :: ps) s true = matchPieces ps true s := by
  cases s with
  | nil => simp [searchFrom, matchPieces]
  | cons d t => simp [searchFrom, matchPieces, searchFrom_beginText_later]

theorem parseRegexp_cons (c : Char) (rest : List Char) (acc : List Piece) (lastRepeat : Bool) :
    parseRegexp (c :: rest) acc lastRepeat =
      if c = '\\' then
        match rest with
        | '.' :: rest' => parseRegexp rest' (⟨.lit '.', false⟩ :: acc) false
        | _ => none
      else if c = '*' then
        match acc, lastRepeat with
        | p :: acc', false => parseRegexp rest (⟨p.atom, true⟩ :: acc') true
        | _, _ => none
      else if c = '^' then parseRegexp rest (⟨.beginText, false⟩ :: acc) false
      else if c = '$' then parseRegexp rest (⟨.endText, false⟩ :: acc) false
      else if c ∈ ['.', '+', '?', '(', ')', '|', '[', ']', '{', '}'] then none
      else parseRegexp rest (⟨.lit c, false⟩ :: acc) false := by
  conv_lhs => unfold parseRegexp

theorem parseRegexp_literal (c : Char) (hc : literalChar c) (rest : List Char)
    (acc : List Piece) (lastRepeat : Bool) :
    parseRegexp (c :: rest) acc lastRepeat = parseRegexp rest (⟨.lit c, false⟩ :: acc) false := by
  obtain ⟨h1, h2, h3, h4, h5⟩ := hc
  rw [parseRegexp_cons]
  simp only [h1, h2, h3, h4, h5, if_false]

theorem parseRegexp_escaped_dot (rest : List Char) (acc : List Piece) (lastRepeat : Bool) :
    parseRegexp ('\\' :: '.' :: rest) acc lastRepeat =
      parseRegexp rest (⟨.lit '.', false⟩ :: acc) false := by
  rw [parseRegexp_cons]
  simp only [if_true]

theorem parseRegexp_begin (rest : List Char) (acc : List Piece) (lastRepeat : Bool) :
    parseRegexp ('^' :: rest) acc lastRepeat =
      parseRegexp rest (⟨.beginText, false⟩ :: acc) false := by
  rw [parseRegexp_cons]
  simp only [show ('^' : Char) ≠ '\\' by decide, show ('^' : Char) ≠ '*' by decide, if_false,
    if_true]

theorem parseRegexp_end (acc : List Piece) (lastRepeat : Bool) :
    parseRegexp ['$'] acc lastRepeat = some (acc.reverse ++ [⟨.endText, false⟩]) := by
  rw [parseRegexp_cons]
  simp only [show ('$' : Char) ≠ '\\' by decide, show ('$' : Char) ≠ '*' by decide,
    show ('$' : Char) ≠ '^' by decide, if_false, if_true]
  simp [parseRegexp]

theorem parseRegexp_star (rest : List Char) (p : Piece) (acc : List Piece) :
    parseRegexp ('*' :: rest) (p :: acc) false = parseRegexp rest (⟨p.atom, true⟩ :: acc) true := by
  rw [parseRegexp_cons]
  simp only [show ('*' : Char) ≠ '\\' by decide, if_false, if_true]

/-- Parsing a hostname of dots and literal characters, dots escaped, up to the
closing `$`. -/
theorem parseRegexp_escaped (a : List Char) (ha : ∀ c ∈ a, c = '.' ∨ literalChar c) :
    ∀ (acc : List Piece) (lastRepeat : Bool),
      parseRegexp (a.flatMap (fun c => if c = '.' then "\\.".data else [c]) ++ ['$']) acc
          lastRepeat =
        some (acc.reverse ++ litPieces a ++ [⟨.endText, false⟩]) := by
  induction a with
  | nil =>
    intro acc lastRepeat
    simp [parseRegexp_end, litPieces]
  | cons c t ih =>
    intro acc lastRepeat
    have ht : ∀ c ∈ t, c = '.' ∨ literalChar c := fun x hx => ha x (by simp [hx])
    rcases ha c (by simp) with hc | hc
    · subst hc
      simp only [List.flatMap_cons, if_true]
      show parseRegexp ('\\' :: '.' :: (_ ++ ['$'])) acc lastRepeat = _
      rw [parseRegexp_escaped_dot]
      exact (ih ht _ _).trans (by simp [litPieces])
    · have hdot : c ≠ '.' := by
        intro e
        exact hc.2.2.2.2 (by simp [e])
      simp only [List.flatMap_cons, hdot, if_false, List.singleton_append, List.cons_append,
        List.nil_append]
      rw [parseRegexp_literal c hc, ih ht]
      simp [litPieces]

/-- The anchored pattern of a hostname of dots and literal characters matches
exactly that hostname. -/
theorem regexpMatchString_escaped (x text : String)
    (hx : ∀ c ∈ x.data, c = '.' ∨ literalChar c) :
    regexpMatchString (stringsJoin ["^", stringsReplace x '.' "\\.", "$"]) text =
      some (decide (text.data = x.data)) := by
  unfold regexpMatchString
  rw [stringsJoin_anchor, stringsReplace_data, parseRegexp_begin]
  rw [parseRegexp_escaped x.data hx]
  simp only [List.reverse_cons, List.reverse_nil, List.nil_append, List.singleton_append,
    List.cons_append, Option.map_some', searchFrom_beginText, matchPieces_lits_end]

end GoLib
end Kiali

/-! ## Properties of the validation graph -/

namespace Kiali
namespace Models

theorem keys_mergeOne (iv : IstioValidations) (key : IstioValidationKey)
    (validation : IstioValidation) :
    (mergeOne iv key validation).map (·.1) =
      if key ∈ iv.map (·.1) then iv.map (·.1) else iv.map (·.1) ++ [key] := by
  unfold mergeOne
  by_cases h : key ∈ iv.map (·.1)
  · have hany : (iv.any fun e => decide (e.1 = key)) = true := by
      simp only [List.mem_map] at h
      obtain ⟨e, he, hk⟩ := h
      simp only [List.any_eq_true, decide_eq_true_eq]
      exact ⟨e, he, hk⟩
    simp only [hany, if_true, h, List.map_map]
    apply List.map_congr_left
    intro e _
    by_cases hk : e.1 = key <;> simp [hk]
  · have hany : (iv.any fun e => decide (e.1 = key)) = false := by
      rw [Bool.eq_false_iff]
      intro hc
      simp only [List.any_eq_true, decide_eq_true_eq] at hc
      obtain ⟨e, he, hk⟩ := hc
      exact h (List.mem_map.mpr ⟨e, he, hk⟩)
    simp [hany, h]

theorem mem_keys_mergeOne (iv : IstioValidations) (key k : IstioValidationKey)
    (validation : IstioValidation) :
    k ∈ (mergeOne iv key validation).map (·.1) ↔ k ∈ iv.map (·.1) ∨ k = key := by
  rw [keys_mergeOne]
  by_cases h : key ∈ iv.map (·.1)
  · simp only [h, if_true]
    constructor
    · exact Or.inl
    · rintro (hk | hk)
      · exact hk
      · rw [hk]; exact h
  · simp [h]

/-- The keys of a merged graph are the keys of the two graphs. -/
theorem mem_keys_MergeValidations (validations : IstioValidations) :
    ∀ (iv : IstioValidations) (k : IstioValidationKey),
      k ∈ (iv.MergeValidations validations).map (·.1) ↔
        k ∈ iv.map (·.1) ∨ k ∈ validations.map (·.1) := by
  induction validations with
  | nil => intro iv k; simp [IstioValidations.MergeValidations]
  | cons e t ih =>
    intro iv k
    have := ih (mergeOne iv e.1 e.2) k
    simp only [IstioValidations.MergeValidations, List.foldl_cons] at this ⊢
    rw [this, mem_keys_mergeOne]
    simp only [List.map_cons, List.mem_cons]
    tauto

theorem keys_MergeReferences (iv validations : IstioValidations) :
    (iv.MergeReferences validations).map (·.1) = iv.map (·.1) := by
  simp [IstioValidations.MergeReferences, List.map_map, Function.comp_def]

/-- A property of entries that merging keeps holds of every entry of a graph
after an entry with the property is merged into it. -/
theorem all_mergeOne (Q : IstioValidation → Prop)
    (hmerge : ∀ v w, Q v → Q w → Q (mergeEntry v w)) (iv : IstioValidations)
    (key : IstioValidationKey) (validation : IstioValidation)
    (hiv : ∀ e ∈ iv, Q e.2) (hv : Q validation) :
    ∀ e ∈ mergeOne iv key validation, Q e.2 := by
  intro e he
  unfold mergeOne at he
  split_ifs at he
  · simp only [List.mem_map] at he
    obtain ⟨e0, he0, rfl⟩ := he
    by_cases hk : e0.1 = key
    · simp only [hk, if_true]
      exact hmerge _ _ (hiv e0 he0) hv
    · simp only [hk, if_false]
      exact hiv e0 he0
  · rcases List.mem_append.mp he with h | h
    · exact hiv e h
    · rw [List.mem_singleton.mp h]
      exact hv

theorem all_MergeValidations (Q : IstioValidation → Prop)
    (hmerge : ∀ v w, Q v → Q w → Q (mergeEntry v w)) (validations : IstioValidations) :
    ∀ iv : IstioValidations, (∀ e ∈ iv, Q e.2) → (∀ e ∈ validations, Q e.2) →
      ∀ e ∈ iv.MergeValidations validations, Q e.2 := by
  induction validations with
  | nil => intro iv hiv _; simpa [IstioValidations.MergeValidations] using hiv
  | cons x t ih =>
    intro iv hiv hvs
    have h1 := all_mergeOne Q hmerge iv x.1 x.2 hiv (hvs x (by simp))
    have h2 := ih (mergeOne iv x.1 x.2) h1 (fun e he => hvs e (by simp [he]))
    simpa [IstioValidations.MergeValidations] using h2

theorem all_MergeReferences (Q : IstioValidation → Prop)
    (hrefs : ∀ (v : IstioValidation) (r : List IstioValidationKey),
      Q v → Q { v with References := r })
    (iv validations : IstioValidations) (hiv : ∀ e ∈ iv, Q e.2) :
    ∀ e ∈ iv.MergeReferences validations, Q e.2 := by
  intro e he
  simp only [IstioValidations.MergeReferences, List.mem_map] at he
  obtain ⟨e0, he0, rfl⟩ := he
  exact hrefs _ _ (hiv e0 he0)

theorem mem_unionReferences (more : List IstioValidationKey) :
    ∀ (refs : List IstioValidationKey) (x : IstioValidationKey),
      x ∈ unionReferences refs more ↔ x ∈ refs ∨ x ∈ more := by
  induction more with
  | nil => intro refs x; simp [unionReferences]
  | cons k t ih =>
    intro refs x
    have h := ih (if k ∈ refs then refs else refs ++ [k]) x
    simp only [unionReferences, List.foldl_cons] at h ⊢
    rw [h]
    by_cases hk : k ∈ refs
    · simp only [hk, if_true, List.mem_cons]
      constructor
      · rintro (h1 | h1)
        · exact Or.inl h1
        · exact Or.inr (Or.inr h1)
      · rintro (h1 | h1 | h1)
        · exact Or.inl h1
        · exact Or.inl (h1 ▸ hk)
        · exact Or.inr h1
    · simp only [hk, if_false, List.mem_append, List.mem_singleton, List.mem_cons]
      tauto

theorem refers_mergeOne (iv : IstioValidations) (key : IstioValidationKey)
    (validation : IstioValidation) (a b : IstioValidationKey) :
    refers (mergeOne iv key validation) a b ↔
      refers iv a b ∨ (a = key ∧ b ∈ validation.References) := by
  unfold mergeOne refers
  by_cases hany : (iv.any fun e => decide (e.1 = key)) = true
  · simp only [hany, if_true, List.mem_map]
    simp only [List.any_eq_true, decide_eq_true_eq] at hany
    obtain ⟨e1, he1, hk1⟩ := hany
    constructor
    · rintro ⟨v, ⟨e0, he0, heq⟩, hb⟩
      by_cases hk : e0.1 = key
      · simp only [hk, if_true, Prod.mk.injEq] at heq
        obtain ⟨ha, hv⟩ := heq
        subst hv
        simp only [mergeEntry, mem_unionReferences] at hb
        rcases hb with hb | hb
        · exact Or.inl ⟨e0.2, by rw [← ha, ← hk]; exact he0, hb⟩
        · exact Or.inr ⟨ha.symm, hb⟩
      · simp only [hk, if_false] at heq
        exact Or.inl ⟨v, heq ▸ he0, hb⟩
    · rintro (⟨v, hv, hb⟩ | ⟨ha, hb⟩)
      · by_cases hk : a = key
        · refine ⟨mergeEntry v validation, ⟨(a, v), hv, by simp [hk]⟩, ?_⟩
          simp only [mergeEntry, mem_unionReferences]
          exact Or.inl hb
        · exact ⟨v, ⟨(a, v), hv, by simp [hk]⟩, hb⟩
      · refine ⟨mergeEntry e1.2 validation, ⟨e1, he1, by simp [hk1, ha]⟩, ?_⟩
        simp only [mergeEntry, mem_unionReferences]
        exact Or.inr hb
  · rw [if_neg hany]
    simp only [List.mem_append, List.mem_singleton, Prod.mk.injEq]
    constructor
    · rintro ⟨v, hv | ⟨ha, hv⟩, hb⟩
      · exact Or.inl ⟨v, hv, hb⟩
      · exact Or.inr ⟨ha, hv ▸ hb⟩
    · rintro (⟨v, hv, hb⟩ | ⟨ha, hb⟩)
      · exact ⟨v, Or.inl hv, hb⟩
      · exact ⟨validation, Or.inr ⟨ha, rfl⟩, hb⟩

theorem refers_cons (e : IstioValidationKey × IstioValidation) (t : IstioValidations)
    (a b : IstioValidationKey) :
    refers (e :: t) a b ↔ (a = e.1 ∧ b ∈ e.2.References) ∨ refers t a b := by
  unfold refers
  simp only [List.mem_cons]
  constructor
  · rintro ⟨v, hv | hv, hb⟩
    · left
      rw [← hv]
      exact ⟨rfl, hb⟩
    · exact Or.inr ⟨v, hv, hb⟩
  · rintro (⟨ha, hb⟩ | ⟨v, hv, hb⟩)
    · exact ⟨e.2, Or.inl (by rw [ha]), hb⟩
    · exact ⟨v, Or.inr hv, hb⟩

/-- The references of a merged graph are the references of the two graphs. -/
theorem refers_MergeValidations (validations : IstioValidations) :
    ∀ (iv : IstioValidations) (a b : IstioValidationKey),
      refers (iv.MergeValidations validations) a b ↔ refers iv a b ∨ refers validations a b := by
  induction validations with
  | nil =>
    intro iv a b
    simp [IstioValidations.MergeValidations, refers]
  | cons e t ih =>
    intro iv a b
    have h := ih (mergeOne iv e.1 e.2) a b
    simp only [IstioValidations.MergeValidations, List.foldl_cons] at h ⊢
    rw [h, refers_mergeOne, refers_cons]
    tauto

theorem refers_MergeReferences (iv validations : IstioValidations)
    (a b : IstioValidationKey) :
    refers (iv.MergeReferences validations) a b ↔
      refers iv a b ∨ (a ∈ iv.map (·.1) ∧ b ∈ validations.map (·.1)) := by
  unfold refers IstioValidations.MergeReferences
  simp only [List.mem_map]
  constructor
  · rintro ⟨v, ⟨e0, he0, heq⟩, hb⟩
    simp only [Prod.mk.injEq] at heq
    obtain ⟨ha, hv⟩ := heq
    subst hv
    simp only [mem_unionReferences, List.mem_map] at hb
    rcases hb with hb | hb
    · exact Or.inl ⟨e0.2, by rw [← ha]; exact he0, hb⟩
    · exact Or.inr ⟨⟨e0, he0, ha⟩, hb⟩
  · rintro (⟨v, hv, hb⟩ | ⟨⟨e0, he0, ha⟩, hb⟩)
    · refine ⟨_, ⟨(a, v), hv, rfl⟩, ?_⟩
      simp only [mem_unionReferences]
      exact Or.inl hb
    · refine ⟨_, ⟨e0, he0, by rw [ha]⟩, ?_⟩
      simp only [mem_unionReferences, List.mem_map]
      exact Or.inr hb

theorem nodup_keys_mergeOne (iv : IstioValidations) (key : IstioValidationKey)
    (validation : IstioValidation) (h : (iv.map (·.1)).Nodup) :
    ((mergeOne iv key validation).map (·.1)).Nodup := by
  rw [keys_mergeOne]
  split_ifs with hk
  · exact h
  · rw [List.nodup_append]
    refine ⟨h, by simp, ?_⟩
    intro x hx hx'
    rw [List.mem_singleton.mp hx'] at hx
    exact hk hx

theorem nodup_keys_MergeValidations (validations : IstioValidations) :
    ∀ iv : IstioValidations, (iv.map (·.1)).Nodup →
      ((iv.MergeValidations validations).map (·.1)).Nodup := by
  induction validations with
  | nil => intro iv h; simpa [IstioValidations.MergeValidations] using h
  | cons e t ih =>
    intro iv h
    have := ih (mergeOne iv e.1 e.2) (nodup_keys_mergeOne iv e.1 e.2 h)
    simpa [IstioValidations.MergeValidations] using this

theorem checksOf_of_not_mem (iv : IstioValidations) (k : IstioValidationKey)
    (h : k ∉ iv.map (·.1)) : checksOf iv k = [] := by
  induction iv with
  | nil => rfl
  | cons e t ih =>
    simp only [List.map_cons, List.mem_cons, not_or] at h
    have hne : ¬ e.1 = k := fun x => h.1 x.symm
    simp only [checksOf, hne, if_false]
    exact ih h.2

theorem checksOf_append (iv more : IstioValidations) (k : IstioValidationKey) :
    checksOf (iv ++ more) k = if k ∈ iv.map (·.1) then checksOf iv k else checksOf more k := by
  induction iv with
  | nil => simp
  | cons e t ih =>
    by_cases he : e.1 = k
    · simp [checksOf, he]
    · have hne : ¬ k = e.1 := fun x => he x.symm
      show (if e.1 = k then e.2.Checks else checksOf (t ++ more) k) = _
      rw [if_neg he, ih]
      simp only [List.map_cons, List.mem_cons, hne, false_or, checksOf, he, if_false]

theorem checksOf_map_merge (key : IstioValidationKey) (validation : IstioValidation)
    (iv : IstioValidations) (k : IstioValidationKey) :
    checksOf (iv.map (fun e => if e.1 = key then (e.1, mergeEntry e.2 validation) else e)) k =
      checksOf iv k ++ (if k ∈ iv.map (·.1) ∧ k = key then validation.Checks else []) := by
  induction iv with
  | nil => simp [checksOf]
  | cons e t ih =>
    by_cases he : e.1 = k
    · by_cases hk : e.1 = key
      · have hkk : k = key := he ▸ hk
        simp [checksOf, he, hkk, mergeEntry]
      · have hkk : ¬ k = key := fun x => hk (he.trans x)
        simp [checksOf, he, hk, hkk]
    · have hne : ¬ k = e.1 := fun x => he x.symm
      by_cases hk : e.1 = key
      · simp only [List.map_cons, hk, if_true, checksOf]
        rw [if_neg (by rw [← hk]; exact he), if_neg (by rw [← hk]; exact he), ih]
        simp [hne, hk ▸ hne]
      · simp only [List.map_cons, hk, if_false, checksOf, he, ih, List.mem_cons, hne, false_or]

/-- Merging an entry into a graph appends its findings to the findings of its
key and leaves the findings of the other keys as they are. -/
theorem checksOf_mergeOne (iv : IstioValidations) (key : IstioValidationKey)
    (validation : IstioValidation) (k : IstioValidationKey) :
    checksOf (mergeOne iv key validation) k =
      checksOf iv k ++ (if k = key then validation.Checks else []) := by
  unfold mergeOne
  by_cases hany : (iv.any fun e => decide (e.1 = key)) = true
  · rw [if_pos hany, checksOf_map_merge]
    simp only [List.any_eq_true, decide_eq_true_eq] at hany
    obtain ⟨e1, he1, hk1⟩ := hany
    by_cases hk : k = key
    · have hmem : k ∈ iv.map (·.1) := List.mem_map.mpr ⟨e1, he1, hk1.trans hk.symm⟩
      simp [hk, hmem, hk ▸ hmem]
    · simp [hk]
  · rw [if_neg hany, checksOf_append]
    have hnot : key ∉ iv.map (·.1) := by
      intro hm
      obtain ⟨e, he, hk⟩ := List.mem_map.mp hm
      exact hany (List.any_eq_true.mpr ⟨e, he, by simpa using hk⟩)
    by_cases hk : k = key
    · subst hk
      simp [hnot, checksOf, checksOf_of_not_mem _ _ hnot]
    · have hne : ¬ key = k := fun x => hk x.symm
      by_cases hm : k ∈ iv.map (·.1)
      · simp [hm, hk]
      · simp [hm, hk, checksOf, hne, checksOf_of_not_mem _ _ hm]

theorem checksOf_MergeValidations (validations : IstioValidations) :
    ∀ (iv : IstioValidations) (k : IstioValidationKey),
      checksOf (iv.MergeValidations validations) k =
        checksOf iv k ++ validations.flatMap (fun e => if e.1 = k then e.2.Checks else []) := by
  induction validations with
  | nil => intro iv k; simp [IstioValidations.MergeValidations]
  | cons e t ih =>
    intro iv k
    have h := ih (mergeOne iv e.1 e.2) k
    simp only [IstioValidations.MergeValidations, List.foldl_cons] at h ⊢
    rw [h, checksOf_mergeOne]
    by_cases hk : e.1 = k
    · simp [hk]
    · have hne : ¬ k = e.1 := fun x => hk x.symm
      simp [hk, hne]

theorem checks_MergeReferences (iv validations : IstioValidations) (k : IstioValidationKey) :
    (iv.MergeReferences validations).flatMap (fun e => if e.1 = k then e.2.Checks else []) =
      iv.flatMap (fun e => if e.1 = k then e.2.Checks else []) := by
  simp only [IstioValidations.MergeReferences, List.flatMap_map]

/-- The findings under a key belong to an entry of the graph with that key. -/
theorem checksOf_entry (iv : IstioValidations) (k : IstioValidationKey)
    (h : checksOf iv k ≠ []) : ∃ v, (k, v) ∈ iv ∧ v.Checks = checksOf iv k := by
  induction iv with
  | nil => simp [checksOf] at h
  | cons e t ih =>
    by_cases he : e.1 = k
    · refine ⟨e.2, ?_, by simp [checksOf, he]⟩
      rw [← he]
      simp
    · simp only [checksOf, he, if_false] at h ⊢
      obtain ⟨v, hv, hc⟩ := ih h
      exact ⟨v, by simp [hv], hc⟩

theorem entry_unique (iv : IstioValidations) (hnd : (iv.map (·.1)).Nodup)
    (k : IstioValidationKey) (v w : IstioValidation) (hv : (k, v) ∈ iv) (hw : (k, w) ∈ iv) :
    v = w := by
  induction iv with
  | nil => simp at hv
  | cons e t ih =>
    simp only [List.map_cons, List.nodup_cons] at hnd
    rcases List.mem_cons.mp hv with h1 | h1 <;> rcases List.mem_cons.mp hw with h2 | h2
    · have := h1.trans h2.symm
      exact (Prod.mk.inj this).2
    · exact absurd (List.mem_map.mpr ⟨(k, w), h2, by rw [← h1]⟩) hnd.1
    · exact absurd (List.mem_map.mpr ⟨(k, v), h1, by rw [← h2]⟩) hnd.1
    · exact ih hnd.2 h1 h2

end Models
end Kiali

/-! ## Properties of the gateway host/port overlap matcher -/

namespace Kiali
namespace Gateways

open Models GoLib

theorem toLower_hostnameChar (c : Char) (h : isHostnameChar c = true) : c.toLower = c := by
  unfold isHostnameChar at h
  simp only [Bool.or_eq_true, beq_iff_eq] at h
  unfold Char.toLower
  have hn : ¬ (c.toNat ≥ 65 ∧ c.toNat ≤ 90) := by
    rcases h with ((h | h) | h) | h
    · simp only [Char.isLower, Bool.and_eq_true, decide_eq_true_eq] at h
      have h1 := h.1
      rw [ge_iff_le, UInt32.le_def] at h1
      have h2 : (97 : Nat) ≤ c.val.toNat := h1
      simp only [Char.toNat]
      omega
    · simp only [Char.isDigit, Bool.and_eq_true, decide_eq_true_eq] at h
      have h1 := h.2
      rw [UInt32.le_def] at h1
      have h2 : c.val.toNat ≤ 57 := h1
      simp only [Char.toNat]
      omega
    · subst h; decide
    · subst h; decide
  simp [hn]

theorem hostnameChar_ne (c k : Char) (h : isHostnameChar c = true)
    (hk : isHostnameChar k = false) : c ≠ k := by
  intro e
  subst e
  simp [h] at hk

theorem hostnameChar_literal (c : Char) (h : isHostnameChar c = true) :
    c = '.' ∨ literalChar c := by
  by_cases hd : c = '.'
  · exact Or.inl hd
  · refine Or.inr ⟨?_, ?_, ?_, ?_, ?_⟩
    · exact hostnameChar_ne c _ h (by decide)
    · exact hostnameChar_ne c _ h (by decide)
    · exact hostnameChar_ne c _ h (by decide)
    · exact hostnameChar_ne c _ h (by decide)
    · simp only [List.mem_cons, List.mem_singleton, List.mem_nil_iff, or_false, not_or]
      exact ⟨hd, hostnameChar_ne c _ h (by decide), hostnameChar_ne c _ h (by decide),
        hostnameChar_ne c _ h (by decide), hostnameChar_ne c _ h (by decide),
        hostnameChar_ne c _ h (by decide), hostnameChar_ne c _ h (by decide),
        hostnameChar_ne c _ h (by decide), hostnameChar_ne c _ h (by decide),
        hostnameChar_ne c _ h (by decide)⟩

theorem plainHostname_no_star (s : String) (h : plainHostname s) : '*' ∉ s.data := by
  intro hm
  exact absurd (h _ hm) (by decide)

theorem plainHostname_ne_wildcard (s : String) (h : plainHostname s) : s ≠ wildCardMatch := by
  intro e
  subst e
  exact absurd h (by decide)

theorem stringsToLower_plain (s : String) (h : plainHostname s) : stringsToLower s = s := by
  have : ∀ l : List Char, (∀ c ∈ l, isHostnameChar c = true) → l.map Char.toLower = l := by
    intro l hl
    induction l with
    | nil => rfl
    | cons c t ih =>
      simp only [List.map_cons]
      rw [toLower_hostnameChar c (hl c (by simp)), ih (fun x hx => hl x (by simp [hx]))]
  unfold stringsToLower
  rw [this s.data h]

/-- The text a plain hostname is searched as is the hostname itself. -/
theorem searchText_plain (s : String) (h : plainHostname s) :
    stringsToLower (stringsReplace s '*' ".*") = s := by
  rw [stringsReplace_absent s '*' ".*" (plainHostname_no_star s h), stringsToLower_plain s h]

theorem string_data_inj (a b : String) : a.data = b.data ↔ a = b := by
  constructor
  · intro e
    cases a; cases b; cases e; rfl
  · intro e
    rw [e]

/-- Two plain hostnames match exactly when they are equal. -/
theorem hostnamesMatch_plain (host h : Host) (h1 : plainHostname host.Hostname)
    (h2 : plainHostname h.Hostname) :
    hostnamesMatch host h = some (decide (host.Hostname = h.Hostname)) := by
  unfold hostnamesMatch
  have n1 := plainHostname_ne_wildcard _ h1
  have n2 := plainHostname_ne_wildcard _ h2
  simp only [n1, n2, or_self, if_false]
  rw [searchText_plain _ h1, searchText_plain _ h2,
    regexpMatchString_escaped _ _ (fun c hc => hostnameChar_literal c (h1 c hc)),
    regexpMatchString_escaped _ _ (fun c hc => hostnameChar_literal c (h2 c hc))]
  by_cases e : host.Hostname = h.Hostname
  · simp [e]
  · have e' : ¬ h.Hostname.data = host.Hostname.data := by
      rw [string_data_inj]; exact fun x => e x.symm
    have e'' : ¬ host.Hostname.data = h.Hostname.data := by
      rw [string_data_inj]; exact e
    simp [e, e', e'']

/-- The duplicates `findMatch` collects, when every comparison of the group
returns: the new binding and the old one, for every old binding on the same port
whose hostname matches. -/
theorem findDuplicates_eq (host : Host) (f : Host → Bool) :
    ∀ (hostGroup duplicates : List Host),
      (∀ h ∈ hostGroup, h.Port = host.Port → hostnamesMatch host h = some (f h)) →
      findDuplicates host hostGroup duplicates =
        some (duplicates ++
          hostGroup.flatMap (fun h => if h.Port = host.Port ∧ f h = true then [host, h] else [])) := by
  intro hostGroup
  induction hostGroup with
  | nil => intro duplicates _; simp [findDuplicates]
  | cons h t ih =>
    intro duplicates hf
    have ht : ∀ x ∈ t, x.Port = host.Port → hostnamesMatch host x = some (f x) :=
      fun x hx => hf x (by simp [hx])
    rw [findDuplicates]
    by_cases hp : h.Port = host.Port
    · have hm := hf h (by simp) hp
      simp only [hp, if_true, hm]
      cases hfh : f h
      · simp only [ih _ ht]
        simp [List.flatMap_cons, hp, hfh]
      · simp only [ih _ ht]
        simp [List.flatMap_cons, hp, hfh]
    · simp only [hp, if_false, ih _ ht]
      simp [List.flatMap_cons, hp]

theorem mem_flatMap_pairs (host : Host) (p : Host → Prop) [DecidablePred p] (l : List Host)
    (x : Host) :
    x ∈ l.flatMap (fun h => if p h then [host, h] else []) ↔
      (x = host ∧ ∃ h ∈ l, p h) ∨ (x ∈ l ∧ p x) := by
  simp only [List.mem_flatMap]
  constructor
  · rintro ⟨h, hl, hx⟩
    by_cases hp : p h
    · simp only [hp, if_true, List.mem_cons, List.mem_singleton, List.mem_nil_iff, or_false] at hx
      rcases hx with e | e
      · exact Or.inl ⟨e, h, hl, hp⟩
      · subst e; exact Or.inr ⟨hl, hp⟩
    · simp [hp] at hx
  · rintro (⟨e, h, hl, hp⟩ | ⟨hl, hp⟩)
    · exact ⟨h, hl, by simp [hp, e]⟩
    · exact ⟨x, hl, by simp [hp]⟩

/-- C8: for a new binding and a group of old bindings whose hostnames are all
wildcard-free and made of lower-case letters, digits, `-` and `.`, `findMatch`
returns, and reports exactly the old bindings on the same port with an equal
hostname: a dot matches no other character and the match is anchored at both
ends, as on the two pairs of the tests. -/
theorem findMatch_plain_iff_equal (existingList : String → List Host) (host : Host)
    (selector : String) (hhost : plainHostname host.Hostname)
    (hall : ∀ h ∈ existingList selector, plainHostname h.Hostname) :
    (∃ duplicates,
      findMatch existingList host selector = some (decide (duplicates.length > 0), duplicates) ∧
      duplicates = (existingList selector).flatMap (fun h =>
        if h.Port = host.Port ∧ host.Hostname = h.Hostname then [host, h] else []) ∧
      (duplicates.length > 0 ↔
        ∃ h ∈ existingList selector, h.Port = host.Port ∧ host.Hostname = h.Hostname) ∧
      (∀ h ∈ existingList selector, h.Port = host.Port →
        (h ∈ duplicates ↔ host.Hostname = h.Hostname))) ∧
    findMatch (fun _ => [⟨80, "api.dev.example.com", "test", 0, 0, "foxxed"⟩])
        ⟨80, "api-dev.example.com", "test", 0, 1, "foxxed"⟩ "app=canidae" = some (false, []) ∧
    findMatch (fun _ => [⟨80, "example.com", "test", 0, 0, "shouldbevalid"⟩])
        ⟨80, "thisisfine.example.com", "test", 0, 1, "shouldbevalid"⟩ "app=someother" =
      some (false, []) := by
  refine ⟨⟨_, ?_, rfl, ?_, ?_⟩, by decide, by decide⟩
  · unfold findMatch
    rw [findDuplicates_eq host (fun h => decide (host.Hostname = h.Hostname)) _ []
      (fun h hh _ => hostnamesMatch_plain host h hhost (hall h hh))]
    simp
  · rw [gt_iff_lt, List.length_pos_iff_exists_mem]
    constructor
    · rintro ⟨x, hx⟩
      rw [mem_flatMap_pairs] at hx
      rcases hx with ⟨_, h, hl, hp⟩ | ⟨hl, hp⟩
      · exact ⟨h, hl, hp⟩
      · exact ⟨x, hl, hp⟩
    · rintro ⟨h, hl, hp⟩
      exact ⟨h, (mem_flatMap_pairs _ _ _ _).mpr (Or.inr ⟨hl, hp⟩)⟩
  · intro h hl hp
    rw [mem_flatMap_pairs]
    constructor
    · rintro (⟨e, _⟩ | ⟨_, hq⟩)
      · rw [e]
      · exact hq.2
    · intro e
      exact Or.inr ⟨hl, hp, e⟩

theorem findMatch_plain_iff_equal_witness :
    ∃ duplicates,
      findMatch (fun _ => [⟨80, "valid", "test", 0, 0, "validgateway"⟩])
          ⟨80, "valid", "bookinfo", 0, 0, "stillvalid"⟩ "app=real" =
        some (decide (duplicates.length > 0), duplicates) ∧
      duplicates.length > 0 :=
  have h := (findMatch_plain_iff_equal (fun _ => [⟨80, "valid", "test", 0, 0, "validgateway"⟩])
    ⟨80, "valid", "bookinfo", 0, 0, "stillvalid"⟩ "app=real" (by decide) (by decide)).1
  h.elim fun d hd => ⟨d, hd.1, hd.2.2.1.mpr ⟨_, List.mem_singleton.mpr rfl, rfl, rfl⟩⟩

theorem keys_createError (h : Host) :
    (createError h.GatewayRuleName h.Namespace h.ServerIndex h.HostIndex).map (·.1) =
      [hostKey h] := rfl

theorem mergeDuplicate_keys (l : List Host) :
    ∀ acc : IstioValidations × IstioValidations,
      (∀ k, k ∈ (l.foldl mergeDuplicate acc).1.map (·.1) ↔
        k ∈ acc.1.map (·.1) ∨ ∃ dh ∈ l, k = hostKey dh) ∧
      (l.foldl mergeDuplicate acc).2.map (·.1) = acc.2.map (·.1) := by
  induction l with
  | nil => intro acc; simp
  | cons dh t ih =>
    intro acc
    obtain ⟨h1, h2⟩ := ih (mergeDuplicate acc dh)
    simp only [List.foldl_cons]
    refine ⟨fun k => ?_, ?_⟩
    · rw [h1 k]
      simp only [mergeDuplicate, mem_keys_MergeValidations, keys_MergeReferences,
        keys_createError, List.mem_singleton, List.mem_cons, exists_eq_or_imp]
      tauto
    · rw [h2]
      simp only [mergeDuplicate, keys_MergeReferences]

theorem mem_drop_one_pairs (host : Host) (p : Host → Prop) [DecidablePred p] (l : List Host)
    (x : Host) (hx : x ∈ l) (hp : p x) :
    x ∈ (l.flatMap (fun h => if p h then [host, h] else [])).drop 1 := by
  induction l with
  | nil => simp at hx
  | cons h t ih =>
    by_cases hh : p h
    · simp only [List.flatMap_cons, hh, if_true, List.cons_append, List.nil_append,
        List.drop_succ_cons, List.drop_zero, List.mem_cons]
      rcases List.mem_cons.mp hx with e | e
      · exact Or.inl e
      · exact Or.inr ((mem_flatMap_pairs host p t x).mpr (Or.inr ⟨e, hp⟩))
    · have hne : x ≠ h := fun e => hh (e ▸ hp)
      have hxt : x ∈ t := by
        rcases List.mem_cons.mp hx with e | e
        · exact absurd e hne
        · exact e
      simp only [List.flatMap_cons, hh, if_false, List.nil_append]
      exact ih hxt

/-- The result of `findMatch` when no comparison panics. -/
theorem findMatch_eq (existingList : String → List Host) (host : Host) (selector : String)
    (hsafe : ∀ h ∈ existingList selector, h.Port = host.Port → hostnamesMatch host h ≠ none) :
    findMatch existingList host selector =
      some (decide (((existingList selector).flatMap (fun h =>
          if h.Port = host.Port ∧ hostnamesMatch host h = some true then [host, h] else [])).length
            > 0),
        (existingList selector).flatMap (fun h =>
          if h.Port = host.Port ∧ hostnamesMatch host h = some true then [host, h] else [])) := by
  unfold findMatch
  rw [findDuplicates_eq host (fun h => (hostnamesMatch host h).getD false) _ []]
  · have hcongr : ∀ h ∈ existingList selector,
        (if h.Port = host.Port ∧ (hostnamesMatch host h).getD false = true then [host, h] else []) =
        (if h.Port = host.Port ∧ hostnamesMatch host h = some true then [host, h] else []) := by
      intro h _
      cases hm : hostnamesMatch host h with
      | none => simp
      | some b => simp
    simp only [List.nil_append, Option.map_some', List.flatMap_congr hcongr]
  · intro h hh hp
    cases hm : hostnamesMatch host h with
    | none => exact absurd hm (hsafe h hh hp)
    | some b => simp

/-- One step of `Check`, for a binding whose comparisons with the bindings of
its selector group do not panic: the step returns, appends the binding to its
group, keeps every key of the graph, and adds the keys of the two owners for
every old binding of the group on the same port whose hostname matches. -/
theorem checkHost_spec (sel : String) (st : CheckState) (host : Host)
    (hsafe : ∀ h ∈ st.existingList sel, h.Port = host.Port → hostnamesMatch host h ≠ none) :
    ∃ st', checkHost sel st host = some st' ∧
      (∀ s, st'.existingList s =
        if s = sel then st.existingList s ++ [host] else st.existingList s) ∧
      (∀ k, k ∈ st.validations.map (·.1) → k ∈ st'.validations.map (·.1)) ∧
      (∀ h ∈ st.existingList sel, h.Port = host.Port → hostnamesMatch host h = some true →
        hostKey h ∈ st'.validations.map (·.1) ∧ hostKey host ∈ st'.validations.map (·.1)) := by
  unfold checkHost
  rw [findMatch_eq st.existingList host sel hsafe]
  refine ⟨_, rfl, fun s => rfl, ?_, ?_⟩
  · intro k hk
    dsimp only
    split_ifs with hd
    · rw [mem_keys_MergeValidations]
      left
      unfold mergeDuplicates
      exact ((mergeDuplicate_keys _ _).1 k).mpr (Or.inl hk)
    · exact hk
  · intro h hh hp hm
    have hmem := mem_drop_one_pairs host
      (fun h => h.Port = host.Port ∧ hostnamesMatch host h = some true) _ h hh ⟨hp, hm⟩
    have hpos : ((st.existingList sel).flatMap (fun h =>
        if h.Port = host.Port ∧ hostnamesMatch host h = some true then [host, h] else [])).length
          > 0 := by
      rw [gt_iff_lt, List.length_pos_iff_exists_mem]
      exact ⟨h, (mem_flatMap_pairs host _ _ h).mpr (Or.inr ⟨hh, hp, hm⟩)⟩
    dsimp only
    rw [if_pos (by simpa using hpos)]
    simp only [mem_keys_MergeValidations]
    unfold mergeDuplicates
    constructor
    · left
      exact ((mergeDuplicate_keys _ _).1 _).mpr (Or.inr ⟨h, hmem, rfl⟩)
    · right
      rw [(mergeDuplicate_keys _ _).2, keys_createError]
      exact List.mem_singleton.mpr rfl

/-- The run of `Check` over a list of bindings, each with its selector string. -/
theorem runBindings_spec (bs : List (Host × String)) :
    ∀ (st : CheckState), comparable bs →
      (∀ b ∈ bs, ∀ h ∈ st.existingList b.2, h.Port = b.1.Port → hostnamesMatch b.1 h ≠ none) →
      ∃ st', bs.foldlM (fun st b => checkHost b.2 st b.1) st = some st' ∧
        (∀ k, k ∈ st.validations.map (·.1) → k ∈ st'.validations.map (·.1)) ∧
        (∀ b ∈ bs, ∀ h ∈ st.existingList b.2, h.Port = b.1.Port →
          hostnamesMatch b.1 h = some true →
          hostKey h ∈ st'.validations.map (·.1) ∧ hostKey b.1 ∈ st'.validations.map (·.1)) ∧
        (∀ b1 b2, [b1, b2].Sublist bs → b1.2 = b2.2 → b1.1.Port = b2.1.Port →
          hostnamesMatch b2.1 b1.1 = some true →
          hostKey b1.1 ∈ st'.validations.map (·.1) ∧ hostKey b2.1 ∈ st'.validations.map (·.1)) := by
  induction bs with
  | nil =>
    intro st _ _
    refine ⟨st, rfl, fun k hk => hk, ?_, ?_⟩
    · intro b hb; simp at hb
    · intro b1 b2 hsub; simp at hsub
  | cons b t ih =>
    intro st hc hsafe
    have hc' := List.pairwise_cons.mp hc
    obtain ⟨st1, hst1, hex, hmono, hnew⟩ :=
      checkHost_spec b.2 st b.1 (fun h hh hp => hsafe b (by simp) h hh hp)
    have hsafe1 : ∀ b' ∈ t, ∀ h ∈ st1.existingList b'.2, h.Port = b'.1.Port →
        hostnamesMatch b'.1 h ≠ none := by
      intro b' hb' h hh hp
      rw [hex] at hh
      split_ifs at hh with hs
      · rcases List.mem_append.mp hh with hh | hh
        · exact hsafe b' (by simp [hb']) h hh hp
        · have e : h = b.1 := List.mem_singleton.mp hh
          subst e
          exact hc'.1 b' hb' hs.symm hp
      · exact hsafe b' (by simp [hb']) h hh hp
    obtain ⟨st2, hst2, hmono2, hold2, hpair2⟩ := ih st1 hc'.2 hsafe1
    refine ⟨st2, ?_, fun k hk => hmono2 k (hmono k hk), ?_, ?_⟩
    · simp only [List.foldlM_cons, hst1]
      exact hst2
    · intro b' hb' h hh hp hm
      rcases List.mem_cons.mp hb' with e | e
      · subst e
        obtain ⟨k1, k2⟩ := hnew h hh hp hm
        exact ⟨hmono2 _ k1, hmono2 _ k2⟩
      · refine hold2 b' e h ?_ hp hm
        rw [hex]
        split_ifs
        · exact List.mem_append.mpr (Or.inl hh)
        · exact hh
    · intro b1 b2 hsub hsel hport hm
      cases hsub with
      | cons _ hsub' => exact hpair2 b1 b2 hsub' hsel hport hm
      | cons₂ _ hsub' =>
        have hb2 : b2 ∈ t := by
          have := hsub'.subset
          exact this (by simp)
        refine hold2 b2 hb2 b.1 ?_ hport hm
        rw [hex, if_pos hsel.symm]
        exact List.mem_append.mpr (Or.inr (List.mem_singleton.mpr rfl))

theorem foldlM_flatMap_option {α β σ : Type} (f : α → List β) (g : σ → β → Option σ)
    (l : List α) : ∀ st : σ,
      (l.flatMap f).foldlM g st = l.foldlM (fun st a => (f a).foldlM g st) st := by
  induction l with
  | nil => intro st; rfl
  | cons a t ih =>
    intro st
    simp only [List.flatMap_cons, List.foldlM_append, List.foldlM_cons]
    cases (f a).foldlM g st with
    | none => rfl
    | some st' => exact ih st'

theorem foldlM_bindings (sel : String) (hosts : List Host) : ∀ st : CheckState,
    (hosts.map (fun h => (h, sel))).foldlM (fun st b => checkHost b.2 st b.1) st =
      hosts.foldlM (checkHost sel) st := by
  induction hosts with
  | nil => intro st; rfl
  | cons h t ih =>
    intro st
    simp only [List.map_cons, List.foldlM_cons]
    cases checkHost sel st h with
    | none => rfl
    | some st' => exact ih st'

theorem checkGateway_eq (ext : External) (st : CheckState) (g : IstioObject) (sel : String)
    (hsel : selectorString ext g = some sel) :
    checkGateway ext st g = (gatewayHosts ext g).foldlM (checkHost sel) st := by
  unfold checkGateway gatewayHosts
  rw [hsel]
  dsimp only
  split
  · rw [foldlM_flatMap_option]
  · rfl

/-- The run of `Check` over a list of gateways is the run over their bindings. -/
theorem foldlM_checkGateway (ext : External) (gs : List IstioObject) :
    ∀ (bs : List (Host × String)) (st : CheckState), bindingsOf ext gs = some bs →
      gs.foldlM (checkGateway ext) st = bs.foldlM (fun st b => checkHost b.2 st b.1) st := by
  induction gs with
  | nil =>
    intro bs st hb
    simp only [bindingsOf, Option.some.injEq] at hb
    subst hb
    rfl
  | cons g t ih =>
    intro bs st hb
    rw [bindingsOf] at hb
    cases hsel : selectorString ext g with
    | none => simp [hsel] at hb
    | some sel =>
      cases hrest : bindingsOf ext t with
      | none => simp [hsel, hrest] at hb
      | some rest =>
        simp only [hsel, hrest, Option.some.injEq] at hb
        subst hb
        simp only [List.foldlM_cons, List.foldlM_append, checkGateway_eq ext st g sel hsel,
          foldlM_bindings]
        cases (gatewayHosts ext g).foldlM (checkHost sel) st with
        | none => rfl
        | some st' => exact ih rest st' hrest

/-- When no selector panics, `Check` is the run of `checkHost` over all the
bindings of its input, from the empty graph and the empty selector map. -/
theorem Check_eq_run (ext : External) (gws : List (List IstioObject))
    (bs : List (Host × String)) (hb : allBindings ext gws = some bs) :
    Check ext gws =
      (bs.foldlM (fun st b => checkHost b.2 st b.1)
        { validations := [], existingList := fun _ => [] }).map (·.validations) := by
  unfold Check
  dsimp only
  have hflat : ∀ st : CheckState,
      gws.foldlM (fun (st : CheckState) (nsG : List IstioObject) =>
        nsG.foldlM (checkGateway ext) st) st = gws.flatten.foldlM (checkGateway ext) st := by
    intro st
    have := foldlM_flatMap_option (id : List IstioObject → List IstioObject)
      (checkGateway ext) gws st
    rw [List.flatMap_id] at this
    exact this.symm
  rw [hflat, foldlM_checkGateway ext gws.flatten bs _ hb]

/-- When neither a selector nor a hostname comparison panics, `Check` returns a
graph, and the graph has the keys of both owners of every two bindings with the
same selector string and port whose hostnames match. -/
theorem Check_flags_matching (ext : External) (gws : List (List IstioObject))
    (bs : List (Host × String)) (hb : allBindings ext gws = some bs) (hc : comparable bs) :
    ∃ graph, Check ext gws = some graph ∧
      ∀ b1 b2, [b1, b2].Sublist bs → b1.2 = b2.2 → b1.1.Port = b2.1.Port →
        hostnamesMatch b2.1 b1.1 = some true →
        hostKey b1.1 ∈ graph.map (·.1) ∧ hostKey b2.1 ∈ graph.map (·.1) := by
  obtain ⟨st', hrun, _, _, hpair⟩ :=
    runBindings_spec bs { validations := [], existingList := fun _ => [] } hc
      (fun b _ h hh => by simp at hh)
  refine ⟨st'.validations, ?_, hpair⟩
  rw [Check_eq_run ext gws bs hb, hrun]
  rfl

/-- The bindings of a gateway carry the key of the gateway. -/
theorem hostKey_gatewayHosts (ext : External) (g : IstioObject) (h : Host)
    (hh : h ∈ gatewayHosts ext g) :
    hostKey h = { ObjectType := "gateway", Namespace := g.Namespace, Name := g.Name } := by
  unfold gatewayHosts at hh
  split at hh
  · simp only [List.mem_flatMap] at hh
    obtain ⟨idef, _, hmem⟩ := hh
    unfold serverHosts at hmem
    split at hmem
    · simp only [List.mem_map] at hmem
      obtain ⟨hh', _, e⟩ := hmem
      subst e
      rfl
    · simp at hmem
  · simp at hh

theorem hostnamesMatch_wildcard (host h : Host)
    (hw : host.Hostname = "*" ∨ h.Hostname = "*") : hostnamesMatch host h = some true := by
  have hw' : host.Hostname = wildCardMatch ∨ h.Hostname = wildCardMatch := hw
  unfold hostnamesMatch
  rw [if_pos hw']

theorem searchFrom_suffix (ps : List Piece) (rest : List Char)
    (hm : ∀ b, matchPieces ps b rest = true) :
    ∀ (pre : List Char) (b : Bool), searchFrom ps (pre ++ rest) b = true := by
  intro pre
  induction pre with
  | nil =>
    intro b
    cases rest with
    | nil => simpa [searchFrom] using hm b
    | cons d t => simp [searchFrom, hm b]
  | cons c t ih =>
    intro b
    simp [searchFrom, ih false]

/-- The anchored pattern built from `*.` and a plain suffix matches every text
that ends with a dot and the suffix. -/
theorem regexpMatchString_subdomain (s text : String) (pre : List Char)
    (hs : plainHostname s) (ht : text.data = pre ++ '.' :: s.data) :
    regexpMatchString (stringsJoin ["^", stringsReplace ("*." ++ s) '.' "\\.", "$"]) text =
      some true := by
  unfold regexpMatchString
  rw [stringsJoin_anchor, stringsReplace_data, String.data_append]
  have hd : ("*." : String).data = ['*', '.'] := rfl
  rw [hd]
  simp only [List.cons_append, List.nil_append, List.flatMap_cons,
    show ('*' : Char) ≠ '.' by decide, if_false, if_true, List.singleton_append]
  have hd2 : ("\\." : String).data = ['\\', '.'] := rfl
  have hparse := parseRegexp_escaped s.data (fun c hc => hostnameChar_literal c (hs c hc))
    [⟨.lit '.', false⟩, ⟨.beginText, true⟩] false
  rw [hd2] at hparse
  rw [parseRegexp_begin, parseRegexp_star, parseRegexp_escaped_dot, hparse]
  simp only [Option.map_some', Option.some.injEq, ht]
  apply searchFrom_suffix
  intro b
  have := matchPieces_lits_end ('.' :: s.data) b ('.' :: s.data)
  simp only [litPieces, List.map_cons, List.cons_append, decide_True] at this
  simpa [matchPieces, litPieces] using this

theorem plainHostname_append (a b : String) (ha : plainHostname a) (hb : plainHostname b) :
    plainHostname (a ++ b) := by
  intro c hc
  rw [String.data_append] at hc
  rcases List.mem_append.mp hc with h | h
  · exact ha c h
  · exact hb c h

/-- The hostnames `*.s` and `p.s` match, whichever of the two is the new one. -/
theorem hostnamesMatch_subdomain (host h : Host) (s p : String) (hs : plainHostname s)
    (hp : plainHostname p)
    (hnames : (host.Hostname = "*." ++ s ∧ h.Hostname = p ++ "." ++ s) ∨
      (h.Hostname = "*." ++ s ∧ host.Hostname = p ++ "." ++ s)) :
    hostnamesMatch host h = some true := by
  have hplain : plainHostname (p ++ "." ++ s) :=
    plainHostname_append _ _ (plainHostname_append _ _ hp (by decide)) hs
  have hdata : (p ++ "." ++ s).data = p.data ++ '.' :: s.data := by
    simp [String.data_append]
  have hstar : ("*." ++ s) ≠ wildCardMatch := by
    intro e
    have := congrArg (fun x => x.data.length) e
    simp [String.data_append, wildCardMatch] at this
  unfold hostnamesMatch
  rcases hnames with ⟨e1, e2⟩ | ⟨e1, e2⟩
  · simp only [e1, e2, hstar, plainHostname_ne_wildcard _ hplain, or_self, if_false]
    rw [searchText_plain _ hplain, regexpMatchString_subdomain s _ p.data hs hdata]
  · simp only [e1, e2, hstar, plainHostname_ne_wildcard _ hplain, or_self, if_false]
    rw [searchText_plain _ hplain,
      regexpMatchString_escaped _ _ (fun c hc => hostnameChar_literal c (hplain c hc)),
      regexpMatchString_subdomain s _ p.data hs hdata]
    split <;> simp_all

/-- Two bindings on the same selector string and port whose hostnames match:
`findMatch` reports them, and `Check` puts the keys of both owners in its graph. -/
theorem matching_pair_reported (existingList : String → List Host) (host h : Host)
    (selector : String) (hmem : h ∈ existingList selector) (hport : h.Port = host.Port)
    (hm : hostnamesMatch host h = some true)
    (hsafe : ∀ x ∈ existingList selector, x.Port = host.Port → hostnamesMatch host x ≠ none) :
    (∃ duplicates, findMatch existingList host selector = some (true, duplicates) ∧
      host ∈ duplicates ∧ h ∈ duplicates) ∧
    (∀ (ext : External) (gws : List (List IstioObject)) (bs : List (Host × String)),
      allBindings ext gws = some bs → comparable bs →
      [(h, selector), (host, selector)].Sublist bs →
      ∃ graph, Check ext gws = some graph ∧
        hostKey h ∈ graph.map (·.1) ∧ hostKey host ∈ graph.map (·.1)) := by
  constructor
  · refine ⟨(existingList selector).flatMap (fun h =>
      if h.Port = host.Port ∧ hostnamesMatch host h = some true then [host, h] else []),
      ?_, ?_, ?_⟩
    · rw [findMatch_eq existingList host selector hsafe]
      have hpos : ((existingList selector).flatMap (fun h =>
          if h.Port = host.Port ∧ hostnamesMatch host h = some true then [host, h]
          else [])).length > 0 := by
        rw [gt_iff_lt, List.length_pos_iff_exists_mem]
        exact ⟨h, (mem_flatMap_pairs host _ _ h).mpr (Or.inr ⟨hmem, hport, hm⟩)⟩
      simp only [hpos, decide_True]
    · exact (mem_flatMap_pairs host _ _ host).mpr (Or.inl ⟨rfl, h, hmem, hport, hm⟩)
    · exact (mem_flatMap_pairs host _ _ h).mpr (Or.inr ⟨hmem, hport, hm⟩)
  · intro ext gws bs hb hc hsub
    obtain ⟨graph, hg, hpair⟩ := Check_flags_matching ext gws bs hb hc
    exact ⟨graph, hg, hpair (h, selector) (host, selector) hsub rfl hport hm⟩

/-- C7: for a new binding and an old binding of the same selector string and the
same port, one of whose hostnames is the literal `*` (whatever the other one
is), `findMatch` reports the pair as duplicates, and every run of `Check` that
meets the old binding before the new one has the keys of both owning gateways
in its graph. The comparisons with the other bindings are assumed not to make
`regexp.MustCompile` panic. -/
theorem wildcard_binding_overlaps (existingList : String → List Host) (host h : Host)
    (selector : String) (hmem : h ∈ existingList selector) (hport : h.Port = host.Port)
    (hw : host.Hostname = "*" ∨ h.Hostname = "*")
    (hsafe : ∀ x ∈ existingList selector, x.Port = host.Port → hostnamesMatch host x ≠ none) :
    (∃ duplicates, findMatch existingList host selector = some (true, duplicates) ∧
      host ∈ duplicates ∧ h ∈ duplicates) ∧
    (∀ (ext : External) (gws : List (List IstioObject)) (bs : List (Host × String)),
      allBindings ext gws = some bs → comparable bs →
      [(h, selector), (host, selector)].Sublist bs →
      ∃ graph, Check ext gws = some graph ∧
        hostKey h ∈ graph.map (·.1) ∧ hostKey host ∈ graph.map (·.1)) :=
  matching_pair_reported existingList host h selector hmem hport
    (hostnamesMatch_wildcard host h hw) hsafe

theorem wildcard_binding_overlaps_witness :
    (∃ duplicates,
      findMatch (fun _ => [⟨80, "*", "test", 0, 0, "validgateway"⟩])
          ⟨80, "justhost.com", "test", 0, 0, "stillvalid"⟩ "app=istio-ingress" =
        some (true, duplicates) ∧
      (⟨80, "justhost.com", "test", 0, 0, "stillvalid"⟩ : Host) ∈ duplicates ∧
      (⟨80, "*", "test", 0, 0, "validgateway"⟩ : Host) ∈ duplicates) ∧
    ∃ graph,
      Check External.sample
          [[sampleGateway "validgateway" "test" "istio-ingress" 80 ["*"]],
           [sampleGateway "stillvalid" "test" "istio-ingress" 80 ["justhost.com"]]] =
        some graph ∧
      (⟨"gateway", "test", "validgateway"⟩ : IstioValidationKey) ∈ graph.map (·.1) ∧
      (⟨"gateway", "test", "stillvalid"⟩ : IstioValidationKey) ∈ graph.map (·.1) :=
  have t := wildcard_binding_overlaps (fun _ => [⟨80, "*", "test", 0, 0, "validgateway"⟩])
    ⟨80, "justhost.com", "test", 0, 0, "stillvalid"⟩ ⟨80, "*", "test", 0, 0, "validgateway"⟩
    "app=istio-ingress" (by decide) (by decide) (by decide) (by decide)
  ⟨t.1, t.2 External.sample _
    [(⟨80, "*", "test", 0, 0, "validgateway"⟩, "app=istio-ingress"),
     (⟨80, "justhost.com", "test", 0, 0, "stillvalid"⟩, "app=istio-ingress")]
    (by decide) (by decide) (by decide)⟩

/-- C9: for a wildcard-free lower-case suffix `s` and prefix `p`, a new binding
and an old binding of the same selector string and port whose hostnames are
`*.s` and `p.s`, in either order, are reported as duplicates by `findMatch`, and
every run of `Check` that meets the old binding before the new one has the keys
of both owning gateways in its graph. The comparisons with the other bindings
are assumed not to make `regexp.MustCompile` panic. -/
theorem subdomain_wildcard_overlaps (existingList : String → List Host) (host h : Host)
    (selector : String) (s p : String) (hs : plainHostname s) (hp : plainHostname p)
    (hmem : h ∈ existingList selector) (hport : h.Port = host.Port)
    (hnames : (host.Hostname = "*." ++ s ∧ h.Hostname = p ++ "." ++ s) ∨
      (h.Hostname = "*." ++ s ∧ host.Hostname = p ++ "." ++ s))
    (hsafe : ∀ x ∈ existingList selector, x.Port = host.Port → hostnamesMatch host x ≠ none) :
    (∃ duplicates, findMatch existingList host selector = some (true, duplicates) ∧
      host ∈ duplicates ∧ h ∈ duplicates) ∧
    (∀ (ext : External) (gws : List (List IstioObject)) (bs : List (Host × String)),
      allBindings ext gws = some bs → comparable bs →
      [(h, selector), (host, selector)].Sublist bs →
      ∃ graph, Check ext gws = some graph ∧
        hostKey h ∈ graph.map (·.1) ∧ hostKey host ∈ graph.map (·.1)) :=
  matching_pair_reported existingList host h selector hmem hport
    (hostnamesMatch_subdomain host h s p hs hp hnames) hsafe

theorem subdomain_wildcard_overlaps_witness :
    (∃ duplicates,
      findMatch (fun _ => [⟨80, "*.echidna.com", "test", 0, 0, "shouldnotbevalid"⟩])
          ⟨80, "tachyglossa.echidna.com", "test", 0, 1, "shouldnotbevalid"⟩ "app=monotreme" =
        some (true, duplicates) ∧
      (⟨80, "tachyglossa.echidna.com", "test", 0, 1, "shouldnotbevalid"⟩ : Host) ∈ duplicates ∧
      (⟨80, "*.echidna.com", "test", 0, 0, "shouldnotbevalid"⟩ : Host) ∈ duplicates) ∧
    ∃ graph,
      Check External.sample
          [[sampleGateway "shouldnotbevalid" "test" "monotreme" 80
            ["*.echidna.com", "tachyglossa.echidna.com"]]] = some graph ∧
      (⟨"gateway", "test", "shouldnotbevalid"⟩ : IstioValidationKey) ∈ graph.map (·.1) ∧
      (⟨"gateway", "test", "shouldnotbevalid"⟩ : IstioValidationKey) ∈ graph.map (·.1) :=
  have t := subdomain_wildcard_overlaps
    (fun _ => [⟨80, "*.echidna.com", "test", 0, 0, "shouldnotbevalid"⟩])
    ⟨80, "tachyglossa.echidna.com", "test", 0, 1, "shouldnotbevalid"⟩
    ⟨80, "*.echidna.com", "test", 0, 0, "shouldnotbevalid"⟩
    "app=monotreme" "echidna.com" "tachyglossa" (by decide) (by decide) (by decide) (by decide)
    (Or.inr ⟨by decide, by decide⟩) (by decide)
  ⟨t.1, t.2 External.sample _
    [(⟨80, "*.echidna.com", "test", 0, 0, "shouldnotbevalid"⟩, "app=monotreme"),
     (⟨80, "tachyglossa.echidna.com", "test", 0, 1, "shouldnotbevalid"⟩, "app=monotreme")]
    (by decide) (by decide) (by decide)⟩

/-- C10 at a failing input: the hostname `foo.*.com` and the hostname
`foo.bar.com`, obtained from it by replacing `*` by `bar`, on the same selector
string and port, are not reported by `findMatch`, whichever of the two is the
new one. -/
theorem findMatch_inner_wildcard_missed :
    stringsReplace "foo.*.com" '*' "bar" = "foo.bar.com" ∧
    findMatch (fun _ => [⟨80, "foo.bar.com", "test", 0, 0, "first"⟩])
        ⟨80, "foo.*.com", "test", 0, 0, "second"⟩ "app=real" = some (false, []) ∧
    findMatch (fun _ => [⟨80, "foo.*.com", "test", 0, 0, "first"⟩])
        ⟨80, "foo.bar.com", "test", 0, 0, "second"⟩ "app=real" = some (false, []) ∧
    Check External.sample
        [[sampleGateway "first" "test" "real" 80 ["foo.*.com"]],
         [sampleGateway "second" "test" "real" 80 ["foo.bar.com"]]] = some [] := by
  decide

/-- C11 at failing inputs: a hostname with upper-case letters bound twice on the
same selector string and port, and two hostnames that both hold upper-case
letters and are equal once lower-cased, are not reported by `findMatch`, and
`Check` returns an empty graph for them; the pair of the test, one of whose
hostnames is in lower case, is reported. -/
theorem findMatch_upper_case_missed :
    stringsToLower "NOTFINE.example.com" = stringsToLower "Notfine.example.com" ∧
    findMatch (fun _ => [⟨80, "NOTFINE.example.com", "test", 0, 0, "foxxed"⟩])
        ⟨80, "NOTFINE.example.com", "test", 0, 1, "foxxed"⟩ "app=canidae" = some (false, []) ∧
    findMatch (fun _ => [⟨80, "NOTFINE.example.com", "test", 0, 0, "foxxed"⟩])
        ⟨80, "Notfine.example.com", "test", 0, 1, "foxxed"⟩ "app=canidae" = some (false, []) ∧
    Check External.sample
        [[sampleGateway "foxxed" "test" "canidae" 80
          ["NOTFINE.example.com", "NOTFINE.example.com"]]] = some [] ∧
    Check External.sample
        [[sampleGateway "foxxed" "test" "canidae" 80
          ["NOTFINE.example.com", "Notfine.example.com"]]] = some [] ∧
    (Check External.sample
        [[sampleGateway "foxxed" "test" "canidae" 80
          ["NOTFINE.example.com", "notfine.example.com"]]]).map (fun graph => graph.map (·.1)) =
      some [⟨"gateway", "test", "foxxed"⟩] := by
  decide

theorem foldlM_none_of_mem {α σ : Type} (f : σ → α → Option σ) (x : α)
    (hx : ∀ s, f s x = none) : ∀ (l : List α) (s : σ), x ∈ l → l.foldlM f s = none := by
  intro l
  induction l with
  | nil => intro s h; simp at h
  | cons a t ih =>
    intro s h
    simp only [List.foldlM_cons]
    cases hfa : f s a with
    | none => rfl
    | some s' =>
      rcases List.mem_cons.mp h with e | e
      · rw [← e, hx s] at hfa
        exact absurd hfa (by simp)
      · exact ih s' e

/-- The run of `Check` over the groups is the run over the gateways of all the
groups, one after the other. -/
theorem foldlM_groups (ext : External) (gws : List (List IstioObject)) (st : CheckState) :
    gws.foldlM (fun (st : CheckState) (nsG : List IstioObject) =>
      nsG.foldlM (checkGateway ext) st) st = gws.flatten.foldlM (checkGateway ext) st := by
  have h := foldlM_flatMap_option (id : List IstioObject → List IstioObject)
    (checkGateway ext) gws st
  rw [List.flatMap_id] at h
  exact h.symm

/-- C14: `Check` on a sequence of groups returns what `Check` returns on the
single group that is the concatenation of the groups (the same graph, or a panic
in both runs); the two gateways of the test, in different groups and namespaces
with the same selector, host and port, are both keys of the graph. -/
theorem Check_grouping_irrelevant (ext : External) (gws : List (List IstioObject)) :
    Check ext gws = Check ext [gws.flatten] ∧
    (Check External.sample
        [[sampleGateway "validgateway" "test" "real" 80 ["valid"]],
         [sampleGateway "stillvalid" "bookinfo" "real" 80 ["valid"]]]).map
          (fun graph => graph.map (·.1)) =
      some [⟨"gateway", "test", "validgateway"⟩, ⟨"gateway", "bookinfo", "stillvalid"⟩] := by
  constructor
  · unfold Check
    dsimp only
    rw [foldlM_groups, foldlM_groups]
    simp
  · decide

/-- C20 at a failing input: a gateway whose `spec.selector` is a map with a
value that is not a string makes `Check` panic, whatever the two external
functions are, alone and before or after other gateways; a gateway whose
selector is absent and a gateway whose selector is not a map are compared under
the empty selector string. -/
theorem Check_selector_value_panics (ext : External) :
    Check ext
        [[{ Name := "broken", Namespace := "test",
            Spec := [("selector", .map [("app", .int 42)]),
                     ("servers", .list [.map [("hosts", .list [.str "valid"])]])] }]] = none ∧
    (∀ before after : List IstioObject,
      Check ext
        [before ++
          [{ Name := "broken", Namespace := "test",
             Spec := [("selector", .map [("app", .int 42)])] }] ++ after] = none) ∧
    (Check ext
        [[{ Name := "absent", Namespace := "test",
            Spec := [("servers", .list [.map [("hosts", .list [.str "valid"])]])] }],
         [{ Name := "nomap", Namespace := "test",
            Spec := [("selector", .str "app=real"),
                     ("servers", .list [.map [("hosts", .list [.str "valid"])]])] }]]).map
          (fun graph => graph.map (·.1)) =
      some [⟨"gateway", "test", "absent"⟩, ⟨"gateway", "test", "nomap"⟩] := by
  refine ⟨rfl, ?_, rfl⟩
  intro before after
  unfold Check
  dsimp only
  rw [foldlM_groups]
  rw [foldlM_none_of_mem (checkGateway ext)
    { Name := "broken", Namespace := "test", Spec := [("selector", .map [("app", .int 42)])] }
    (fun s => rfl)]
  · rfl
  · simp

theorem foldlM_option_invariant {α σ : Type} (I : σ → Prop) (f : σ → α → Option σ)
    (hf : ∀ s x s', I s → f s x = some s' → I s') :
    ∀ (l : List α) (s s' : σ), I s → l.foldlM f s = some s' → I s' := by
  intro l
  induction l with
  | nil =>
    intro s s' hs h
    simp only [List.foldlM_nil, pure, Option.some.injEq] at h
    exact h ▸ hs
  | cons a t ih =>
    intro s s' hs h
    simp only [List.foldlM_cons] at h
    cases hfa : f s a with
    | none => simp [hfa] at h
    | some s1 =>
      rw [hfa] at h
      exact ih s1 s' (hf s a s1 hs hfa) h

/-- A property of the state that every step `checkHost` keeps holds of the graph
`Check` returns. -/
theorem Check_invariant (I : CheckState → Prop)
    (h0 : I { validations := [], existingList := fun _ => [] })
    (hstep : ∀ sel st host st', I st → checkHost sel st host = some st' → I st')
    (ext : External) (gws : List (List IstioObject)) (graph : IstioValidations)
    (hc : Check ext gws = some graph) : ∃ st, I st ∧ st.validations = graph := by
  have hgw : ∀ st g st', I st → checkGateway ext st g = some st' → I st' := by
    intro st g st' hst hg
    unfold checkGateway at hg
    split at hg
    · simp at hg
    · split at hg
      · refine foldlM_option_invariant I _ ?_ _ st st' hst hg
        intro s idef s' hs hh
        exact foldlM_option_invariant I _ (hstep _) _ s s' hs hh
      · simp only [Option.some.injEq] at hg
        exact hg ▸ hst
  unfold Check at hc
  dsimp only at hc
  rw [foldlM_groups] at hc
  cases hrun : gws.flatten.foldlM (checkGateway ext)
      { validations := [], existingList := fun _ => [] } with
  | none => simp [hrun] at hc
  | some st =>
    rw [hrun] at hc
    simp only [Option.map_some', Option.some.injEq] at hc
    exact ⟨st, foldlM_option_invariant I _ hgw _ _ st h0 hrun, hc⟩

theorem createError_all (Q : IstioValidation → Prop) (h : Host)
    (hq : ∀ (name : String) (i j : Nat), Q
      { Name := name, ObjectType := GatewayCheckerType, Valid := true,
        Checks := [Build "gateways.multimatch"
          ("spec/servers[" ++ toString i ++ "]/hosts[" ++ toString j ++ "]")],
        References := [] }) :
    ∀ e ∈ createError h.GatewayRuleName h.Namespace h.ServerIndex h.HostIndex, Q e.2 := by
  intro e he
  simp only [createError, List.mem_singleton] at he
  rw [he]
  exact hq h.GatewayRuleName h.ServerIndex h.HostIndex

/-- A property of entries that holds of the entries `createError` makes, does not
depend on the references and is kept by merging holds of every entry of the
graph `Check` returns. -/
theorem Check_entries (Q : IstioValidation → Prop)
    (hq : ∀ (name : String) (i j : Nat), Q
      { Name := name, ObjectType := GatewayCheckerType, Valid := true,
        Checks := [Build "gateways.multimatch"
          ("spec/servers[" ++ toString i ++ "]/hosts[" ++ toString j ++ "]")],
        References := [] })
    (hrefs : ∀ (v : IstioValidation) (r : List IstioValidationKey),
      Q v → Q { v with References := r })
    (hmerge : ∀ v w, Q v → Q w → Q (mergeEntry v w))
    (ext : External) (gws : List (List IstioObject)) (graph : IstioValidations)
    (hc : Check ext gws = some graph) : ∀ e ∈ graph, Q e.2 := by
  have hloop : ∀ (l : List Host) (acc : IstioValidations × IstioValidations),
      (∀ e ∈ acc.1, Q e.2) → (∀ e ∈ acc.2, Q e.2) →
      (∀ e ∈ (l.foldl mergeDuplicate acc).1, Q e.2) ∧
        (∀ e ∈ (l.foldl mergeDuplicate acc).2, Q e.2) := by
    intro l
    induction l with
    | nil => intro acc h1 h2; exact ⟨h1, h2⟩
    | cons dh t ih =>
      intro acc h1 h2
      simp only [List.foldl_cons]
      have href : ∀ e ∈ (createError dh.GatewayRuleName dh.Namespace dh.ServerIndex
          dh.HostIndex).MergeReferences acc.2, Q e.2 :=
        all_MergeReferences Q hrefs _ _ (createError_all Q dh hq)
      apply ih
      · exact all_MergeValidations Q hmerge _ _ h1 href
      · exact all_MergeReferences Q hrefs _ _ h2
  have hstepQ : ∀ sel st host st', (∀ e ∈ st.validations, Q e.2) →
      checkHost sel st host = some st' → ∀ e ∈ st'.validations, Q e.2 := by
    intro sel st host st' hst hstep
    unfold checkHost at hstep
    split at hstep
    · simp at hstep
    · rename_i duplicate dhosts heq
      simp only [Option.some.injEq] at hstep
      subst hstep
      dsimp only
      split_ifs
      · have := hloop (dhosts.drop 1) (st.validations,
          createError host.GatewayRuleName host.Namespace host.ServerIndex host.HostIndex)
          hst (createError_all Q host hq)
        unfold mergeDuplicates
        exact all_MergeValidations Q hmerge _ _ this.1 this.2
      · exact hst
  obtain ⟨st, hst, hg⟩ := Check_invariant (fun st => ∀ e ∈ st.validations, Q e.2)
    (fun e he => by simp at he) hstepQ ext gws graph hc
  exact hg ▸ hst

theorem findDuplicates_some_safe (host : Host) :
    ∀ (hostGroup duplicates d : List Host), findDuplicates host hostGroup duplicates = some d →
      ∀ h ∈ hostGroup, h.Port = host.Port → hostnamesMatch host h ≠ none := by
  intro hostGroup
  induction hostGroup with
  | nil => intro _ _ _ h hh; simp at hh
  | cons x t ih =>
    intro duplicates d hd h hh hp
    rw [findDuplicates] at hd
    by_cases hx : x.Port = host.Port
    · simp only [hx, if_true] at hd
      cases hm : hostnamesMatch host x with
      | none => simp [hm] at hd
      | some b =>
        rcases List.mem_cons.mp hh with e | e
        · rw [e, hm]; simp
        · cases b
          · simp only [hm] at hd
            exact ih _ _ hd h e hp
          · simp only [hm] at hd
            exact ih _ _ hd h e hp
    · simp only [hx, if_false] at hd
      rcases List.mem_cons.mp hh with e | e
      · exact absurd (e ▸ hp) hx
      · exact ih _ _ hd h e hp

/-- A step of `Check` that returns: no comparison of the binding with its group
panicked, and the new state is the group with the binding appended and the graph
with the duplicates merged in. -/
theorem checkHost_eq_some (sel : String) (st : CheckState) (host : Host) (st' : CheckState)
    (h : checkHost sel st host = some st') :
    (∀ x ∈ st.existingList sel, x.Port = host.Port → hostnamesMatch host x ≠ none) ∧
    st'.validations = stepValidations st.validations (st.existingList sel) host ∧
    st'.existingList =
      fun s => if s = sel then st.existingList s ++ [host] else st.existingList s := by
  have hsafe : ∀ x ∈ st.existingList sel, x.Port = host.Port → hostnamesMatch host x ≠ none := by
    unfold checkHost findMatch at h
    cases hf : findDuplicates host (st.existingList sel) [] with
    | none => simp [hf] at h
    | some d => exact findDuplicates_some_safe host _ _ d hf
  refine ⟨hsafe, ?_⟩
  unfold checkHost at h
  rw [findMatch_eq st.existingList host sel hsafe] at h
  simp only [Option.some.injEq] at h
  subst h
  refine ⟨?_, rfl⟩
  simp only [stepValidations, matchingPairs, decide_eq_true_eq]

theorem mem_matchingPairs (existing : List Host) (host x : Host) :
    x ∈ matchingPairs existing host ↔
      (x = host ∧ ∃ h ∈ existing, h.Port = host.Port ∧ hostnamesMatch host h = some true) ∨
      (x ∈ existing ∧ x.Port = host.Port ∧ hostnamesMatch host x = some true) := by
  unfold matchingPairs
  exact mem_flatMap_pairs host _ existing x

theorem matchingPairs_pos (existing : List Host) (host : Host) :
    (matchingPairs existing host).length > 0 ↔
      ∃ h ∈ existing, h.Port = host.Port ∧ hostnamesMatch host h = some true := by
  rw [gt_iff_lt, List.length_pos_iff_exists_mem]
  constructor
  · rintro ⟨x, hx⟩
    rcases (mem_matchingPairs existing host x).mp hx with ⟨_, h⟩ | h
    · exact h
    · exact ⟨x, h⟩
  · rintro ⟨h, hh, hp⟩
    exact ⟨h, (mem_matchingPairs existing host h).mpr (Or.inr ⟨hh, hp⟩)⟩

/-- The keys of the graph after one step: the keys before, and the keys of the
two owners for every old binding that matches. -/
theorem mem_keys_stepValidations (validations : IstioValidations) (existing : List Host)
    (host : Host) (k : IstioValidationKey) :
    k ∈ (stepValidations validations existing host).map (·.1) ↔
      k ∈ validations.map (·.1) ∨
      ∃ h ∈ existing, h.Port = host.Port ∧ hostnamesMatch host h = some true ∧
        (k = hostKey h ∨ k = hostKey host) := by
  unfold stepValidations
  split_ifs with hpos
  · have hex := (matchingPairs_pos existing host).mp hpos
    unfold mergeDuplicates
    rw [mem_keys_MergeValidations, (mergeDuplicate_keys _ _).1 k, (mergeDuplicate_keys _ _).2,
      keys_createError, List.mem_singleton]
    constructor
    · rintro ((hk | ⟨dh, hdh, e⟩) | e)
      · exact Or.inl hk
      · have hmem := List.mem_of_mem_drop hdh
        rcases (mem_matchingPairs existing host dh).mp hmem with ⟨e2, h, hh, hp⟩ | ⟨hh, hp⟩
        · exact Or.inr ⟨h, hh, hp.1, hp.2, Or.inr (by rw [e, e2])⟩
        · exact Or.inr ⟨dh, hh, hp.1, hp.2, Or.inl e⟩
      · obtain ⟨h, hh, hp⟩ := hex
        exact Or.inr ⟨h, hh, hp.1, hp.2, Or.inr e⟩
    · rintro (hk | ⟨h, hh, hp, hm, e | e⟩)
      · exact Or.inl (Or.inl hk)
      · refine Or.inl (Or.inr ⟨h, ?_, e⟩)
        unfold matchingPairs
        exact mem_drop_one_pairs host _ existing h hh ⟨hp, hm⟩
      · exact Or.inr e
  · constructor
    · exact Or.inl
    · rintro (hk | ⟨h, hh, hp, hm, _⟩)
      · exact hk
      · exact absurd ((matchingPairs_pos existing host).mpr ⟨h, hh, hp, hm⟩) hpos

theorem foldlM_cons_some {α σ : Type} (f : σ → α → Option σ) (a : α) (t : List α) (s s' : σ)
    (h : (a :: t).foldlM f s = some s') : ∃ s1, f s a = some s1 ∧ t.foldlM f s1 = some s' := by
  simp only [List.foldlM_cons] at h
  cases hfa : f s a with
  | none => simp [hfa] at h
  | some s1 =>
    rw [hfa] at h
    exact ⟨s1, rfl, h⟩

theorem pair_sublist_cons {α : Type} (x y a : α) (t : List α) :
    [x, y].Sublist (a :: t) ↔ [x, y].Sublist t ∨ (x = a ∧ y ∈ t) := by
  rw [List.sublist_cons_iff]
  constructor
  · rintro (h | ⟨r, hr, hs⟩)
    · exact Or.inl h
    · simp only [List.cons.injEq] at hr
      obtain ⟨e1, e2⟩ := hr
      subst e2
      exact Or.inr ⟨e1, List.singleton_sublist.mp hs⟩
  · rintro (h | ⟨e, hy⟩)
    · exact Or.inl h
    · exact Or.inr ⟨[y], by rw [e], List.singleton_sublist.mpr hy⟩

/-- The keys of the graph after a run over a list of bindings: the keys before
the run and, for every binding of the list that matches an earlier binding with
the same selector string and port, the keys of the two owners. -/
theorem run_keys (bs : List (Host × String)) :
    ∀ (st st' : CheckState), bs.foldlM (fun st b => checkHost b.2 st b.1) st = some st' →
      ∀ k, k ∈ st'.validations.map (·.1) ↔
        k ∈ st.validations.map (·.1) ∨
        ∃ b ∈ bs, ∃ h, (h ∈ st.existingList b.2 ∨ [(h, b.2), b].Sublist bs) ∧
          h.Port = b.1.Port ∧ hostnamesMatch b.1 h = some true ∧
          (k = hostKey h ∨ k = hostKey b.1) := by
  induction bs with
  | nil =>
    intro st st' h k
    simp only [List.foldlM_nil, pure, Option.some.injEq] at h
    subst h
    simp
  | cons b t ih =>
    intro st st' h k
    obtain ⟨st1, h1, h2⟩ := foldlM_cons_some _ b t st st' h
    obtain ⟨_, hv, he⟩ := checkHost_eq_some b.2 st b.1 st1 h1
    have hex : ∀ s, st1.existingList s =
        if s = b.2 then st.existingList s ++ [b.1] else st.existingList s := by
      intro s; rw [he]
    rw [ih st1 st' h2 k, hv, mem_keys_stepValidations]
    constructor
    · rintro ((hk | ⟨h0, hh, hp, hm, e⟩) | ⟨b', hb', h0, hh, hp, hm, e⟩)
      · exact Or.inl hk
      · exact Or.inr ⟨b, by simp, h0, Or.inl hh, hp, hm, e⟩
      · refine Or.inr ⟨b', by simp [hb'], h0, ?_, hp, hm, e⟩
        rcases hh with hh | hh
        · rw [hex] at hh
          split_ifs at hh with hs
          · rcases List.mem_append.mp hh with hh | hh
            · exact Or.inl hh
            · right
              have e0 : h0 = b.1 := List.mem_singleton.mp hh
              have eb : (h0, b'.2) = b := by rw [e0, hs]
              rw [eb]
              exact List.Sublist.cons₂ b (List.singleton_sublist.mpr hb')
          · exact Or.inl hh
        · exact Or.inr (List.Sublist.cons b hh)
    · rintro (hk | ⟨b0, hb0, h0, hh, hp, hm, e⟩)
      · exact Or.inl (Or.inl hk)
      · rcases List.mem_cons.mp hb0 with eb | hb0t
        · subst eb
          rcases hh with hh | hh
          · exact Or.inl (Or.inr ⟨h0, hh, hp, hm, e⟩)
          · rcases (pair_sublist_cons _ _ _ _).mp hh with hs | ⟨e1, hmem⟩
            · exact Or.inr ⟨b0, hs.subset (by simp), h0, Or.inr hs, hp, hm, e⟩
            · refine Or.inr ⟨b0, hmem, h0, Or.inl ?_, hp, hm, e⟩
              have e0 : h0 = b0.1 := congrArg Prod.fst e1
              rw [hex, if_pos rfl, e0]
              exact List.mem_append.mpr (Or.inr (List.mem_singleton.mpr rfl))
        · have hpair : h0 ∈ st1.existingList b0.2 ∨ [(h0, b0.2), b0].Sublist t := by
            rcases hh with hh | hh
            · left
              rw [hex]
              split_ifs
              · exact List.mem_append.mpr (Or.inl hh)
              · exact hh
            · rcases (pair_sublist_cons _ _ _ _).mp hh with hs | ⟨e1, _⟩
              · exact Or.inr hs
              · left
                have e0 : h0 = b.1 := congrArg Prod.fst e1
                have es : b0.2 = b.2 := by rw [← e1]
                rw [hex, if_pos es, e0]
                exact List.mem_append.mpr (Or.inr (List.mem_singleton.mpr rfl))
          exact Or.inr ⟨b0, hb0t, h0, hpair, hp, hm, e⟩

theorem bindingsOf_of_run (ext : External) (gs : List IstioObject) :
    ∀ (st st' : CheckState), gs.foldlM (checkGateway ext) st = some st' →
      ∃ bs, bindingsOf ext gs = some bs := by
  induction gs with
  | nil => intro _ _ _; exact ⟨[], rfl⟩
  | cons g t ih =>
    intro st st' h
    obtain ⟨st1, h1, h2⟩ := foldlM_cons_some _ g t st st' h
    obtain ⟨rest, hrest⟩ := ih st1 st' h2
    cases hsel : selectorString ext g with
    | none => simp [checkGateway, hsel] at h1
    | some sel =>
      refine ⟨(gatewayHosts ext g).map (fun h => (h, sel)) ++ rest, ?_⟩
      rw [bindingsOf, hsel, hrest]

/-- A run of `Check` that returns is a run of `checkHost` over all the bindings
of the input. -/
theorem Check_some_run (ext : External) (gws : List (List IstioObject))
    (graph : IstioValidations) (hc : Check ext gws = some graph) :
    ∃ bs st, allBindings ext gws = some bs ∧
      bs.foldlM (fun st b => checkHost b.2 st b.1)
        { validations := [], existingList := fun _ => [] } = some st ∧
      st.validations = graph := by
  have hc' := hc
  unfold Check at hc'
  dsimp only at hc'
  rw [foldlM_groups] at hc'
  cases hrun : gws.flatten.foldlM (checkGateway ext)
      { validations := [], existingList := fun _ => [] } with
  | none => simp [hrun] at hc'
  | some st0 =>
    obtain ⟨bs, hbs⟩ := bindingsOf_of_run ext gws.flatten _ st0 hrun
    have hb : allBindings ext gws = some bs := hbs
    rw [Check_eq_run ext gws bs hb] at hc
    cases hr : bs.foldlM (fun st b => checkHost b.2 st b.1)
        { validations := [], existingList := fun _ => [] } with
    | none => simp [hr] at hc
    | some st =>
      rw [hr] at hc
      simp only [Option.map_some', Option.some.injEq] at hc
      exact ⟨bs, st, hb, hr, hc⟩

/-- The keys of the graph `Check` returns are exactly the keys of the owners of
two bindings with the same selector string and port whose hostnames match. -/
theorem Check_keys (ext : External) (gws : List (List IstioObject))
    (graph : IstioValidations) (hc : Check ext gws = some graph) :
    ∃ bs, allBindings ext gws = some bs ∧
      ∀ k, k ∈ graph.map (·.1) ↔
        ∃ b1 b2, [b1, b2].Sublist bs ∧ b1.2 = b2.2 ∧ b1.1.Port = b2.1.Port ∧
          hostnamesMatch b2.1 b1.1 = some true ∧ (k = hostKey b1.1 ∨ k = hostKey b2.1) := by
  obtain ⟨bs, st, hb, hrun, hg⟩ := Check_some_run ext gws graph hc
  refine ⟨bs, hb, fun k => ?_⟩
  rw [← hg, run_keys bs _ st hrun k]
  constructor
  · rintro (hk | ⟨b, _, h, hh | hh, hp, hm, e⟩)
    · simp at hk
    · simp at hh
    · exact ⟨(h, b.2), b, hh, rfl, hp, hm, e⟩
  · rintro ⟨b1, b2, hsub, hsel, hp, hm, e⟩
    refine Or.inr ⟨b2, hsub.subset (by simp), b1.1, Or.inr ?_, hp, hm, e⟩
    have : (b1.1, b2.2) = b1 := by rw [← hsel]
    rw [this]
    exact hsub

theorem sublist_pair_of_pairwise {α : Type} (R : α → α → Prop) (l : List α) (x y : α)
    (hp : l.Pairwise R) (hs : [x, y].Sublist l) : R x y := by
  have := hp.sublist hs
  simpa using this

/-- C12: a binding is reported by `findMatch` only with bindings of its own
selector group and port. When no binding of the group has the port of the new
binding, `findMatch` returns no duplicate, whatever the hostnames are (also
`*`); every duplicate it returns is the new binding or a binding of the group on
the same port; when no two bindings of an input share selector string and port,
`Check` returns the empty graph; and every key of a graph `Check` returns is
owned by one of two bindings with the same selector string and port. -/
theorem overlap_needs_selector_and_port :
    (∀ (existingList : String → List Host) (host : Host) (selector : String),
      (∀ h ∈ existingList selector, h.Port ≠ host.Port) →
      findMatch existingList host selector = some (false, [])) ∧
    (∀ (existingList : String → List Host) (host : Host) (selector : String)
      (r : Bool × List Host), findMatch existingList host selector = some r →
      ∀ x ∈ r.2, x = host ∨ (x ∈ existingList selector ∧ x.Port = host.Port)) ∧
    (∀ (ext : External) (gws : List (List IstioObject)) (bs : List (Host × String)),
      allBindings ext gws = some bs →
      bs.Pairwise (fun b1 b2 => b1.2 ≠ b2.2 ∨ b1.1.Port ≠ b2.1.Port) →
      Check ext gws = some []) ∧
    (∀ (ext : External) (gws : List (List IstioObject)) (graph : IstioValidations),
      Check ext gws = some graph →
      ∃ bs, allBindings ext gws = some bs ∧
        ∀ k ∈ graph.map (·.1), ∃ b1 b2, [b1, b2].Sublist bs ∧ b1.2 = b2.2 ∧
          b1.1.Port = b2.1.Port ∧ (k = hostKey b1.1 ∨ k = hostKey b2.1)) := by
  refine ⟨?_, ?_, ?_, ?_⟩
  · intro existingList host selector hne
    rw [findMatch_eq existingList host selector (fun h hh hp => absurd hp (hne h hh))]
    have hnil : (existingList selector).flatMap (fun h =>
        if h.Port = host.Port ∧ hostnamesMatch host h = some true then [host, h] else []) = [] := by
      rw [List.flatMap_eq_nil_iff]
      intro h hh
      simp [hne h hh]
    rw [hnil]
    rfl
  · intro existingList host selector r hr x hx
    have hsafe : ∀ h ∈ existingList selector, h.Port = host.Port →
        hostnamesMatch host h ≠ none := by
      unfold findMatch at hr
      cases hf : findDuplicates host (existingList selector) [] with
      | none => simp [hf] at hr
      | some d => exact findDuplicates_some_safe host _ _ d hf
    rw [findMatch_eq existingList host selector hsafe] at hr
    simp only [Option.some.injEq] at hr
    subst hr
    rcases (mem_flatMap_pairs host _ _ x).mp hx with ⟨e, _⟩ | ⟨hm, hp, _⟩
    · exact Or.inl e
    · exact Or.inr ⟨hm, hp⟩
  · intro ext gws bs hb hpw
    have hc : comparable bs := by
      unfold comparable
      refine hpw.imp ?_
      intro b1 b2 h hs hp
      rcases h with h | h
      · exact absurd hs h
      · exact absurd hp h
    obtain ⟨graph, hg, _⟩ := Check_flags_matching ext gws bs hb hc
    obtain ⟨bs', hb', hk⟩ := Check_keys ext gws graph hg
    have hbs : bs' = bs := by
      rw [hb] at hb'
      exact (Option.some.inj hb').symm
    subst hbs
    rw [hg]
    cases graph with
    | nil => rfl
    | cons e t =>
      obtain ⟨b1, b2, hsub, hs, hp, _, _⟩ := (hk e.1).mp (by simp)
      rcases sublist_pair_of_pairwise _ bs' b1 b2 hpw hsub with h | h
      · exact absurd hs h
      · exact absurd hp h
  · intro ext gws graph hg
    obtain ⟨bs, hb, hk⟩ := Check_keys ext gws graph hg
    refine ⟨bs, hb, fun k hkm => ?_⟩
    obtain ⟨b1, b2, hsub, hs, hp, _, e⟩ := (hk k).mp hkm
    exact ⟨b1, b2, hsub, hs, hp, e⟩

theorem overlap_needs_selector_and_port_witness :
    findMatch (fun _ => [⟨443, "*", "test", 0, 0, "validgateway"⟩])
        ⟨80, "*", "test", 0, 0, "stillvalid"⟩ "app=real" = some (false, []) ∧
    Check External.sample
        [[sampleGateway "validgateway" "test" "istio-ingress-pub" 80 ["reviews"]],
         [sampleGateway "stillvalid" "test" "istio-ingress-prv" 80 ["reviews"]]] = some [] :=
  ⟨overlap_needs_selector_and_port.1 _ _ _ (by decide),
   overlap_needs_selector_and_port.2.2.1 External.sample _
     [(⟨80, "reviews", "test", 0, 0, "validgateway"⟩, "app=istio-ingress-pub"),
      (⟨80, "reviews", "test", 0, 0, "stillvalid"⟩, "app=istio-ingress-prv")]
     (by decide) (by decide)⟩

/-- C17: every entry of a graph returned by `Check` has `Valid = true`. -/
theorem Check_entries_valid (ext : External) (gws : List (List IstioObject))
    (graph : IstioValidations) (hc : Check ext gws = some graph) :
    ∀ e ∈ graph, e.2.Valid = true := by
  refine Check_entries (fun v => v.Valid = true) (fun _ _ _ => rfl) (fun _ _ h => h) ?_
    ext gws graph hc
  intro v w hv hw
  simp [mergeEntry, hv, hw]

theorem Check_entries_valid_witness :
    ∃ graph,
      Check External.sample
        [[sampleGateway "validgateway" "test" "real" 80 ["valid"]],
         [sampleGateway "stillvalid" "bookinfo" "real" 80 ["valid"]]] = some graph ∧
      graph.length = 2 ∧ ∀ e ∈ graph, e.2.Valid = true :=
  ⟨(Check External.sample
      [[sampleGateway "validgateway" "test" "real" 80 ["valid"]],
       [sampleGateway "stillvalid" "bookinfo" "real" 80 ["valid"]]]).getD [],
    by decide, by decide,
    Check_entries_valid External.sample
      [[sampleGateway "validgateway" "test" "real" 80 ["valid"]],
       [sampleGateway "stillvalid" "bookinfo" "real" 80 ["valid"]]] _ (by decide)⟩

/-- C18 fails as stated: the two entries of the graph of the two gateways bound
to the same host and port hold an error finding and have `Valid = true`. -/
theorem Check_entries_not_invalid :
    ¬ ∀ graph,
      Check External.sample
        [[sampleGateway "validgateway" "test" "real" 80 ["valid"]],
         [sampleGateway "stillvalid" "bookinfo" "real" 80 ["valid"]]] = some graph →
      ∀ e ∈ graph, e.2.Valid = false := by
  intro h
  have h1 := h ((Check External.sample
      [[sampleGateway "validgateway" "test" "real" 80 ["valid"]],
       [sampleGateway "stillvalid" "bookinfo" "real" 80 ["valid"]]]).getD []) (by decide)
  revert h1
  decide

/-- C18 (amended): the gateway checker attaches findings of error severity
without setting `Valid` to false; every entry of a graph returned by `Check`
holds at least one finding, all its findings have the message
`gateways.multimatch` and error severity, and it has `Valid = true`. -/
theorem Check_entries_error_and_valid (ext : External) (gws : List (List IstioObject))
    (graph : IstioValidations) (hc : Check ext gws = some graph) :
    ∀ e ∈ graph, e.2.Valid = true ∧ e.2.Checks ≠ [] ∧
      ∀ c ∈ e.2.Checks, c.Message = "gateways.multimatch" ∧
        c.Severity = SeverityLevel.ErrorSeverity := by
  refine Check_entries (fun v => v.Valid = true ∧ v.Checks ≠ [] ∧
      ∀ c ∈ v.Checks, c.Message = "gateways.multimatch" ∧
        c.Severity = SeverityLevel.ErrorSeverity) ?_ (fun _ _ h => h) ?_ ext gws graph hc
  · intro name i j
    refine ⟨rfl, by simp, ?_⟩
    intro c hcm
    rw [List.mem_singleton.mp hcm]
    exact ⟨rfl, rfl⟩
  · rintro v w ⟨hv1, hv2, hv3⟩ ⟨hw1, _, hw3⟩
    refine ⟨by simp [mergeEntry, hv1, hw1], by simp [mergeEntry, hv2], ?_⟩
    intro c hcm
    simp only [mergeEntry] at hcm
    rcases List.mem_append.mp hcm with h | h
    · exact hv3 c h
    · exact hw3 c h

theorem Check_entries_error_and_valid_witness :
    ∃ graph,
      Check External.sample
        [[sampleGateway "validgateway" "test" "istio-ingress" 80 ["valid"]],
         [sampleGateway "stillvalid" "test" "istio-ingress" 80 ["*"]]] = some graph ∧
      graph.length = 2 ∧
      ∀ e ∈ graph, e.2.Valid = true ∧ e.2.Checks ≠ [] ∧
        ∀ c ∈ e.2.Checks, c.Message = "gateways.multimatch" ∧
          c.Severity = SeverityLevel.ErrorSeverity :=
  ⟨(Check External.sample
      [[sampleGateway "validgateway" "test" "istio-ingress" 80 ["valid"]],
       [sampleGateway "stillvalid" "test" "istio-ingress" 80 ["*"]]]).getD [],
    by decide, by decide,
    Check_entries_error_and_valid External.sample
      [[sampleGateway "validgateway" "test" "istio-ingress" 80 ["valid"]],
       [sampleGateway "stillvalid" "test" "istio-ingress" 80 ["*"]]] _ (by decide)⟩

end Gateways
end Kiali

/-! ## References and findings of the gateway graph -/

namespace Kiali
namespace Gateways

open Models GoLib

theorem refers_createError (h : Host) (a b : IstioValidationKey) :
    ¬ refers (createError h.GatewayRuleName h.Namespace h.ServerIndex h.HostIndex) a b := by
  rintro ⟨v, hv, hb⟩
  simp only [createError, List.mem_singleton, Prod.mk.injEq] at hv
  rw [hv.2] at hb
  simp at hb

theorem refers_mergeDuplicate_loop (l : List Host) :
    ∀ acc : IstioValidations × IstioValidations,
      (∀ a b, refers (l.foldl mergeDuplicate acc).1 a b ↔
        refers acc.1 a b ∨ ((∃ dh ∈ l, a = hostKey dh) ∧ b ∈ acc.2.map (·.1))) ∧
      (∀ a b, refers (l.foldl mergeDuplicate acc).2 a b ↔
        refers acc.2 a b ∨ (a ∈ acc.2.map (·.1) ∧ ∃ dh ∈ l, b = hostKey dh)) := by
  induction l with
  | nil => intro acc; simp
  | cons dh t ih =>
    intro acc
    obtain ⟨h1, h2⟩ := ih (mergeDuplicate acc dh)
    have hk : (mergeDuplicate acc dh).2.map (·.1) = acc.2.map (·.1) := by
      simp only [mergeDuplicate, keys_MergeReferences]
    have hr1 : ∀ a b, refers (mergeDuplicate acc dh).1 a b ↔
        refers acc.1 a b ∨ (a = hostKey dh ∧ b ∈ acc.2.map (·.1)) := by
      intro a b
      simp only [mergeDuplicate, refers_MergeValidations, refers_MergeReferences,
        keys_createError, List.mem_singleton]
      have := refers_createError dh a b
      tauto
    have hr2 : ∀ a b, refers (mergeDuplicate acc dh).2 a b ↔
        refers acc.2 a b ∨ (a ∈ acc.2.map (·.1) ∧ b = hostKey dh) := by
      intro a b
      simp only [mergeDuplicate, refers_MergeReferences, keys_MergeReferences,
        keys_createError, List.mem_singleton]
    simp only [List.foldl_cons]
    refine ⟨fun a b => ?_, fun a b => ?_⟩
    · rw [h1 a b, hr1 a b, hk]
      simp only [List.mem_cons, exists_eq_or_imp]
      tauto
    · rw [h2 a b, hr2 a b, hk]
      simp only [List.mem_cons, exists_eq_or_imp]
      tauto

/-- The references of the graph after one step: the references before, and a
reference in both directions between the owner of the new binding and the owner
of every duplicate after the first. -/
theorem refers_stepValidations (validations : IstioValidations) (existing : List Host)
    (host : Host) (a b : IstioValidationKey) :
    refers (stepValidations validations existing host) a b ↔
      refers validations a b ∨
      ∃ dh ∈ (matchingPairs existing host).drop 1,
        (a = hostKey dh ∧ b = hostKey host) ∨ (a = hostKey host ∧ b = hostKey dh) := by
  unfold stepValidations
  split_ifs with hpos
  · unfold mergeDuplicates
    rw [refers_MergeValidations, (refers_mergeDuplicate_loop _ _).1 a b,
      (refers_mergeDuplicate_loop _ _).2 a b]
    simp only [keys_createError, List.mem_singleton]
    have := refers_createError host a b
    constructor
    · rintro ((h | ⟨⟨dh, hd, ha⟩, hb⟩) | (h | ⟨ha, dh, hd, hb⟩))
      · exact Or.inl h
      · exact Or.inr ⟨dh, hd, Or.inl ⟨ha, hb⟩⟩
      · exact absurd h this
      · exact Or.inr ⟨dh, hd, Or.inr ⟨ha, hb⟩⟩
    · rintro (h | ⟨dh, hd, ⟨ha, hb⟩ | ⟨ha, hb⟩⟩)
      · exact Or.inl (Or.inl h)
      · exact Or.inl (Or.inr ⟨⟨dh, hd, ha⟩, hb⟩)
      · exact Or.inr (Or.inr ⟨ha, dh, hd, hb⟩)
  · have hnil : matchingPairs existing host = [] := by
      cases hm : matchingPairs existing host with
      | nil => rfl
      | cons x t => rw [hm] at hpos; simp at hpos
    rw [hnil]
    simp

theorem nodup_keys_stepValidations (validations : IstioValidations) (existing : List Host)
    (host : Host) (h : (validations.map (·.1)).Nodup) :
    ((stepValidations validations existing host).map (·.1)).Nodup := by
  have hloop : ∀ (l : List Host) (acc : IstioValidations × IstioValidations),
      (acc.1.map (·.1)).Nodup → ((l.foldl mergeDuplicate acc).1.map (·.1)).Nodup := by
    intro l
    induction l with
    | nil => intro acc h; exact h
    | cons dh t ih =>
      intro acc h
      simp only [List.foldl_cons]
      apply ih
      simp only [mergeDuplicate]
      exact nodup_keys_MergeValidations _ _ h
  unfold stepValidations
  split_ifs
  · unfold mergeDuplicates
    exact nodup_keys_MergeValidations _ _ (hloop _ _ h)
  · exact h

end Gateways
end Kiali

namespace Kiali
namespace Gateways

open Models GoLib

/-- A fact about two bindings and the graph that every step keeps, and that a
step establishes for the new binding and every old binding of its group on the
same port whose hostname matches, holds after a run for every two bindings of
the run with the same selector string and port whose hostnames match. -/
theorem run_establishes (Q : IstioValidations → Host → Host → Prop)
    (hmono : ∀ validations existing host a b,
      Q validations a b → Q (stepValidations validations existing host) a b)
    (hestab : ∀ validations existing host h, h ∈ existing → h.Port = host.Port →
      hostnamesMatch host h = some true → Q (stepValidations validations existing host) h host)
    (bs : List (Host × String)) :
    ∀ (st st' : CheckState), bs.foldlM (fun st b => checkHost b.2 st b.1) st = some st' →
      (∀ a b, Q st.validations a b → Q st'.validations a b) ∧
      (∀ b ∈ bs, ∀ h ∈ st.existingList b.2, h.Port = b.1.Port →
        hostnamesMatch b.1 h = some true → Q st'.validations h b.1) ∧
      (∀ b1 b2, [b1, b2].Sublist bs → b1.2 = b2.2 → b1.1.Port = b2.1.Port →
        hostnamesMatch b2.1 b1.1 = some true → Q st'.validations b1.1 b2.1) := by
  induction bs with
  | nil =>
    intro st st' h
    simp only [List.foldlM_nil, pure, Option.some.injEq] at h
    subst h
    refine ⟨fun a b hq => hq, ?_, ?_⟩
    · intro b hb; simp at hb
    · intro b1 b2 hsub; simp at hsub
  | cons b t ih =>
    intro st st' h
    obtain ⟨st1, h1, h2⟩ := foldlM_cons_some _ b t st st' h
    obtain ⟨_, hv, he⟩ := checkHost_eq_some b.2 st b.1 st1 h1
    have hex : ∀ s, st1.existingList s =
        if s = b.2 then st.existingList s ++ [b.1] else st.existingList s := by
      intro s; rw [he]
    obtain ⟨hm2, hold2, hpair2⟩ := ih st1 st' h2
    refine ⟨fun a c hq => hm2 a c (hv ▸ hmono _ _ _ a c hq), ?_, ?_⟩
    · intro b' hb' h0 hh hp hm
      rcases List.mem_cons.mp hb' with e | e
      · subst e
        exact hm2 _ _ (hv ▸ hestab _ _ _ h0 hh hp hm)
      · refine hold2 b' e h0 ?_ hp hm
        rw [hex]
        split_ifs
        · exact List.mem_append.mpr (Or.inl hh)
        · exact hh
    · intro b1 b2 hsub hsel hport hm
      rcases (pair_sublist_cons _ _ _ _).mp hsub with hs | ⟨e1, hmem⟩
      · exact hpair2 b1 b2 hs hsel hport hm
      · subst e1
        refine hold2 b2 hmem b1.1 ?_ hport hm
        rw [hex, if_pos hsel.symm]
        exact List.mem_append.mpr (Or.inr (List.mem_singleton.mpr rfl))

/-- C13: in a graph returned by `Check` no key has two entries; whenever the entry
of a gateway lists the key of another gateway among its references, that gateway
has an entry, which lists the key of the first one; and the owners of every two
bindings with the same selector string and port whose hostnames match have
entries that list each other. -/
theorem references_symmetric (ext : External) (gws : List (List IstioObject))
    (graph : IstioValidations) (hc : Check ext gws = some graph) :
    (graph.map (·.1)).Nodup ∧
    (∀ e ∈ graph, ∀ kB ∈ e.2.References, ∃ vB, (kB, vB) ∈ graph ∧ e.1 ∈ vB.References) ∧
    ∃ bs, allBindings ext gws = some bs ∧
      ∀ b1 b2, [b1, b2].Sublist bs → b1.2 = b2.2 → b1.1.Port = b2.1.Port →
        hostnamesMatch b2.1 b1.1 = some true →
        ∃ v1 v2, (hostKey b1.1, v1) ∈ graph ∧ (hostKey b2.1, v2) ∈ graph ∧
          hostKey b2.1 ∈ v1.References ∧ hostKey b1.1 ∈ v2.References := by
  obtain ⟨st0, ⟨hnd, hsym⟩, hg0⟩ := Check_invariant
    (fun st => (st.validations.map (·.1)).Nodup ∧
      ∀ a b, refers st.validations a b → refers st.validations b a)
    ⟨by simp, fun a b h => by obtain ⟨v, hv, _⟩ := h; simp at hv⟩
    (by
      intro sel st host st' hI hstep
      obtain ⟨_, hv, _⟩ := checkHost_eq_some sel st host st' hstep
      rw [hv]
      refine ⟨nodup_keys_stepValidations _ _ _ hI.1, ?_⟩
      intro a b hab
      rw [refers_stepValidations] at hab ⊢
      rcases hab with h | ⟨dh, hd, h | h⟩
      · exact Or.inl (hI.2 a b h)
      · exact Or.inr ⟨dh, hd, Or.inr ⟨h.2, h.1⟩⟩
      · exact Or.inr ⟨dh, hd, Or.inl ⟨h.2, h.1⟩⟩)
    ext gws graph hc
  subst hg0
  refine ⟨hnd, ?_, ?_⟩
  · intro e he kB hkB
    obtain ⟨vB, hvB, hA⟩ := hsym e.1 kB ⟨e.2, he, hkB⟩
    exact ⟨vB, hvB, hA⟩
  · obtain ⟨bs, st, hb, hrun, hg⟩ := Check_some_run ext gws _ hc
    refine ⟨bs, hb, ?_⟩
    obtain ⟨_, _, hpair⟩ := run_establishes
      (fun iv h host => refers iv (hostKey h) (hostKey host) ∧
        refers iv (hostKey host) (hostKey h))
      (by
        intro validations existing host a b hq
        exact ⟨(refers_stepValidations _ _ _ _ _).mpr (Or.inl hq.1),
          (refers_stepValidations _ _ _ _ _).mpr (Or.inl hq.2)⟩)
      (by
        intro validations existing host h hh hp hm
        have hmem : h ∈ (matchingPairs existing host).drop 1 := by
          unfold matchingPairs
          exact mem_drop_one_pairs host _ existing h hh ⟨hp, hm⟩
        exact ⟨(refers_stepValidations _ _ _ _ _).mpr (Or.inr ⟨h, hmem, Or.inl ⟨rfl, rfl⟩⟩),
          (refers_stepValidations _ _ _ _ _).mpr (Or.inr ⟨h, hmem, Or.inr ⟨rfl, rfl⟩⟩)⟩)
      bs _ st hrun
    intro b1 b2 hsub hsel hport hm
    obtain ⟨⟨v1, hv1, hr1⟩, ⟨v2, hv2, hr2⟩⟩ := hpair b1 b2 hsub hsel hport hm
    rw [hg] at hv1 hv2
    exact ⟨v1, v2, hv1, hv2, hr1, hr2⟩

theorem references_symmetric_witness :
    ∃ graph,
      Check External.sample
        [[sampleGateway "validgateway" "test" "real" 80 ["valid"]],
         [sampleGateway "stillvalid" "bookinfo" "real" 80 ["valid"]]] = some graph ∧
      graph.map (fun e => (e.1.Name, e.2.References.map (·.Name))) =
        [("validgateway", ["stillvalid"]), ("stillvalid", ["validgateway"])] ∧
      ∀ e ∈ graph, ∀ kB ∈ e.2.References, ∃ vB, (kB, vB) ∈ graph ∧ e.1 ∈ vB.References :=
  ⟨(Check External.sample
      [[sampleGateway "validgateway" "test" "real" 80 ["valid"]],
       [sampleGateway "stillvalid" "bookinfo" "real" 80 ["valid"]]]).getD [],
    by decide, by decide,
    (references_symmetric External.sample
      [[sampleGateway "validgateway" "test" "real" 80 ["valid"]],
       [sampleGateway "stillvalid" "bookinfo" "real" 80 ["valid"]]] _ (by decide)).2.1⟩

end Gateways
end Kiali

namespace Kiali
namespace Gateways

open Models GoLib

theorem checks_createError (h : Host) (k : IstioValidationKey) :
    (createError h.GatewayRuleName h.Namespace h.ServerIndex h.HostIndex).flatMap
        (fun e => if e.1 = k then e.2.Checks else []) =
      if hostKey h = k then [findingOf h] else [] := by
  simp only [createError, List.flatMap_cons, List.flatMap_nil, List.append_nil]
  rfl

theorem checks_mergeDuplicate_loop (l : List Host) (k : IstioValidationKey) :
    ∀ acc : IstioValidations × IstioValidations,
      checksOf (l.foldl mergeDuplicate acc).1 k =
        checksOf acc.1 k ++ (l.filter (fun dh => decide (hostKey dh = k))).map findingOf ∧
      (l.foldl mergeDuplicate acc).2.flatMap (fun e => if e.1 = k then e.2.Checks else []) =
        acc.2.flatMap (fun e => if e.1 = k then e.2.Checks else []) := by
  induction l with
  | nil => intro acc; simp
  | cons dh t ih =>
    intro acc
    obtain ⟨h1, h2⟩ := ih (mergeDuplicate acc dh)
    simp only [List.foldl_cons]
    refine ⟨?_, ?_⟩
    · rw [h1]
      simp only [mergeDuplicate, checksOf_MergeValidations, checks_MergeReferences,
        checks_createError]
      by_cases hk : hostKey dh = k
      · simp [hk, List.filter_cons]
      · simp [hk, List.filter_cons]
    · rw [h2]
      simp only [mergeDuplicate, checks_MergeReferences]

/-- The findings of a key after one step: the findings before, then, when the new
binding has duplicates, one finding for every duplicate after the first that the
key owns, and the finding of the new binding if the key owns it. -/
theorem checksOf_stepValidations (validations : IstioValidations) (existing : List Host)
    (host : Host) (k : IstioValidationKey) :
    checksOf (stepValidations validations existing host) k =
      checksOf validations k ++
        (if (matchingPairs existing host).length > 0 then
          (((matchingPairs existing host).drop 1).filter
              (fun dh => decide (hostKey dh = k))).map findingOf ++
            (if hostKey host = k then [findingOf host] else [])
        else []) := by
  unfold stepValidations
  split_ifs with hpos hk
  · unfold mergeDuplicates
    rw [checksOf_MergeValidations, (checks_mergeDuplicate_loop _ k _).1,
      (checks_mergeDuplicate_loop _ k _).2, checks_createError, if_pos hk, List.append_assoc]
  · unfold mergeDuplicates
    rw [checksOf_MergeValidations, (checks_mergeDuplicate_loop _ k _).1,
      (checks_mergeDuplicate_loop _ k _).2, checks_createError, if_neg hk, List.append_assoc]
  · simp

theorem matchingPairs_head (existing : List Host) (host : Host) :
    matchingPairs existing host = [] ∨ ∃ t, matchingPairs existing host = host :: t := by
  induction existing with
  | nil => left; rfl
  | cons h t ih =>
    by_cases hm : h.Port = host.Port ∧ hostnamesMatch host h = some true
    · right
      exact ⟨h :: matchingPairs t host, by simp [matchingPairs, List.flatMap_cons, hm]⟩
    · rcases ih with e | ⟨r, e⟩
      · left
        simp only [matchingPairs, List.flatMap_cons, hm, if_false, List.nil_append]
        exact e
      · right
        refine ⟨r, ?_⟩
        simp only [matchingPairs, List.flatMap_cons, hm, if_false, List.nil_append]
        exact e

/-- When no matching old binding has the key of the new binding, the duplicates
owned by that key are the copies of the new binding, one for every match. -/
theorem matchingPairs_filter_own (existing : List Host) (host : Host)
    (hother : ∀ h ∈ existing, h.Port = host.Port → hostnamesMatch host h = some true →
      hostKey h ≠ hostKey host) :
    (matchingPairs existing host).filter (fun dh => decide (hostKey dh = hostKey host)) =
      List.replicate
        (existing.filter (fun h =>
          decide (h.Port = host.Port ∧ hostnamesMatch host h = some true))).length host := by
  induction existing with
  | nil => rfl
  | cons h t ih =>
    have iht := ih (fun x hx => hother x (by simp [hx]))
    by_cases hm : h.Port = host.Port ∧ hostnamesMatch host h = some true
    · have hne := hother h (by simp) hm.1 hm.2
      have : matchingPairs (h :: t) host = host :: h :: matchingPairs t host := by
        simp [matchingPairs, List.flatMap_cons, hm]
      rw [this]
      simp only [List.filter_cons, decide_True, if_true, hne, decide_False, hm]
      simp only [Bool.false_eq_true, if_false, iht, List.length_cons, List.replicate_succ]
      simp [List.replicate_succ]
    · have : matchingPairs (h :: t) host = matchingPairs t host := by
        simp [matchingPairs, List.flatMap_cons, hm]
      rw [this, iht]
      simp [List.filter_cons, hm]

end Gateways
end Kiali

namespace Kiali
namespace Gateways

open Models GoLib

/-- C19: a new binding whose owner has no entry in the graph and that matches
`k >= 1` bindings of its selector group on its port, all owned by other
gateways: the step of `Check` for it returns, and afterwards the entry of its
owner, the only one under that key, holds exactly `k` findings, each the finding
`gateways.multimatch` at the path of the new binding. -/
theorem new_binding_findings (sel : String) (st : CheckState) (host : Host)
    (hsafe : ∀ x ∈ st.existingList sel, x.Port = host.Port → hostnamesMatch host x ≠ none)
    (hnd : (st.validations.map (·.1)).Nodup)
    (hfresh : hostKey host ∉ st.validations.map (·.1))
    (hother : ∀ h ∈ st.existingList sel, h.Port = host.Port →
      hostnamesMatch host h = some true → hostKey h ≠ hostKey host)
    (k : Nat)
    (hk : k = ((st.existingList sel).filter (fun h =>
      decide (h.Port = host.Port ∧ hostnamesMatch host h = some true))).length)
    (hpos : k ≥ 1) :
    ∃ st' v, checkHost sel st host = some st' ∧
      (hostKey host, v) ∈ st'.validations ∧
      (∀ w, (hostKey host, w) ∈ st'.validations → w = v) ∧
      v.Checks = List.replicate k
        { Message := "gateways.multimatch", Severity := SeverityLevel.ErrorSeverity,
          Path := "spec/servers[" ++ toString host.ServerIndex ++ "]/hosts[" ++
            toString host.HostIndex ++ "]" } := by
  obtain ⟨st', hst', _⟩ := checkHost_spec sel st host hsafe
  obtain ⟨_, hv, _⟩ := checkHost_eq_some sel st host st' hst'
  have hfind : findingOf host =
      { Message := "gateways.multimatch", Severity := SeverityLevel.ErrorSeverity,
        Path := "spec/servers[" ++ toString host.ServerIndex ++ "]/hosts[" ++
          toString host.HostIndex ++ "]" } := rfl
  rw [← hfind]
  have hown := matchingPairs_filter_own (st.existingList sel) host hother
  rw [← hk] at hown
  have hlen : (matchingPairs (st.existingList sel) host).length > 0 := by
    have h1 : ((matchingPairs (st.existingList sel) host).filter
        (fun dh => decide (hostKey dh = hostKey host))).length = k := by
      rw [hown, List.length_replicate]
    have h2 := List.length_filter_le (fun dh => decide (hostKey dh = hostKey host))
      (matchingPairs (st.existingList sel) host)
    omega
  have hdrop : ((matchingPairs (st.existingList sel) host).drop 1).filter
      (fun dh => decide (hostKey dh = hostKey host)) = List.replicate (k - 1) host := by
    rcases matchingPairs_head (st.existingList sel) host with e | ⟨t, e⟩
    · rw [e] at hlen
      simp at hlen
    · rw [e] at hown ⊢
      simp only [List.filter_cons, decide_True, if_true] at hown
      simp only [List.drop_succ_cons, List.drop_zero]
      obtain ⟨j, rfl⟩ : ∃ j, k = j + 1 := ⟨k - 1, by omega⟩
      simp only [List.replicate_succ, List.cons.injEq, true_and] at hown
      simpa using hown
  have hchecks : checksOf st'.validations (hostKey host) = List.replicate k (findingOf host) := by
    rw [hv, checksOf_stepValidations, if_pos hlen, hdrop, checksOf_of_not_mem _ _ hfresh]
    obtain ⟨j, rfl⟩ : ∃ j, k = j + 1 := ⟨k - 1, by omega⟩
    simp only [if_true, List.nil_append, List.map_replicate, Nat.add_sub_cancel]
    rw [List.replicate_succ' ]
  have hne : checksOf st'.validations (hostKey host) ≠ [] := by
    rw [hchecks]
    obtain ⟨j, rfl⟩ : ∃ j, k = j + 1 := ⟨k - 1, by omega⟩
    simp [List.replicate_succ]
  obtain ⟨v, hvm, hvc⟩ := checksOf_entry _ _ hne
  have hnd' : (st'.validations.map (·.1)).Nodup := by
    rw [hv]
    exact nodup_keys_stepValidations _ _ _ hnd
  exact ⟨st', v, hst', hvm, fun w hw => entry_unique _ hnd' _ _ _ hw hvm, hvc.trans hchecks⟩

theorem new_binding_findings_witness :
    ∃ st' v,
      checkHost "app=real"
          { validations := [],
            existingList := fun _ =>
              [⟨80, "valid", "test", 0, 0, "first"⟩, ⟨80, "*", "test", 0, 0, "second"⟩] }
          ⟨80, "valid", "test", 1, 2, "third"⟩ = some st' ∧
      (hostKey ⟨80, "valid", "test", 1, 2, "third"⟩, v) ∈ st'.validations ∧
      (∀ w, (hostKey ⟨80, "valid", "test", 1, 2, "third"⟩, w) ∈ st'.validations → w = v) ∧
      v.Checks = List.replicate 2
        { Message := "gateways.multimatch", Severity := SeverityLevel.ErrorSeverity,
          Path := "spec/servers[" ++ toString 1 ++ "]/hosts[" ++ toString 2 ++ "]" } :=
  new_binding_findings "app=real"
    { validations := [],
      existingList := fun _ =>
        [⟨80, "valid", "test", 0, 0, "first"⟩, ⟨80, "*", "test", 0, 0, "second"⟩] }
    ⟨80, "valid", "test", 1, 2, "third"⟩
    (by decide) (by decide) (by decide) (by decide) 2 (by decide) (by decide)

end Gateways
end Kiali

/-! ## The path of a finding -/

namespace Kiali
namespace Gateways

open Models GoLib

/-- C16 at a failing input: the gateway `first` declares the hosts `[42, "valid"]`
in the server entry 1 of its `spec.servers`; its binding for `valid` gets the
server index 1 of the declared list, but the host index 0, the position of
`valid` among the string entries, where the declared list holds `42`; the
finding of the overlap with the gateway `second` is at `spec/servers[1]/hosts[0]`. -/
theorem host_index_skips_entries :
    (∀ ext : External, gatewayHosts ext
        { Name := "first", Namespace := "test",
          Spec := [("servers", .list
            [.str "junk", .map [("hosts", .list [.int 42, .str "valid"])]])] } =
      [{ Port := 0, Hostname := "valid", Namespace := "test", ServerIndex := 1, HostIndex := 0,
         GatewayRuleName := "first" }]) ∧
    (Check External.sample
        [[{ Name := "first", Namespace := "test",
            Spec := [("servers", .list
              [.str "junk", .map [("hosts", .list [.int 42, .str "valid"])]])] }],
         [{ Name := "second", Namespace := "test",
            Spec := [("servers", .list [.map [("hosts", .list [.str "valid"])]])] }]]).map
          (fun graph => graph.map (fun e => (e.1.Name, e.2.Checks))) =
      some [("first", [⟨"gateways.multimatch", .ErrorSeverity, "spec/servers[1]/hosts[0]"⟩]),
            ("second", [⟨"gateways.multimatch", .ErrorSeverity, "spec/servers[0]/hosts[0]"⟩])] := by
  constructor
  · intro ext
    rfl
  · decide

end Gateways
end Kiali

/-! ## Properties of the routing-rule host grouper -/

namespace Kiali
namespace VirtualServices

open Models Gateways

theorem foldl_invariant {α σ : Type} (I : σ → Prop) (f : σ → α → σ) (l : List α)
    (hf : ∀ s, ∀ x ∈ l, I s → I (f s x)) : ∀ s, I s → I (l.foldl f s) := by
  induction l with
  | nil => intro s hs; exact hs
  | cons a t ih =>
    intro s hs
    simp only [List.foldl_cons]
    exact ih (fun s x hx => hf s x (by simp [hx])) _ (hf s a (by simp) hs)

/-- A property of graphs that holds of the empty graph and is kept by
`multipleVirtualServiceCheck` holds of the graph the second loop of `Check`
returns. -/
theorem checkHostCounter_invariant (I : IstioValidations → Prop) (ro : RangeOrder)
    (hostCounter : HostCounter) (h0 : I [])
    (hstep : ∀ validations virtualService references, I validations →
      I (multipleVirtualServiceCheck virtualService validations references)) :
    I (checkHostCounter ro hostCounter) := by
  unfold checkHostCounter
  refine foldl_invariant I _ _ ?_ _ h0
  intro v1 gateways _ h1
  refine foldl_invariant I _ _ ?_ _ h1
  intro v2 clusterCounter _ h2
  refine foldl_invariant I _ _ ?_ _ h2
  intro v3 namespaceCounter _ h3
  refine foldl_invariant I _ _ ?_ _ h3
  intro v4 serviceCounter _ h4
  unfold checkService
  refine foldl_invariant I _ _ ?_ _ h4
  intro v5 virtualService _ h5
  dsimp only
  have h6 : I (if decide (serviceCounter.2.length > 1) = true then
      multipleVirtualServiceCheck virtualService v5 serviceCounter.2 else v5) := by
    split_ifs
    · exact hstep _ _ _ h5
    · exact h5
  have h7 : ∀ v6, I v6 →
      I (if (decide (((namespaceCounter.2.lookup "*").getD []).length > 0) &&
            decide (namespaceCounter.2.length > 1)) = true then
          multipleVirtualServiceCheck virtualService v6
            ((ro.order namespaceCounter.2).flatMap fun serviceCounter => serviceCounter.2)
        else v6) := by
    intro v6 hv6
    split_ifs
    · exact hstep _ _ _ hv6
    · exact hv6
  exact h7 _ h6

theorem keys_multipleVirtualServiceCheck (virtualService : IstioObject)
    (validations : IstioValidations) (references : List IstioObject) (k : IstioValidationKey) :
    k ∈ (multipleVirtualServiceCheck virtualService validations references).map (·.1) ↔
      k ∈ validations.map (·.1) ∨ k = vsKey virtualService := by
  unfold multipleVirtualServiceCheck
  dsimp only
  rw [mem_keys_MergeValidations]
  simp [vsKey]

/-- Every entry of the graph of the routing-rule checker holds a finding. -/
theorem Check_entries_findings (env : Environment) (ro : RangeOrder) (s : SingleHostChecker) :
    ∀ e ∈ Check env ro s, e.2.Checks ≠ [] := by
  unfold Check
  refine checkHostCounter_invariant (fun iv => ∀ e ∈ iv, e.2.Checks ≠ []) ro _
    (fun e he => by simp at he) ?_
  intro validations virtualService references hv
  unfold multipleVirtualServiceCheck
  dsimp only
  refine all_MergeValidations (fun v => v.Checks ≠ []) ?_ _ _ hv ?_
  · intro v w hv' _
    simp [mergeEntry, hv']
  · intro e he
    rw [List.mem_singleton.mp he]
    simp

theorem all_mapUpsert {α β : Type} (c : α → List β) (P : β → Prop) (m : List (String × α))
    (key : String) (init : α) (update : α → α)
    (hm : ∀ e ∈ m, ∀ x ∈ c e.2, P x) (hinit : ∀ x ∈ c init, P x)
    (hupdate : ∀ v, (∀ x ∈ c v, P x) → ∀ x ∈ c (update v), P x) :
    ∀ e ∈ mapUpsert m key init update, ∀ x ∈ c e.2, P x := by
  intro e he
  unfold mapUpsert at he
  split_ifs at he
  · simp only [List.mem_map] at he
    obtain ⟨e0, he0, rfl⟩ := he
    by_cases hk : e0.1 = key
    · simp only [hk, if_true]
      exact hupdate _ (hm e0 he0)
    · simp only [hk, if_false]
      exact hm e0 he0
  · rcases List.mem_append.mp he with h | h
    · exact hm e h
    · rw [List.mem_singleton.mp h]
      exact hinit

/-- Every routing rule stored in the host counter of `Check` is one of the
routing rules of the checker. -/
theorem buildHostCounter_stored (env : Environment) (s : SingleHostChecker) :
    ∀ gateways ∈ buildHostCounter env s, ∀ clusterCounter ∈ gateways.2,
      ∀ namespaceCounter ∈ clusterCounter.2, ∀ serviceCounter ∈ namespaceCounter.2,
        ∀ vs ∈ serviceCounter.2, vs ∈ s.VirtualServices := by
  have hflat : ∀ hc : HostCounter,
      (∀ gateways ∈ hc, ∀ clusterCounter ∈ gateways.2,
        ∀ namespaceCounter ∈ clusterCounter.2, ∀ serviceCounter ∈ namespaceCounter.2,
          ∀ vs ∈ serviceCounter.2, vs ∈ s.VirtualServices) ↔
      ∀ gateways ∈ hc, ∀ x ∈ gateways.2.flatMap (fun cl => cl.2.flatMap (fun ns =>
        ns.2.flatMap (fun sv => sv.2))), x ∈ s.VirtualServices := by
    intro hc
    simp only [List.mem_flatMap]
    constructor
    · rintro h g hg x ⟨cl, hcl, ns, hns, sv, hsv, hx⟩
      exact h g hg cl hcl ns hns sv hsv x hx
    · intro h g hg cl hcl ns hns sv hsv x hx
      exact h g hg x ⟨cl, hcl, ns, hns, sv, hsv, hx⟩
  rw [hflat]
  unfold buildHostCounter
  refine foldl_invariant
    (fun hc : HostCounter => ∀ gateways ∈ hc, ∀ x ∈ gateways.2.flatMap (fun cl =>
      cl.2.flatMap (fun ns => ns.2.flatMap (fun sv => sv.2))), x ∈ s.VirtualServices)
    _ _ ?_ _ (fun g hg => by simp at hg)
  intro hc1 vs hvs h1
  refine foldl_invariant
    (fun hc : HostCounter => ∀ gateways ∈ hc, ∀ x ∈ gateways.2.flatMap (fun cl =>
      cl.2.flatMap (fun ns => ns.2.flatMap (fun sv => sv.2))), x ∈ s.VirtualServices)
    _ _ ?_ _ h1
  intro hc2 host _ h2
  unfold storeHost
  dsimp only
  refine foldl_invariant
    (fun hc : HostCounter => ∀ gateways ∈ hc, ∀ x ∈ gateways.2.flatMap (fun cl =>
      cl.2.flatMap (fun ns => ns.2.flatMap (fun sv => sv.2))), x ∈ s.VirtualServices)
    _ _ ?_ _ h2
  intro hc3 gw _ h3
  refine all_mapUpsert
    (fun (cls : List (String × List (String × List (String × List IstioObject)))) =>
      cls.flatMap (fun cl => cl.2.flatMap (fun ns => ns.2.flatMap (fun sv => sv.2))))
    (fun x => x ∈ s.VirtualServices) hc3 gw _ _ h3 ?_ ?_
  · intro x hx
    simp only [List.flatMap_cons, List.flatMap_nil, List.append_nil, List.mem_singleton] at hx
    rw [hx]; exact hvs
  · intro cls hcls x hx
    rw [List.mem_flatMap] at hx
    obtain ⟨cl, hcl, hx⟩ := hx
    refine all_mapUpsert
      (fun (nss : List (String × List (String × List IstioObject))) =>
        nss.flatMap (fun ns => ns.2.flatMap (fun sv => sv.2)))
      (fun x => x ∈ s.VirtualServices) cls _ _ _ ?_ ?_ ?_ cl hcl x hx
    · intro e he y hy
      exact hcls y (List.mem_flatMap.mpr ⟨e, he, hy⟩)
    · intro y hy
      simp only [List.flatMap_cons, List.flatMap_nil, List.append_nil, List.mem_singleton] at hy
      rw [hy]; exact hvs
    · intro nss hnss y hy
      rw [List.mem_flatMap] at hy
      obtain ⟨ns, hns, hy⟩ := hy
      refine all_mapUpsert
        (fun (svs : List (String × List IstioObject)) => svs.flatMap (fun sv => sv.2))
        (fun x => x ∈ s.VirtualServices) nss _ _ _ ?_ ?_ ?_ ns hns y hy
      · intro e he z hz
        exact hnss z (List.mem_flatMap.mpr ⟨e, he, hz⟩)
      · intro z hz
        simp only [List.flatMap_cons, List.flatMap_nil, List.append_nil, List.mem_singleton] at hz
        rw [hz]; exact hvs
      · intro svs hsvs z hz
        rw [List.mem_flatMap] at hz
        obtain ⟨sv, hsv, hz⟩ := hz
        refine all_mapUpsert (fun (l : List IstioObject) => l)
          (fun x => x ∈ s.VirtualServices) svs _ _ _ ?_ ?_ ?_ sv hsv z hz
        · intro e he w hw
          exact hsvs w (List.mem_flatMap.mpr ⟨e, he, hw⟩)
        · intro w hw
          rw [List.mem_singleton.mp hw]; exact hvs
        · intro l hl w hw
          rcases List.mem_append.mp hw with h | h
          · exact hl w h
          · rw [List.mem_singleton.mp h]; exact hvs

end VirtualServices
end Kiali

/-! ## Properties of the disabled-by-routing-policy check -/

namespace Kiali
namespace DestinationRules

open Models Gateways

/-- The loop over the namespace-scoped policies skips the policies that do not
enable a mode and returns at the first one that does. -/
theorem checkPeerAuthentications_first (k : Kubernetes) (validations : List IstioCheck)
    (pre post : List IstioObject) (mp : IstioObject)
    (hpre : ∀ p ∈ pre, (k.PeerAuthnHasMTLSEnabled p).1 = false)
    (hmp : (k.PeerAuthnHasMTLSEnabled mp).1 = true) :
    checkPeerAuthentications k validations (pre ++ mp :: post) =
      some (if (k.PeerAuthnHasMTLSEnabled mp).2 = "STRICT" then
        (validations ++
          [Build "destinationrules.mtls.policymtlsenabled" "spec/trafficPolicy/tls/mode"], false)
        else (validations, true)) := by
  induction pre with
  | nil =>
    simp only [List.nil_append, checkPeerAuthentications, hmp, if_true]
    split_ifs <;> rfl
  | cons p t ih =>
    have hp : (k.PeerAuthnHasMTLSEnabled p).1 = false := hpre p (by simp)
    simp only [List.cons_append, checkPeerAuthentications, hp]
    exact ih (fun q hq => hpre q (by simp [hq]))

/-- C29: when the traffic-routing policy sets the namespace-wide mode `DISABLE`
and the first namespace-scoped authentication policy, in list order, that
enables a mode has the mode `STRICT`, `Check` returns exactly one finding, with
message `destinationrules.mtls.policymtlsenabled` at path
`spec/trafficPolicy/tls/mode`, and `false`, whatever the later namespace-scoped
policies and the mesh-scoped policies are. -/
theorem Check_first_policy_strict (k : Kubernetes) (m : DisabledNamespaceWideMTLSChecker)
    (pre post : List IstioObject) (mp : IstioObject)
    (hdr : (k.DestinationRuleHasNamespaceWideMTLSEnabled m.DestinationRule.Namespace
      m.DestinationRule).2 = "DISABLE")
    (hlist : m.MTLSDetails.PeerAuthentications = pre ++ mp :: post)
    (hpre : ∀ p ∈ pre, (k.PeerAuthnHasMTLSEnabled p).1 = false)
    (hmp : k.PeerAuthnHasMTLSEnabled mp = (true, "STRICT")) :
    m.Check k =
      ([{ Message := "destinationrules.mtls.policymtlsenabled"
          Severity := SeverityLevel.ErrorSeverity
          Path := "spec/trafficPolicy/tls/mode" }], false) := by
  unfold DisabledNamespaceWideMTLSChecker.Check
  have h1 : (k.PeerAuthnHasMTLSEnabled mp).1 = true := by rw [hmp]
  have h2 : (k.PeerAuthnHasMTLSEnabled mp).2 = "STRICT" := by rw [hmp]
  simp only [hdr, ne_eq, not_true_eq_false, if_false, hlist,
    checkPeerAuthentications_first k [] pre post mp hpre h1, h2, if_true]
  rfl

theorem Check_first_policy_strict_witness :
    DisabledNamespaceWideMTLSChecker.Check Kubernetes.sample
        { DestinationRule := sampleObject "disable-mtls" "bookinfo" "DISABLE"
          MTLSDetails :=
            { PeerAuthentications :=
                [sampleObject "off" "bookinfo" "DISABLE", sampleObject "default" "bookinfo" "STRICT",
                 sampleObject "later" "bookinfo" "PERMISSIVE"]
              MeshPeerAuthentications := [sampleObject "default" "istio-system" "PERMISSIVE"] } } =
      ([{ Message := "destinationrules.mtls.policymtlsenabled"
          Severity := SeverityLevel.ErrorSeverity
          Path := "spec/trafficPolicy/tls/mode" }], false) :=
  Check_first_policy_strict Kubernetes.sample _ [sampleObject "off" "bookinfo" "DISABLE"]
    [sampleObject "later" "bookinfo" "PERMISSIVE"] (sampleObject "default" "bookinfo" "STRICT")
    (by decide) rfl (by intro p hp; rw [List.mem_singleton.mp hp]; decide) (by decide)

/-- C30: when the traffic-routing policy sets the namespace-wide mode `DISABLE`
and the first namespace-scoped authentication policy that enables a mode has
the mode `PERMISSIVE`, `Check` returns no finding and `true`, for every list of
mesh-scoped policies, every answer of the strict-mode test on them and every
later namespace-scoped policy. -/
theorem Check_first_policy_permissive (k : Kubernetes) (m : DisabledNamespaceWideMTLSChecker)
    (pre post : List IstioObject) (mp : IstioObject)
    (hdr : (k.DestinationRuleHasNamespaceWideMTLSEnabled m.DestinationRule.Namespace
      m.DestinationRule).2 = "DISABLE")
    (hlist : m.MTLSDetails.PeerAuthentications = pre ++ mp :: post)
    (hpre : ∀ p ∈ pre, (k.PeerAuthnHasMTLSEnabled p).1 = false)
    (hmp : k.PeerAuthnHasMTLSEnabled mp = (true, "PERMISSIVE")) :
    m.Check k = ([], true) := by
  unfold DisabledNamespaceWideMTLSChecker.Check
  have h1 : (k.PeerAuthnHasMTLSEnabled mp).1 = true := by rw [hmp]
  have h2 : ¬ (k.PeerAuthnHasMTLSEnabled mp).2 = "STRICT" := by rw [hmp]; decide
  simp only [hdr, ne_eq, not_true_eq_false, if_false, hlist,
    checkPeerAuthentications_first k [] pre post mp hpre h1, h2]

theorem Check_first_policy_permissive_witness :
    DisabledNamespaceWideMTLSChecker.Check Kubernetes.sample
        { DestinationRule := sampleObject "disable-mtls" "bookinfo" "DISABLE"
          MTLSDetails :=
            { PeerAuthentications :=
                [sampleObject "default" "bookinfo" "PERMISSIVE",
                 sampleObject "later" "bookinfo" "STRICT"]
              MeshPeerAuthentications := [sampleObject "default" "istio-system" "STRICT"] } } =
      ([], true) :=
  Check_first_policy_permissive Kubernetes.sample _ []
    [sampleObject "later" "bookinfo" "STRICT"] (sampleObject "default" "bookinfo" "PERMISSIVE")
    (by decide) rfl (by intro p hp; simp at hp) (by decide)

end DestinationRules
end Kiali

/-! ## The calls of the routing-rule host grouper -/

namespace Kiali
namespace VirtualServices

open Models Gateways

theorem foldl_flatMap_eq {α β σ : Type} (f : α → List β) (g : σ → β → σ) (l : List α) :
    ∀ init : σ, (l.flatMap f).foldl g init = l.foldl (fun acc x => (f x).foldl g acc) init := by
  induction l with
  | nil => intro init; rfl
  | cons a t ih =>
    intro init
    simp only [List.flatMap_cons, List.foldl_append, List.foldl_cons, ih]

theorem multipleVirtualServiceCheck_eq (virtualService : IstioObject)
    (validations : IstioValidations) (references : List IstioObject) :
    multipleVirtualServiceCheck virtualService validations references =
      mergeOne validations (vsKey virtualService) (entryOf virtualService references) := rfl

theorem checkService_eq_calls (ro : RangeOrder)
    (namespaceCounter : List (String × List IstioObject)) (serviceCounter : List IstioObject)
    (validations : IstioValidations) :
    checkService ro namespaceCounter validations serviceCounter =
      (serviceCalls ro namespaceCounter serviceCounter).foldl
        (fun v c => multipleVirtualServiceCheck c.1 v c.2) validations := by
  unfold checkService serviceCalls
  rw [foldl_flatMap_eq]
  dsimp only
  congr 1
  funext v virtualService
  by_cases h1 : serviceCounter.length > 1 <;>
    by_cases h2 : ((namespaceCounter.lookup "*").getD []).length > 0 <;>
    by_cases h3 : namespaceCounter.length > 1 <;>
    simp [h1, h2, h3]

/-- The second loop of `Check` makes its calls of `multipleVirtualServiceCheck`
one after the other, from the empty graph. -/
theorem checkHostCounter_eq_calls (ro : RangeOrder) (hostCounter : HostCounter) :
    checkHostCounter ro hostCounter =
      (calls ro hostCounter).foldl (fun v c => multipleVirtualServiceCheck c.1 v c.2) [] := by
  unfold checkHostCounter calls
  simp only [foldl_flatMap_eq, checkService_eq_calls]

/-- The graph of the second loop of `Check` is the merge of the entries of its
calls. -/
theorem checkHostCounter_eq_merge (ro : RangeOrder) (hostCounter : HostCounter) :
    checkHostCounter ro hostCounter =
      IstioValidations.MergeValidations []
        ((calls ro hostCounter).map fun c => (vsKey c.1, entryOf c.1 c.2)) := by
  rw [checkHostCounter_eq_calls]
  unfold IstioValidations.MergeValidations
  rw [List.foldl_map]
  rfl

theorem mem_serviceCalls (ro : RangeOrder) (namespaceCounter : List (String × List IstioObject))
    (serviceCounter : List IstioObject) (c : IstioObject × List IstioObject) :
    c ∈ serviceCalls ro namespaceCounter serviceCounter ↔
      c.1 ∈ serviceCounter ∧
        ((serviceCounter.length > 1 ∧ c.2 = serviceCounter) ∨
          ((((namespaceCounter.lookup "*").getD []).length > 0 ∧ namespaceCounter.length > 1) ∧
            c.2 = (ro.order namespaceCounter).flatMap fun serviceCounter => serviceCounter.2)) := by
  unfold serviceCalls
  simp only [List.mem_flatMap, List.mem_append]
  constructor
  · rintro ⟨vs, hvs, h | h⟩
    · split_ifs at h with h1
      · rw [List.mem_singleton.mp h]
        exact ⟨hvs, Or.inl ⟨h1, rfl⟩⟩
      · simp at h
    · split_ifs at h with h2
      · rw [List.mem_singleton.mp h]
        exact ⟨hvs, Or.inr ⟨h2, rfl⟩⟩
      · simp at h
  · rintro ⟨hvs, ⟨h1, hc⟩ | ⟨h2, hc⟩⟩
    · refine ⟨c.1, hvs, Or.inl ?_⟩
      rw [if_pos h1, ← hc]
      simp
    · refine ⟨c.1, hvs, Or.inr ?_⟩
      rw [if_pos h2, ← hc]
      simp

/-- The calls of the second loop of `Check`: one for every routing rule stored
under a service with more than one stored rule, with the rules of the service as
references, and one for every routing rule stored in a namespace map with the
service `*` and more than one service, with the rules of the namespace map as
references. -/
theorem mem_calls (ro : RangeOrder) (hostCounter : HostCounter)
    (c : IstioObject × List IstioObject) :
    c ∈ calls ro hostCounter ↔
      ∃ gateways ∈ hostCounter, ∃ clusterCounter ∈ gateways.2,
        ∃ namespaceCounter ∈ clusterCounter.2, ∃ serviceCounter ∈ namespaceCounter.2,
          c.1 ∈ serviceCounter.2 ∧
            ((serviceCounter.2.length > 1 ∧ c.2 = serviceCounter.2) ∨
              ((((namespaceCounter.2.lookup "*").getD []).length > 0 ∧
                  namespaceCounter.2.length > 1) ∧
                c.2 = (ro.order namespaceCounter.2).flatMap fun serviceCounter =>
                  serviceCounter.2)) := by
  unfold calls
  simp only [List.mem_flatMap, (ro.arranges _).mem_iff, mem_serviceCalls]

theorem mem_keys_checkHostCounter (ro : RangeOrder) (hostCounter : HostCounter)
    (k : IstioValidationKey) :
    k ∈ (checkHostCounter ro hostCounter).map (·.1) ↔
      ∃ c ∈ calls ro hostCounter, vsKey c.1 = k := by
  rw [checkHostCounter_eq_merge, mem_keys_MergeValidations]
  simp only [List.map_nil, List.not_mem_nil, false_or, List.map_map, List.mem_map,
    Function.comp_apply]

theorem mem_references_entryOf (virtualService : IstioObject) (references : List IstioObject)
    (b : IstioValidationKey) :
    b ∈ (entryOf virtualService references).References ↔
      ∃ r ∈ references, vsKey r = b ∧ b ≠ vsKey virtualService := by
  unfold entryOf
  simp only [List.mem_filterMap]
  constructor
  · rintro ⟨r, hr, h⟩
    split_ifs at h with hne
    · have hb : vsKey r = b := by simpa using h
      exact ⟨r, hr, hb, hb ▸ hne⟩
  · rintro ⟨r, hr, hb, hne⟩
    refine ⟨r, hr, ?_⟩
    rw [if_pos (by rw [hb]; exact hne), hb]

/-- The references of the graph of the second loop of `Check`: an entry refers
to the keys, other than its own, of the references of the calls made for its
key. -/
theorem refers_checkHostCounter (ro : RangeOrder) (hostCounter : HostCounter)
    (a b : IstioValidationKey) :
    refers (checkHostCounter ro hostCounter) a b ↔
      ∃ c ∈ calls ro hostCounter, vsKey c.1 = a ∧ ∃ r ∈ c.2, vsKey r = b ∧ b ≠ a := by
  rw [checkHostCounter_eq_merge, refers_MergeValidations]
  unfold refers
  simp only [List.not_mem_nil, false_and, exists_false, false_or, List.mem_map, Prod.mk.injEq]
  constructor
  · rintro ⟨v, ⟨c, hc, hk, hv⟩, hb⟩
    rw [← hv, mem_references_entryOf] at hb
    obtain ⟨r, hr, h1, h2⟩ := hb
    exact ⟨c, hc, hk, r, hr, h1, hk ▸ h2⟩
  · rintro ⟨c, hc, hk, r, hr, h1, h2⟩
    refine ⟨entryOf c.1 c.2, ⟨c, hc, hk, rfl⟩, ?_⟩
    rw [mem_references_entryOf]
    exact ⟨r, hr, h1, hk ▸ h2⟩

/-- The findings of a key in the graph of the second loop of `Check`: one for
every call made for the key. -/
theorem checksOf_checkHostCounter (ro : RangeOrder) (hostCounter : HostCounter)
    (k : IstioValidationKey) :
    checksOf (checkHostCounter ro hostCounter) k =
      ((calls ro hostCounter).map fun c => vsKey c.1).flatMap fun key =>
        if key = k then [Build "virtualservices.singlehost" "spec/hosts"] else [] := by
  rw [checkHostCounter_eq_merge, checksOf_MergeValidations]
  simp only [checksOf, List.nil_append, List.flatMap_map]
  rfl

theorem nodup_keys_checkHostCounter (ro : RangeOrder) (hostCounter : HostCounter) :
    ((checkHostCounter ro hostCounter).map (·.1)).Nodup := by
  rw [checkHostCounter_eq_merge]
  exact nodup_keys_MergeValidations _ [] (by simp)

/-- What every entry of the graph of the second loop of `Check` holds. -/
theorem checkHostCounter_entries (ro : RangeOrder) (hostCounter : HostCounter) :
    ∀ e ∈ checkHostCounter ro hostCounter,
      e.2.Valid = true ∧ e.2.ObjectType = "virtualservice" ∧
        ∀ c ∈ e.2.Checks, c = Build "virtualservices.singlehost" "spec/hosts" := by
  rw [checkHostCounter_eq_merge]
  refine all_MergeValidations
    (fun v => v.Valid = true ∧ v.ObjectType = "virtualservice" ∧
      ∀ c ∈ v.Checks, c = Build "virtualservices.singlehost" "spec/hosts") ?_ _ _
    (fun e he => by simp at he) ?_
  · rintro v w ⟨h1, h2, h3⟩ ⟨g1, _, g3⟩
    refine ⟨by simp [mergeEntry, h1, g1], by simp [mergeEntry, h2], ?_⟩
    intro c hc
    simp only [mergeEntry, List.mem_append] at hc
    rcases hc with hc | hc
    · exact h3 c hc
    · exact g3 c hc
  · intro e he
    simp only [List.mem_map] at he
    obtain ⟨c, _, rfl⟩ := he
    simp [entryOf]

/-- C24: every entry of the graph that `Check` returns, for every input and every
order of iteration over the maps, has `Valid = true`, the object type
`virtualservice` in its key and in its body, and only findings with the message
`virtualservices.singlehost`, of warning severity, at the path `spec/hosts`. -/
theorem Check_entries_warning_valid (env : Environment) (ro : RangeOrder)
    (s : SingleHostChecker) :
    ∀ e ∈ Check env ro s,
      e.2.Valid = true ∧ e.1.ObjectType = "virtualservice" ∧
        e.2.ObjectType = "virtualservice" ∧
        ∀ c ∈ e.2.Checks, c.Message = "virtualservices.singlehost" ∧
          c.Severity = SeverityLevel.WarningSeverity ∧ c.Path = "spec/hosts" := by
  intro e he
  unfold Check at he
  obtain ⟨h1, h2, h3⟩ := checkHostCounter_entries ro _ e he
  refine ⟨h1, ?_, h2, ?_⟩
  · obtain ⟨c, _, hk⟩ := (mem_keys_checkHostCounter ro _ e.1).mp (List.mem_map.mpr ⟨e, he, rfl⟩)
    rw [← hk]
    rfl
  · intro c hc
    rw [h3 c hc]
    exact ⟨rfl, rfl, rfl⟩

theorem Check_entries_warning_valid_witness :
    (Check Environment.sample RangeOrder.insertion
        (sampleChecker [sampleVirtualService "virtual-1" ["reviews"],
          sampleVirtualService "virtual-2" ["reviews"],
          sampleVirtualService "virtual-3" ["reviews"]])).length = 3 ∧
    ∀ e ∈ Check Environment.sample RangeOrder.insertion
        (sampleChecker [sampleVirtualService "virtual-1" ["reviews"],
          sampleVirtualService "virtual-2" ["reviews"],
          sampleVirtualService "virtual-3" ["reviews"]]),
      e.2.Valid = true ∧ e.1.ObjectType = "virtualservice" ∧
        e.2.ObjectType = "virtualservice" ∧
        ∀ c ∈ e.2.Checks, c.Message = "virtualservices.singlehost" ∧
          c.Severity = SeverityLevel.WarningSeverity ∧ c.Path = "spec/hosts" :=
  ⟨by decide,
    Check_entries_warning_valid Environment.sample RangeOrder.insertion
      (sampleChecker [sampleVirtualService "virtual-1" ["reviews"],
        sampleVirtualService "virtual-2" ["reviews"],
        sampleVirtualService "virtual-3" ["reviews"]])⟩

/-- C25: no entry of the graph that `Check` returns lists its own key among its
references, for every input and every order of iteration over the maps. -/
theorem Check_no_self_reference (env : Environment) (ro : RangeOrder) (s : SingleHostChecker) :
    ∀ e ∈ Check env ro s, e.1 ∉ e.2.References := by
  intro e he hmem
  unfold Check at he
  have href : refers (checkHostCounter ro (buildHostCounter env s)) e.1 e.1 := ⟨e.2, he, hmem⟩
  obtain ⟨c, _, _, r, _, _, hne⟩ := (refers_checkHostCounter ro _ e.1 e.1).mp href
  exact hne rfl

theorem Check_no_self_reference_witness :
    (Check Environment.sample RangeOrder.insertion
        (sampleChecker [sampleVirtualService "virtual-1" ["*", "reviews"],
          sampleVirtualService "virtual-2" ["reviews", "ratings"]])).length = 2 ∧
    ∀ e ∈ Check Environment.sample RangeOrder.insertion
        (sampleChecker [sampleVirtualService "virtual-1" ["*", "reviews"],
          sampleVirtualService "virtual-2" ["reviews", "ratings"]]),
      e.1 ∉ e.2.References :=
  ⟨by decide,
    Check_no_self_reference Environment.sample RangeOrder.insertion
      (sampleChecker [sampleVirtualService "virtual-1" ["*", "reviews"],
        sampleVirtualService "virtual-2" ["reviews", "ratings"]])⟩

end VirtualServices
end Kiali

/-! ## The host counter of the routing-rule host grouper -/

namespace Kiali
namespace VirtualServices

open Models Gateways

theorem lookup_map_update {α : Type} (key k : String) (update : α → α) (m : List (String × α)) :
    (m.map fun e => if e.1 = key then (e.1, update e.2) else e).lookup k =
      if k = key then (m.lookup key).map update else m.lookup k := by
  induction m with
  | nil => simp
  | cons e t ih =>
    obtain ⟨k0, v0⟩ := e
    rw [List.map_cons]
    by_cases h0 : k0 = key
    · rw [if_pos h0]
      subst h0
      by_cases hk : k = k0
      · subst hk
        simp [List.lookup]
      · have hb : (k == k0) = false := by simpa using hk
        simp only [List.lookup, hb, ih, hk, if_false]
    · rw [if_neg h0]
      by_cases hk : k = key
      · subst hk
        have hb : (k == k0) = false := by
          simp only [beq_eq_false_iff_ne, ne_eq]
          exact fun x => h0 x.symm
        simp only [List.lookup, hb, ih, if_true]
      · by_cases hkk : k = k0
        · subst hkk
          simp [List.lookup, hk]
        · have hb : (k == k0) = false := by simpa using hkk
          simp only [List.lookup, hb, ih, hk, if_false]

theorem lookup_of_any {α : Type} (key : String) (m : List (String × α))
    (h : (m.any fun e => decide (e.1 = key)) = true) : ∃ v, m.lookup key = some v := by
  induction m with
  | nil => simp at h
  | cons e t ih =>
    obtain ⟨k0, v0⟩ := e
    by_cases h0 : key = k0
    · subst h0
      exact ⟨v0, by simp [List.lookup]⟩
    · have hb : (key == k0) = false := by simpa using h0
      have h1 : (t.any fun e => decide (e.1 = key)) = true := by
        simp only [List.any_cons, Bool.or_eq_true, decide_eq_true_eq] at h
        rcases h with h | h
        · exact absurd h.symm h0
        · exact h
      obtain ⟨v, hv⟩ := ih h1
      exact ⟨v, by simp only [List.lookup, hb, hv]⟩

theorem lookup_of_not_any {α : Type} (key : String) (m : List (String × α))
    (h : ¬ (m.any fun e => decide (e.1 = key)) = true) : m.lookup key = none := by
  induction m with
  | nil => rfl
  | cons e t ih =>
    obtain ⟨k0, v0⟩ := e
    simp only [List.any_cons, Bool.or_eq_true, decide_eq_true_eq, not_or] at h
    have hb : (key == k0) = false := by
      simp only [beq_eq_false_iff_ne, ne_eq]
      exact fun x => h.1 x.symm
    simp only [List.lookup, hb]
    exact ih h.2

/-- The value of a map at a key after `mapUpsert`, when the update of the zero
value is the initial value: the update of the old value at the key that is set,
the old value at the other keys. -/
theorem mapIndex_mapUpsert {α : Type} (m : List (String × List α)) (key k : String)
    (init : List α) (update : List α → List α) (h : update [] = init) :
    mapIndex (mapUpsert m key init update) k =
      if k = key then update (mapIndex m key) else mapIndex m k := by
  unfold mapUpsert mapIndex
  by_cases hany : (m.any fun e => decide (e.1 = key)) = true
  · rw [if_pos hany, lookup_map_update]
    obtain ⟨v, hv⟩ := lookup_of_any key m hany
    by_cases hk : k = key
    · simp [hk, hv]
    · simp [hk]
  · rw [if_neg hany, List.lookup_append]
    have hnone := lookup_of_not_any key m hany
    by_cases hk : k = key
    · subst hk
      simp [hnone, List.lookup, h]
    · have hb : (k == key) = false := by simpa using hk
      simp [hk, List.lookup, hb]

theorem foldl_append_flatMap {σ α β : Type} (F : σ → List β) (step : σ → α → σ)
    (d : α → List β) (hstep : ∀ acc x, F (step acc x) = F acc ++ d x) (l : List α) :
    ∀ init, F (l.foldl step init) = F init ++ l.flatMap d := by
  induction l with
  | nil => intro init; simp
  | cons a t ih =>
    intro init
    simp only [List.foldl_cons, ih, hstep, List.flatMap_cons, List.append_assoc]

/-- The routing rules at a key after `storeHost`: the routing rules that were
there, and the stored rule once for every gateway of its scope that is the
gateway of the key, when the cluster, the namespace and the service of the key
are those of the host as `storeHost` groups it. -/
theorem storedAt_storeHost (env : Environment) (hostCounter : HostCounter) (vs : IstioObject)
    (host : Host) (gw cluster ns service : String) :
    storedAt (storeHost env hostCounter vs host) gw cluster ns service =
      storedAt hostCounter gw cluster ns service ++
        (gatewayScope vs).flatMap fun g =>
          if g = gw ∧ (groupingHost env vs host).Cluster = cluster ∧
              (groupingHost env vs host).Namespace = ns ∧
              (groupingHost env vs host).Service = service then [vs] else [] := by
  show storedAt ((gatewayScope vs).foldl
    (fun hc g => storeUnder hc vs (groupingHost env vs host) g) hostCounter) gw cluster ns service = _
  refine foldl_append_flatMap (fun hc => storedAt hc gw cluster ns service) _ _ ?_ _ hostCounter
  intro acc g
  unfold storedAt storeUnder
  dsimp only
  rw [mapIndex_mapUpsert _ _ _ _ _ (by rfl)]
  by_cases h1 : gw = g
  · rw [if_pos h1, mapIndex_mapUpsert _ _ _ _ _ (by rfl), h1]
    by_cases h2 : cluster = (groupingHost env vs host).Cluster
    · rw [if_pos h2, mapIndex_mapUpsert _ _ _ _ _ (by rfl), ← h2]
      by_cases h3 : ns = (groupingHost env vs host).Namespace
      · rw [if_pos h3, mapIndex_mapUpsert _ _ _ _ _ (by rfl), ← h3]
        by_cases h4 : service = (groupingHost env vs host).Service
        · rw [if_pos h4, ← h4]
          simp
        · rw [if_neg h4]
          have h4' : ¬ (groupingHost env vs host).Service = service := fun x => h4 x.symm
          simp [h4']
      · rw [if_neg h3]
        have h3' : ¬ (groupingHost env vs host).Namespace = ns := fun x => h3 x.symm
        simp [h3']
    · rw [if_neg h2]
      have h2' : ¬ (groupingHost env vs host).Cluster = cluster := fun x => h2 x.symm
      simp [h2']
  · rw [if_neg h1]
    have h1' : ¬ g = gw := fun x => h1 x.symm
    simp [h1']

/-- The routing rules at a key of the host counter of `Check`: every routing rule
of the checker, in order, once for every host of it and every gateway of its
scope that make the key. -/
theorem storedAt_buildHostCounter (env : Environment) (s : SingleHostChecker)
    (gw cluster ns service : String) :
    storedAt (buildHostCounter env s) gw cluster ns service =
      s.VirtualServices.flatMap fun vs =>
        (getHosts env s vs).flatMap fun host =>
          (gatewayScope vs).flatMap fun g =>
            if g = gw ∧ (groupingHost env vs host).Cluster = cluster ∧
                (groupingHost env vs host).Namespace = ns ∧
                (groupingHost env vs host).Service = service then [vs] else [] := by
  unfold buildHostCounter
  have h := foldl_append_flatMap (fun hc => storedAt hc gw cluster ns service)
    (fun hostCounter vs =>
      (getHosts env s vs).foldl (fun hostCounter host => storeHost env hostCounter vs host)
        hostCounter)
    (fun vs => (getHosts env s vs).flatMap fun host =>
      (gatewayScope vs).flatMap fun g =>
        if g = gw ∧ (groupingHost env vs host).Cluster = cluster ∧
            (groupingHost env vs host).Namespace = ns ∧
            (groupingHost env vs host).Service = service then [vs] else [])
    ?_ s.VirtualServices []
  · simpa [storedAt, mapIndex] using h
  · intro acc vs
    exact foldl_append_flatMap (fun hc => storedAt hc gw cluster ns service)
      (fun hostCounter host => storeHost env hostCounter vs host) _
      (fun acc host => storedAt_storeHost env acc vs host gw cluster ns service) _ acc

/-- A routing rule is stored at a key of the host counter of `Check` exactly when
it maps to the key. -/
theorem mem_storedAt_buildHostCounter (env : Environment) (s : SingleHostChecker)
    (gw cluster ns service : String) (vs : IstioObject) :
    vs ∈ storedAt (buildHostCounter env s) gw cluster ns service ↔
      mapsTo env s vs gw cluster ns service := by
  rw [storedAt_buildHostCounter]
  unfold mapsTo
  simp only [List.mem_flatMap]
  constructor
  · rintro ⟨vs0, hvs0, host, hhost, g, hg, hmem⟩
    split_ifs at hmem with hc
    · have e : vs = vs0 := List.mem_singleton.mp hmem
      subst e
      obtain ⟨h1, h2, h3, h4⟩ := hc
      exact ⟨hvs0, host, hhost, h1 ▸ hg, h2, h3, h4⟩
    · simp at hmem
  · rintro ⟨hvs, host, hhost, hg, h2, h3, h4⟩
    refine ⟨vs, hvs, host, hhost, gw, hg, ?_⟩
    rw [if_pos ⟨rfl, h2, h3, h4⟩]
    simp

theorem keyed_mapUpsert {α : Type} (P : α → Prop) (m : List (String × α)) (key : String)
    (init : α) (update : α → α) (hm : keyed P m) (hinit : P init)
    (hupdate : ∀ v, P v → P (update v)) : keyed P (mapUpsert m key init update) := by
  obtain ⟨hnd, hall⟩ := hm
  unfold mapUpsert
  by_cases hany : (m.any fun e => decide (e.1 = key)) = true
  · rw [if_pos hany]
    constructor
    · have hkeys : (m.map fun e => if e.1 = key then (e.1, update e.2) else e).map (·.1) =
          m.map (·.1) := by
        rw [List.map_map]
        apply List.map_congr_left
        intro e _
        by_cases hk : e.1 = key <;> simp [hk]
      rw [hkeys]
      exact hnd
    · intro e he
      obtain ⟨e0, he0, rfl⟩ := List.mem_map.mp he
      by_cases hk : e0.1 = key
      · rw [if_pos hk]
        exact hupdate _ (hall e0 he0)
      · rw [if_neg hk]
        exact hall e0 he0
  · rw [if_neg hany]
    constructor
    · rw [List.map_append, List.map_singleton]
      refine List.Nodup.append hnd (List.nodup_singleton _) ?_
      intro k hk1 hk2
      rw [List.mem_singleton.mp hk2] at hk1
      obtain ⟨e, he, hke⟩ := List.mem_map.mp hk1
      exact hany (List.any_eq_true.mpr ⟨e, he, by simpa using hke⟩)
    · intro e he
      rcases List.mem_append.mp he with h | h
      · exact hall e h
      · rw [List.mem_singleton.mp h]
        exact hinit

theorem keyed_singleton {α : Type} (P : α → Prop) (key : String) (v : α) (h : P v) :
    keyed P [(key, v)] := by
  constructor
  · simp
  · intro e he
    rw [List.mem_singleton.mp he]
    exact h

theorem wellKeyed_storeUnder (hostCounter : HostCounter) (vs : IstioObject) (host : Host)
    (gw : String) (h : wellKeyed hostCounter) : wellKeyed (storeUnder hostCounter vs host gw) := by
  unfold wellKeyed storeUnder at *
  have hvs : [vs] ≠ [] := by simp
  refine keyed_mapUpsert _ _ _ _ _ h ?_ ?_
  · exact keyed_singleton _ _ _ (keyed_singleton _ _ _ (keyed_singleton _ _ _ hvs))
  · intro clusters hcl
    refine keyed_mapUpsert _ _ _ _ _ hcl ?_ ?_
    · exact keyed_singleton _ _ _ (keyed_singleton _ _ _ hvs)
    · intro namespaces hns
      refine keyed_mapUpsert _ _ _ _ _ hns ?_ ?_
      · exact keyed_singleton _ _ _ hvs
      · intro services hsv
        exact keyed_mapUpsert _ _ _ _ _ hsv hvs (fun l _ => by simp)

/-- The host counter of `Check` holds each key once at each of its four levels. -/
theorem wellKeyed_buildHostCounter (env : Environment) (s : SingleHostChecker) :
    wellKeyed (buildHostCounter env s) := by
  unfold buildHostCounter
  refine foldl_invariant wellKeyed _ _ ?_ _ ⟨by simp, fun e he => by simp at he⟩
  intro hc1 vs _ h1
  refine foldl_invariant wellKeyed _ _ ?_ _ h1
  intro hc2 host _ h2
  show wellKeyed ((gatewayScope vs).foldl
    (fun hc g => storeUnder hc vs (groupingHost env vs host) g) hc2)
  refine foldl_invariant wellKeyed _ _ ?_ _ h2
  intro hc3 g _ h3
  exact wellKeyed_storeUnder hc3 vs _ g h3

theorem lookup_of_mem_nodup {α : Type} (m : List (String × α)) (hnd : (m.map (·.1)).Nodup)
    (e : String × α) (he : e ∈ m) : m.lookup e.1 = some e.2 := by
  induction m with
  | nil => simp at he
  | cons e0 t ih =>
    obtain ⟨k0, v0⟩ := e0
    simp only [List.map_cons, List.nodup_cons] at hnd
    rcases List.mem_cons.mp he with h | h
    · rw [h]
      simp [List.lookup]
    · have hne : ¬ e.1 = k0 := by
        intro hk
        exact hnd.1 (List.mem_map.mpr ⟨e, h, hk⟩)
      have hb : (e.1 == k0) = false := by simpa using hne
      simp only [List.lookup, hb]
      exact ih hnd.2 h

theorem mapIndex_of_mem {α : Type} (m : List (String × List α)) (hnd : (m.map (·.1)).Nodup)
    (e : String × List α) (he : e ∈ m) : mapIndex m e.1 = e.2 := by
  unfold mapIndex
  rw [lookup_of_mem_nodup m hnd e he]
  rfl

theorem mem_of_lookup {α : Type} (m : List (String × α)) (key : String) (v : α)
    (h : m.lookup key = some v) : (key, v) ∈ m := by
  induction m with
  | nil => simp at h
  | cons e0 t ih =>
    obtain ⟨k0, v0⟩ := e0
    by_cases hk : key = k0
    · subst hk
      simp only [List.lookup, beq_self_eq_true, Option.some.injEq] at h
      rw [h]
      simp
    · have hb : (key == k0) = false := by simpa using hk
      simp only [List.lookup, hb] at h
      exact List.mem_cons_of_mem _ (ih h)

/-- A key with a value other than the zero value is a key of the map. -/
theorem mem_of_mapIndex_ne_nil {α : Type} (m : List (String × List α)) (key : String)
    (h : mapIndex m key ≠ []) : (key, mapIndex m key) ∈ m := by
  unfold mapIndex at *
  cases hl : m.lookup key with
  | none => rw [hl] at h; simp at h
  | some v => exact mem_of_lookup m key v hl

/-- The path to the routing rules stored at a key of a host counter. -/
theorem path_of_stored (hostCounter : HostCounter) (gw cluster ns service : String)
    (h : storedAt hostCounter gw cluster ns service ≠ []) :
    (gw, mapIndex hostCounter gw) ∈ hostCounter ∧
    (cluster, mapIndex (mapIndex hostCounter gw) cluster) ∈ mapIndex hostCounter gw ∧
    (ns, mapIndex (mapIndex (mapIndex hostCounter gw) cluster) ns) ∈
      mapIndex (mapIndex hostCounter gw) cluster ∧
    (service, storedAt hostCounter gw cluster ns service) ∈
      mapIndex (mapIndex (mapIndex hostCounter gw) cluster) ns := by
  have h4 := mem_of_mapIndex_ne_nil _ service h
  have h3 := mem_of_mapIndex_ne_nil (mapIndex (mapIndex hostCounter gw) cluster) ns
    (List.ne_nil_of_mem h4)
  have h2 := mem_of_mapIndex_ne_nil (mapIndex hostCounter gw) cluster (List.ne_nil_of_mem h3)
  have h1 := mem_of_mapIndex_ne_nil hostCounter gw (List.ne_nil_of_mem h2)
  exact ⟨h1, h2, h3, h4⟩

/-- In a host counter that holds each key once, the routing rules of an entry
are the routing rules stored at its key. -/
theorem stored_of_path (hostCounter : HostCounter) (h : wellKeyed hostCounter)
    (gateways : String × List (String × List (String × List (String × List IstioObject))))
    (hg : gateways ∈ hostCounter)
    (clusterCounter : String × List (String × List (String × List IstioObject)))
    (hcl : clusterCounter ∈ gateways.2)
    (namespaceCounter : String × List (String × List IstioObject))
    (hns : namespaceCounter ∈ clusterCounter.2)
    (serviceCounter : String × List IstioObject) (hsv : serviceCounter ∈ namespaceCounter.2) :
    namespaceCounter.2 =
        mapIndex (mapIndex (mapIndex hostCounter gateways.1) clusterCounter.1)
          namespaceCounter.1 ∧
      serviceCounter.2 =
        storedAt hostCounter gateways.1 clusterCounter.1 namespaceCounter.1 serviceCounter.1 := by
  obtain ⟨n1, a1⟩ := h
  obtain ⟨n2, a2⟩ := a1 gateways hg
  obtain ⟨n3, a3⟩ := a2 clusterCounter hcl
  obtain ⟨n4, _⟩ := a3 namespaceCounter hns
  unfold storedAt
  rw [mapIndex_of_mem hostCounter n1 gateways hg, mapIndex_of_mem gateways.2 n2 clusterCounter hcl,
    mapIndex_of_mem clusterCounter.2 n3 namespaceCounter hns,
    mapIndex_of_mem namespaceCounter.2 n4 serviceCounter hsv]
  exact ⟨rfl, rfl⟩

end VirtualServices
end Kiali

/-! ## The two conflict rules of the routing-rule host grouper -/

namespace Kiali
namespace VirtualServices

open Models Gateways

theorem length_gt_one_of_mem_ne {α : Type} (l : List α) (a b : α) (ha : a ∈ l) (hb : b ∈ l)
    (hne : a ≠ b) : l.length > 1 := by
  match l, ha, hb with
  | [x], ha, hb =>
    exact absurd ((List.mem_singleton.mp ha).trans (List.mem_singleton.mp hb).symm) hne
  | _ :: _ :: _, _, _ => simp

/-- The graph of the second loop of `Check` has an entry for the routing rule of
each call, and the entry refers to the key of every reference of the call that
is not its own key. -/
theorem entry_of_call (ro : RangeOrder) (hostCounter : HostCounter)
    (c : IstioObject × List IstioObject) (hc : c ∈ calls ro hostCounter) :
    ∃ entry, (vsKey c.1, entry) ∈ checkHostCounter ro hostCounter ∧
      ∀ r ∈ c.2, vsKey r ≠ vsKey c.1 → vsKey r ∈ entry.References := by
  have hkey := (mem_keys_checkHostCounter ro hostCounter (vsKey c.1)).mpr ⟨c, hc, rfl⟩
  obtain ⟨e, he, hk⟩ := List.mem_map.mp hkey
  refine ⟨e.2, by rw [← hk]; exact he, ?_⟩
  intro r hr hne
  obtain ⟨v, hv, hb⟩ := (refers_checkHostCounter ro hostCounter (vsKey c.1) (vsKey r)).mpr
    ⟨c, hc, rfl, r, hr, rfl, hne⟩
  have hev : e.2 = v :=
    entry_unique _ (nodup_keys_checkHostCounter ro hostCounter) (vsKey c.1) e.2 v
      (by rw [← hk]; exact he) hv
  rw [hev]
  exact hb

/-- The call of the same-service rule: `Check` calls `multipleVirtualServiceCheck`
on a routing rule that maps to a key to which a second routing rule maps, with
the routing rules stored at the key as references. -/
theorem same_service_call (env : Environment) (ro : RangeOrder) (s : SingleHostChecker)
    (gw cluster ns service : String) (vs other : IstioObject)
    (h1 : mapsTo env s vs gw cluster ns service) (h2 : mapsTo env s other gw cluster ns service)
    (hne : vs ≠ other) :
    (vs, storedAt (buildHostCounter env s) gw cluster ns service) ∈
      calls ro (buildHostCounter env s) := by
  have m1 := (mem_storedAt_buildHostCounter env s gw cluster ns service vs).mpr h1
  have m2 := (mem_storedAt_buildHostCounter env s gw cluster ns service other).mpr h2
  obtain ⟨p1, p2, p3, p4⟩ := path_of_stored (buildHostCounter env s) gw cluster ns service
    (List.ne_nil_of_mem m1)
  rw [mem_calls]
  exact ⟨_, p1, _, p2, _, p3, _, p4, m1,
    Or.inl ⟨length_gt_one_of_mem_ne _ vs other m1 m2 hne, rfl⟩⟩

/-- The call of the wildcard rule: when a routing rule maps to the service `*` of
a bucket and a routing rule maps to another service of the bucket, `Check` calls
`multipleVirtualServiceCheck` on every routing rule that maps to a service of the
bucket, with references that hold every routing rule that maps to a service of
the bucket. -/
theorem wildcard_call (env : Environment) (ro : RangeOrder) (s : SingleHostChecker)
    (gw cluster ns service : String) (wild other : IstioObject)
    (hwild : mapsTo env s wild gw cluster ns "*")
    (hother : mapsTo env s other gw cluster ns service) (hsv : service ≠ "*")
    (vs : IstioObject) (sv : String) (hvs : mapsTo env s vs gw cluster ns sv) :
    ∃ references, (vs, references) ∈ calls ro (buildHostCounter env s) ∧
      ∀ vs2 sv2, mapsTo env s vs2 gw cluster ns sv2 → vs2 ∈ references := by
  have mw := (mem_storedAt_buildHostCounter env s gw cluster ns "*" wild).mpr hwild
  have mo := (mem_storedAt_buildHostCounter env s gw cluster ns service other).mpr hother
  have mv := (mem_storedAt_buildHostCounter env s gw cluster ns sv vs).mpr hvs
  obtain ⟨p1, p2, p3, p4⟩ := path_of_stored (buildHostCounter env s) gw cluster ns sv
    (List.ne_nil_of_mem mv)
  obtain ⟨_, _, _, w4⟩ := path_of_stored (buildHostCounter env s) gw cluster ns "*"
    (List.ne_nil_of_mem mw)
  obtain ⟨_, _, _, o4⟩ := path_of_stored (buildHostCounter env s) gw cluster ns service
    (List.ne_nil_of_mem mo)
  refine ⟨_, (mem_calls ro _ _).mpr ⟨_, p1, _, p2, _, p3, _, p4, mv, Or.inr ⟨⟨?_, ?_⟩, rfl⟩⟩, ?_⟩
  · exact List.length_pos_of_mem mw
  · refine length_gt_one_of_mem_ne _ _ _ w4 o4 ?_
    intro h
    exact hsv (congrArg Prod.fst h).symm
  · intro vs2 sv2 h2
    have m2 := (mem_storedAt_buildHostCounter env s gw cluster ns sv2 vs2).mpr h2
    obtain ⟨_, _, _, q4⟩ := path_of_stored (buildHostCounter env s) gw cluster ns sv2
      (List.ne_nil_of_mem m2)
    exact List.mem_flatMap.mpr ⟨_, (ro.arranges _).mem_iff.mpr q4, m2⟩

/-- C21: the same-service conflict. When two or more routing rules with pairwise
distinct keys all map to the same key (gateway, cluster, namespace, service),
the graph that `Check` returns, for every order of iteration over the maps, has
an entry for each of the rules, and the references of the entry hold the keys of
all the other rules. -/
theorem same_service_conflict (env : Environment) (ro : RangeOrder) (s : SingleHostChecker)
    (gw cluster ns service : String) (rules : List IstioObject) (hn : rules.length ≥ 2)
    (hdistinct : (rules.map vsKey).Nodup)
    (hmap : ∀ vs ∈ rules, mapsTo env s vs gw cluster ns service) :
    ∀ vs ∈ rules, ∃ entry, (vsKey vs, entry) ∈ Check env ro s ∧
      ∀ other ∈ rules, other ≠ vs → vsKey other ∈ entry.References := by
  intro vs hvs
  have hinj := List.inj_on_of_nodup_map hdistinct
  have hex : ∃ other ∈ rules, vs ≠ other := by
    match rules, hn, hdistinct with
    | a :: b :: t, _, hd =>
      have hab : a ≠ b := by
        intro h
        rw [h] at hd
        simp at hd
      by_cases h : vs = a
      · exact ⟨b, by simp, h ▸ hab⟩
      · exact ⟨a, by simp, h⟩
  obtain ⟨other, hother, hne⟩ := hex
  have hcall := same_service_call env ro s gw cluster ns service vs other (hmap vs hvs)
    (hmap other hother) hne
  obtain ⟨entry, hentry, hrefs⟩ := entry_of_call ro _ _ hcall
  refine ⟨entry, hentry, ?_⟩
  intro r hr hrne
  refine hrefs r ((mem_storedAt_buildHostCounter env s gw cluster ns service r).mpr (hmap r hr)) ?_
  intro hk
  exact hrne (hinj hr hvs hk)

theorem same_service_conflict_witness :
    ∃ entry,
      (vsKey (sampleVirtualService "virtual-1" ["reviews"]), entry) ∈
        Check Environment.sample RangeOrder.insertion
          (sampleChecker [sampleVirtualService "virtual-1" ["reviews"],
            sampleVirtualService "virtual-2" ["reviews"],
            sampleVirtualService "virtual-3" ["reviews"]]) ∧
      ∀ other ∈ [sampleVirtualService "virtual-1" ["reviews"],
          sampleVirtualService "virtual-2" ["reviews"],
          sampleVirtualService "virtual-3" ["reviews"]],
        other ≠ sampleVirtualService "virtual-1" ["reviews"] →
          vsKey other ∈ entry.References :=
  same_service_conflict Environment.sample RangeOrder.insertion
    (sampleChecker [sampleVirtualService "virtual-1" ["reviews"],
      sampleVirtualService "virtual-2" ["reviews"],
      sampleVirtualService "virtual-3" ["reviews"]])
    "no-gateway" "svc.cluster.local" "bookinfo" "reviews"
    [sampleVirtualService "virtual-1" ["reviews"], sampleVirtualService "virtual-2" ["reviews"],
      sampleVirtualService "virtual-3" ["reviews"]]
    (by decide) (by decide)
    (by
      intro vs hvs
      simp only [List.mem_cons, List.mem_singleton, List.not_mem_nil, or_false] at hvs
      rcases hvs with rfl | rfl | rfl <;>
        exact ⟨by simp [sampleChecker], _, List.Mem.head _, List.Mem.head _, rfl, rfl, rfl⟩)
    (sampleVirtualService "virtual-1" ["reviews"]) (by simp)

/-- C22: the wildcard-vs-concrete conflict. When a routing rule maps to the
service `*` of a bucket (gateway, cluster, namespace) and a routing rule maps to
another service of the bucket, the graph that `Check` returns, for every order
of iteration over the maps, has an entry for every routing rule that maps to a
service of the bucket, the rule of the service `*` included, and the references
of the entry hold the key of every routing rule with another key that maps to a
service of the bucket. -/
theorem wildcard_conflict (env : Environment) (ro : RangeOrder) (s : SingleHostChecker)
    (gw cluster ns service : String) (wild other : IstioObject)
    (hwild : mapsTo env s wild gw cluster ns "*")
    (hother : mapsTo env s other gw cluster ns service) (hsv : service ≠ "*")
    (vs : IstioObject) (sv : String) (hvs : mapsTo env s vs gw cluster ns sv) :
    ∃ entry, (vsKey vs, entry) ∈ Check env ro s ∧
      ∀ vs2 sv2, mapsTo env s vs2 gw cluster ns sv2 → vsKey vs2 ≠ vsKey vs →
        vsKey vs2 ∈ entry.References := by
  obtain ⟨references, hcall, hall⟩ :=
    wildcard_call env ro s gw cluster ns service wild other hwild hother hsv vs sv hvs
  obtain ⟨entry, hentry, hrefs⟩ := entry_of_call ro _ _ hcall
  exact ⟨entry, hentry, fun vs2 sv2 h2 hne => hrefs vs2 (hall vs2 sv2 h2) hne⟩

theorem wildcard_conflict_witness :
    ∃ entry,
      (vsKey (sampleVirtualService "virtual-1" ["*"]), entry) ∈
        Check Environment.sample RangeOrder.insertion
          (sampleChecker [sampleVirtualService "virtual-1" ["*"],
            sampleVirtualService "virtual-2" ["reviews"],
            sampleVirtualService "virtual-3" ["ratings"]]) ∧
      ∀ vs2 sv2,
        mapsTo Environment.sample
          (sampleChecker [sampleVirtualService "virtual-1" ["*"],
            sampleVirtualService "virtual-2" ["reviews"],
            sampleVirtualService "virtual-3" ["ratings"]])
          vs2 "no-gateway" "svc.cluster.local" "bookinfo" sv2 →
        vsKey vs2 ≠ vsKey (sampleVirtualService "virtual-1" ["*"]) →
          vsKey vs2 ∈ entry.References :=
  wildcard_conflict Environment.sample RangeOrder.insertion
    (sampleChecker [sampleVirtualService "virtual-1" ["*"],
      sampleVirtualService "virtual-2" ["reviews"],
      sampleVirtualService "virtual-3" ["ratings"]])
    "no-gateway" "svc.cluster.local" "bookinfo" "reviews"
    (sampleVirtualService "virtual-1" ["*"]) (sampleVirtualService "virtual-2" ["reviews"])
    ⟨by simp [sampleChecker], _, List.Mem.head _, List.Mem.head _, rfl, rfl, rfl⟩
    ⟨by simp [sampleChecker], _, List.Mem.head _, List.Mem.head _, rfl, rfl, rfl⟩
    (by decide)
    (sampleVirtualService "virtual-1" ["*"]) "*"
    ⟨by simp [sampleChecker], _, List.Mem.head _, List.Mem.head _, rfl, rfl, rfl⟩

end VirtualServices
end Kiali

/-! ## The reach of the two conflict rules -/

namespace Kiali
namespace VirtualServices

open Models Gateways

theorem exists_ne_of_length_gt_one {α : Type} (l : List α) (a : α) (h : l.length > 1)
    (hnd : l.Nodup) : ∃ b ∈ l, b ≠ a := by
  match l, h, hnd with
  | x :: y :: t, _, hnd =>
    have hxy : x ≠ y := by
      intro e
      rw [e] at hnd
      simp at hnd
    by_cases hx : x = a
    · exact ⟨y, by simp, fun e => hxy (hx.trans e.symm)⟩
    · exact ⟨x, by simp, hx⟩

/-- Every call of the second loop of `Check` on the host counter of `Check` is
made for a routing rule that maps to a key, and each of its references maps to a
service of the same gateway, cluster and namespace; the call is made for the
same-service rule, with more than one rule stored at the key, or for the
wildcard rule, with a rule that maps to the service `*` and a rule that maps to
another service of the same gateway, cluster and namespace. -/
theorem call_within_bucket (env : Environment) (ro : RangeOrder) (s : SingleHostChecker)
    (c : IstioObject × List IstioObject) (hc : c ∈ calls ro (buildHostCounter env s)) :
    ∃ gw cluster ns service, mapsTo env s c.1 gw cluster ns service ∧
      (∀ r ∈ c.2, ∃ sv, mapsTo env s r gw cluster ns sv) ∧
      ((storedAt (buildHostCounter env s) gw cluster ns service).length > 1 ∨
        ((∃ wild, mapsTo env s wild gw cluster ns "*") ∧
          ∃ other sv, sv ≠ service ∧ mapsTo env s other gw cluster ns sv)) := by
  have hwell := wellKeyed_buildHostCounter env s
  obtain ⟨g, hg, cl, hcl, n, hn, sv, hsv, hmem, hcond⟩ := (mem_calls ro _ c).mp hc
  obtain ⟨hN, hS⟩ := stored_of_path _ hwell g hg cl hcl n hn sv hsv
  have hstored : ∀ sv2 ∈ n.2, ∀ r ∈ sv2.2, mapsTo env s r g.1 cl.1 n.1 sv2.1 := by
    intro sv2 hsv2 r hr
    rw [(stored_of_path _ hwell g hg cl hcl n hn sv2 hsv2).2] at hr
    exact (mem_storedAt_buildHostCounter env s _ _ _ _ r).mp hr
  refine ⟨g.1, cl.1, n.1, sv.1, hstored sv hsv c.1 hmem, ?_, ?_⟩
  · intro r hr
    rcases hcond with ⟨_, h2⟩ | ⟨_, h2⟩
    · rw [h2] at hr
      exact ⟨sv.1, hstored sv hsv r hr⟩
    · rw [h2] at hr
      obtain ⟨sv2, hsv2, hr2⟩ := List.mem_flatMap.mp hr
      exact ⟨sv2.1, hstored sv2 ((ro.arranges _).mem_iff.mp hsv2) r hr2⟩
  · rcases hcond with ⟨h1, _⟩ | ⟨⟨hw, hlen⟩, _⟩
    · left
      rw [← hS]
      exact h1
    · right
      constructor
      · have hpos : (storedAt (buildHostCounter env s) g.1 cl.1 n.1 "*").length > 0 := by
          unfold storedAt
          rw [← hN]
          exact hw
        obtain ⟨wild, hwild⟩ := List.exists_mem_of_length_pos hpos
        exact ⟨wild, (mem_storedAt_buildHostCounter env s _ _ _ _ wild).mp hwild⟩
      · obtain ⟨_, a1⟩ := hwell
        obtain ⟨_, a2⟩ := a1 g hg
        obtain ⟨_, a3⟩ := a2 cl hcl
        obtain ⟨n4, a4⟩ := a3 n hn
        obtain ⟨sv2, hsv2, hne⟩ := exists_ne_of_length_gt_one n.2 sv hlen (List.Nodup.of_map _ n4)
        obtain ⟨other, hother⟩ := List.exists_mem_of_ne_nil _ (a4 sv2 hsv2)
        refine ⟨other, sv2.1, ?_, hstored sv2 hsv2 other hother⟩
        intro hk
        exact hne (List.inj_on_of_nodup_map n4 hsv2 hsv hk)

/-- C26 (amended): the two conflict rules of `Check` stay within one bucket
(gateway, cluster, namespace). Every key of the graph is the key of a routing
rule that maps to a key at which more than one rule is stored, or to a service
of a bucket in which a rule maps to the service `*` and a rule maps to another
service; and every reference of the graph goes from the key of a routing rule to
the key of a routing rule that maps to a service of the same bucket. -/
theorem conflicts_within_bucket (env : Environment) (ro : RangeOrder) (s : SingleHostChecker) :
    (∀ k ∈ (Check env ro s).map (·.1), ∃ vs gw cluster ns service,
      mapsTo env s vs gw cluster ns service ∧ vsKey vs = k ∧
        ((storedAt (buildHostCounter env s) gw cluster ns service).length > 1 ∨
          ((∃ wild, mapsTo env s wild gw cluster ns "*") ∧
            ∃ other sv, sv ≠ service ∧ mapsTo env s other gw cluster ns sv))) ∧
    (∀ a b, refers (Check env ro s) a b → ∃ vs1 vs2 gw cluster ns sv1 sv2,
      mapsTo env s vs1 gw cluster ns sv1 ∧ mapsTo env s vs2 gw cluster ns sv2 ∧
        vsKey vs1 = a ∧ vsKey vs2 = b) := by
  unfold Check
  constructor
  · intro k hk
    obtain ⟨c, hc, hkc⟩ := (mem_keys_checkHostCounter ro _ k).mp hk
    obtain ⟨gw, cluster, ns, service, h1, _, h3⟩ := call_within_bucket env ro s c hc
    exact ⟨c.1, gw, cluster, ns, service, h1, hkc, h3⟩
  · intro a b hab
    obtain ⟨c, hc, hkc, r, hr, hrb, _⟩ := (refers_checkHostCounter ro _ a b).mp hab
    obtain ⟨gw, cluster, ns, service, h1, h2, _⟩ := call_within_bucket env ro s c hc
    obtain ⟨sv, hsv⟩ := h2 r hr
    exact ⟨c.1, r, gw, cluster, ns, service, sv, h1, hsv, hkc, hrb⟩

end VirtualServices
end Kiali

/-! ## The grouping key and the gateway scope of a routing rule -/

namespace Kiali
namespace VirtualServices

open Models Gateways

theorem length_flatMap_ite_le_one {α : Type} (gw : String) (P : Prop) [Decidable P] (x : α)
    (l : List String) (hnd : l.Nodup) :
    (l.flatMap fun g => if g = gw ∧ P then [x] else []).length ≤ 1 ∧
      (gw ∉ l → (l.flatMap fun g => if g = gw ∧ P then [x] else []) = []) := by
  induction l with
  | nil => simp
  | cons a t ih =>
    simp only [List.nodup_cons] at hnd
    obtain ⟨h1, h2⟩ := ih hnd.2
    constructor
    · by_cases ha : a = gw ∧ P
      · have hgw : gw ∉ t := ha.1 ▸ hnd.1
        rw [List.flatMap_cons, if_pos ha, h2 hgw]
        simp
      · simp only [List.flatMap_cons, if_neg ha, List.nil_append]
        exact h1
    · intro hgw
      simp only [List.mem_cons, not_or] at hgw
      have ha : ¬ (a = gw ∧ P) := fun h => hgw.1 h.1.symm
      simp only [List.flatMap_cons, if_neg ha, List.nil_append]
      exact h2 hgw.2

/-- Two routing rules with one host each, no gateway named twice and disjoint
gateway scopes, alone in the input, are not flagged. -/
theorem disjoint_scopes_not_flagged (env : Environment) (ro : RangeOrder)
    (s : SingleHostChecker) (vs1 vs2 : IstioObject) (host1 host2 : Host)
    (hrules : s.VirtualServices = [vs1, vs2]) (hh1 : getHosts env s vs1 = [host1])
    (hh2 : getHosts env s vs2 = [host2]) (hnd1 : (gatewayScope vs1).Nodup)
    (hnd2 : (gatewayScope vs2).Nodup)
    (hdisj : ∀ g ∈ gatewayScope vs1, g ∉ gatewayScope vs2) : Check env ro s = [] := by
  have hservice : ∀ vs gw cluster ns sv, mapsTo env s vs gw cluster ns sv →
      (vs = vs1 ∧ gw ∈ gatewayScope vs1 ∧ sv = (groupingHost env vs1 host1).Service) ∨
      (vs = vs2 ∧ gw ∈ gatewayScope vs2 ∧ sv = (groupingHost env vs2 host2).Service) := by
    rintro vs gw cluster ns sv ⟨hmem, host, hhost, hg, _, _, hsv⟩
    rw [hrules] at hmem
    simp only [List.mem_cons, List.mem_singleton, List.not_mem_nil, or_false] at hmem
    rcases hmem with e | e
    · subst e
      rw [hh1, List.mem_singleton] at hhost
      subst hhost
      exact Or.inl ⟨rfl, hg, hsv.symm⟩
    · subst e
      rw [hh2, List.mem_singleton] at hhost
      subst hhost
      exact Or.inr ⟨rfl, hg, hsv.symm⟩
  have hnone : ∀ k, k ∉ (Check env ro s).map (·.1) := by
    intro k hk
    unfold Check at hk
    obtain ⟨c, hc, _⟩ := (mem_keys_checkHostCounter ro _ k).mp hk
    obtain ⟨gw, cluster, ns, service, hmaps, _, hcond⟩ := call_within_bucket env ro s c hc
    rcases hcond with hlen | ⟨_, other, sv, hne, hother⟩
    · rw [storedAt_buildHostCounter, hrules] at hlen
      simp only [List.flatMap_cons, List.flatMap_nil, List.append_nil, hh1, hh2,
        List.length_append] at hlen
      obtain ⟨a1, a2⟩ := length_flatMap_ite_le_one gw
        ((groupingHost env vs1 host1).Cluster = cluster ∧
          (groupingHost env vs1 host1).Namespace = ns ∧
          (groupingHost env vs1 host1).Service = service) vs1 _ hnd1
      obtain ⟨b1, b2⟩ := length_flatMap_ite_le_one gw
        ((groupingHost env vs2 host2).Cluster = cluster ∧
          (groupingHost env vs2 host2).Namespace = ns ∧
          (groupingHost env vs2 host2).Service = service) vs2 _ hnd2
      by_cases hg : gw ∈ gatewayScope vs1
      · rw [b2 (hdisj gw hg)] at hlen
        simp only [List.length_nil, Nat.add_zero] at hlen
        omega
      · rw [a2 hg] at hlen
        simp only [List.length_nil, Nat.zero_add] at hlen
        omega
    · rcases hservice _ _ _ _ _ hmaps with ⟨_, g1, e1⟩ | ⟨_, g1, e1⟩ <;>
        rcases hservice _ _ _ _ _ hother with ⟨_, g2, e2⟩ | ⟨_, g2, e2⟩
      · exact hne (e2.trans e1.symm)
      · exact hdisj gw g1 g2
      · exact hdisj gw g2 g1
      · exact hne (e2.trans e1.symm)
  cases hgraph : Check env ro s with
  | nil => rfl
  | cons e t =>
    exact absurd (by rw [hgraph]; simp) (hnone e.1)

/-- C23: a routing rule that names the gateway `bookinfo` twice and a routing
rule without gateway, both on the host `reviews`, have disjoint gateway scopes,
and `Check` returns an entry for the first rule, with two findings and no
reference; with the gateway named once, as in the test
`TestRepeatingSimpleHostWithGateway`, the graph is empty. For every two routing
rules with one host each, no gateway named twice and disjoint gateway scopes,
alone in the input, the graph is empty. -/
theorem duplicate_gateway_flagged :
    (gatewayScope (sampleVirtualServiceWithGateways "virtual-1" ["reviews"]
      ["bookinfo", "bookinfo"]) = ["bookinfo", "bookinfo"] ∧
    gatewayScope (sampleVirtualService "virtual-2" ["reviews"]) = ["no-gateway"] ∧
    Check Environment.sample RangeOrder.insertion
      (sampleChecker
        [sampleVirtualServiceWithGateways "virtual-1" ["reviews"] ["bookinfo", "bookinfo"],
         sampleVirtualService "virtual-2" ["reviews"]]) =
      [({ ObjectType := "virtualservice", Namespace := "bookinfo", Name := "virtual-1" },
        { Name := "virtual-1", ObjectType := "virtualservice", Valid := true,
          Checks := [Build "virtualservices.singlehost" "spec/hosts",
            Build "virtualservices.singlehost" "spec/hosts"],
          References := [] })] ∧
    Check Environment.sample RangeOrder.insertion
      (sampleChecker
        [sampleVirtualServiceWithGateways "virtual-1" ["reviews"] ["bookinfo"],
         sampleVirtualService "virtual-2" ["reviews"]]) = [] ∧
    Check Environment.sample RangeOrder.insertion
      (sampleChecker
        [sampleVirtualService "virtual-1" ["reviews"],
         sampleVirtualServiceWithGateways "virtual-2" ["reviews"] ["bookinfo"]]) = []) ∧
    ∀ (env : Environment) (ro : RangeOrder) (s : SingleHostChecker) (vs1 vs2 : IstioObject)
      (host1 host2 : Host),
      s.VirtualServices = [vs1, vs2] → getHosts env s vs1 = [host1] →
      getHosts env s vs2 = [host2] → (gatewayScope vs1).Nodup → (gatewayScope vs2).Nodup →
      (∀ g ∈ gatewayScope vs1, g ∉ gatewayScope vs2) → Check env ro s = [] :=
  ⟨by decide, disjoint_scopes_not_flagged⟩

/-- C26 fails as stated: a routing rule with the service `*` stored under the
gateway `g1` and a routing rule with the service `reviews` of the same namespace
stored under the gateway `g2` alone are not flagged; `Check` returns the empty
graph. -/
theorem wildcard_other_gateway_not_flagged :
    (storedAt (buildHostCounter Environment.sample
        (sampleChecker [sampleVirtualServiceWithGateways "virtual-1" ["*"] ["g1"],
          sampleVirtualServiceWithGateways "virtual-2" ["reviews"] ["g2"]]))
      "g1" "svc.cluster.local" "bookinfo" "*").map (·.Name) = ["virtual-1"] ∧
    (storedAt (buildHostCounter Environment.sample
        (sampleChecker [sampleVirtualServiceWithGateways "virtual-1" ["*"] ["g1"],
          sampleVirtualServiceWithGateways "virtual-2" ["reviews"] ["g2"]]))
      "g2" "svc.cluster.local" "bookinfo" "reviews").map (·.Name) = ["virtual-2"] ∧
    (storedAt (buildHostCounter Environment.sample
        (sampleChecker [sampleVirtualServiceWithGateways "virtual-1" ["*"] ["g1"],
          sampleVirtualServiceWithGateways "virtual-2" ["reviews"] ["g2"]]))
      "g1" "svc.cluster.local" "bookinfo" "reviews").map (·.Name) = [] ∧
    Check Environment.sample RangeOrder.insertion
      (sampleChecker [sampleVirtualServiceWithGateways "virtual-1" ["*"] ["g1"],
        sampleVirtualServiceWithGateways "virtual-2" ["reviews"] ["g2"]]) = [] ∧
    Check Environment.sample RangeOrder.reversed
      (sampleChecker [sampleVirtualServiceWithGateways "virtual-1" ["*"] ["g1"],
        sampleVirtualServiceWithGateways "virtual-2" ["reviews"] ["g2"]]) = [] := by
  decide

/-- C27 fails as stated: a routing rule of the cluster `east` whose host is
resolved with `CompleteInput = false` and the cluster `east` is stored under the
identity domain `svc.cluster.local`, and nothing is stored under `east`. -/
theorem storeHost_not_rule_cluster :
    getHosts Environment.sample
        (sampleChecker [{ sampleVirtualService "virtual-1" ["reviews"] with ClusterName := "east" }])
        { sampleVirtualService "virtual-1" ["reviews"] with ClusterName := "east" } =
      [{ Service := "reviews", Namespace := "bookinfo", Cluster := "east",
         CompleteInput := false }] ∧
    (storedAt (buildHostCounter Environment.sample
        (sampleChecker [{ sampleVirtualService "virtual-1" ["reviews"] with ClusterName := "east" }]))
      "no-gateway" "east" "bookinfo" "reviews").map (·.Name) = [] ∧
    (storedAt (buildHostCounter Environment.sample
        (sampleChecker [{ sampleVirtualService "virtual-1" ["reviews"] with ClusterName := "east" }]))
      "no-gateway" "svc.cluster.local" "bookinfo" "reviews").map (·.Name) = ["virtual-1"] := by
  decide

/-- C27 (amended): `storeHost` stores the routing rule, for every gateway of its
scope, under the service of the resolved host and, when `CompleteInput` is
false, under the configured identity domain as cluster and the namespace of the
rule; when `CompleteInput` is true, under the cluster and the namespace of the
resolved host. Nothing else of the host counter changes. -/
theorem storeHost_grouping_key (env : Environment) (hostCounter : HostCounter)
    (vs : IstioObject) (host : Host) (gw cluster ns service : String) :
    storedAt (storeHost env hostCounter vs host) gw cluster ns service =
      storedAt hostCounter gw cluster ns service ++
        (gatewayScope vs).flatMap fun g =>
          if g = gw ∧
              (if host.CompleteInput = true then host.Cluster else env.istioIdentityDomain) =
                cluster ∧
              (if host.CompleteInput = true then host.Namespace else vs.Namespace) = ns ∧
              host.Service = service then [vs] else [] := by
  rw [storedAt_storeHost]
  unfold groupingHost
  cases h : host.CompleteInput <;> simp

end VirtualServices
end Kiali

/-! ## The order of iteration over the maps of the routing-rule host grouper -/

namespace Kiali
namespace VirtualServices

open Models Gateways

/-- A call made under one order of iteration is made under every other order,
for the same routing rule and with the same references up to their order. -/
theorem calls_order (ro1 ro2 : RangeOrder) (hostCounter : HostCounter)
    (c : IstioObject × List IstioObject) (hc : c ∈ calls ro1 hostCounter) :
    ∃ c2 ∈ calls ro2 hostCounter, c2.1 = c.1 ∧ ∀ r, r ∈ c.2 ↔ r ∈ c2.2 := by
  obtain ⟨g, hg, cl, hcl, n, hn, sv, hsv, hmem, hcond⟩ := (mem_calls ro1 _ c).mp hc
  rcases hcond with ⟨h1, h2⟩ | ⟨h1, h2⟩
  · exact ⟨c, (mem_calls ro2 _ c).mpr ⟨g, hg, cl, hcl, n, hn, sv, hsv, hmem, Or.inl ⟨h1, h2⟩⟩,
      rfl, fun _ => Iff.rfl⟩
  · refine ⟨(c.1, (ro2.order n.2).flatMap fun serviceCounter => serviceCounter.2),
      (mem_calls ro2 _ _).mpr ⟨g, hg, cl, hcl, n, hn, sv, hsv, hmem, Or.inr ⟨h1, rfl⟩⟩, rfl, ?_⟩
    intro r
    rw [h2]
    simp only [List.mem_flatMap, (ro1.arranges _).mem_iff, (ro2.arranges _).mem_iff]

theorem map_serviceCalls (ro : RangeOrder) (namespaceCounter : List (String × List IstioObject))
    (serviceCounter : List IstioObject) :
    (serviceCalls ro namespaceCounter serviceCounter).map (fun c => vsKey c.1) =
      serviceCounter.flatMap fun virtualService =>
        (if serviceCounter.length > 1 then [vsKey virtualService] else []) ++
        (if ((namespaceCounter.lookup "*").getD []).length > 0 ∧ namespaceCounter.length > 1 then
          [vsKey virtualService] else []) := by
  unfold serviceCalls
  rw [List.map_flatMap]
  congr 1
  funext virtualService
  by_cases h1 : serviceCounter.length > 1 <;>
    by_cases h2 : ((namespaceCounter.lookup "*").getD []).length > 0 ∧
      namespaceCounter.length > 1 <;>
    simp [h1, h2]

theorem perm_flatMap {α β : Type} {l1 l2 : List α} {f g : α → List β} (hl : l1.Perm l2)
    (hfg : ∀ a ∈ l1, (f a).Perm (g a)) : (l1.flatMap f).Perm (l2.flatMap g) :=
  (List.Perm.flatMap_left l1 hfg).trans (List.Perm.flatMap_right g hl)

theorem order_perm (ro1 ro2 : RangeOrder) {α : Type} (m : List (String × α)) :
    (ro1.order m).Perm (ro2.order m) :=
  (ro1.arranges m).trans (ro2.arranges m).symm

/-- The keys for which the calls are made are the same under every order of
iteration, each as many times. -/
theorem keys_calls_perm (ro1 ro2 : RangeOrder) (hostCounter : HostCounter) :
    ((calls ro1 hostCounter).map fun c => vsKey c.1).Perm
      ((calls ro2 hostCounter).map fun c => vsKey c.1) := by
  unfold calls
  simp only [List.map_flatMap, map_serviceCalls]
  refine perm_flatMap (order_perm ro1 ro2 _) fun g _ => ?_
  refine perm_flatMap (order_perm ro1 ro2 _) fun cl _ => ?_
  refine perm_flatMap (order_perm ro1 ro2 _) fun n _ => ?_
  exact perm_flatMap (order_perm ro1 ro2 _) fun sv _ => List.Perm.refl _

theorem flatMap_if_eq_replicate {α β : Type} [DecidableEq α] (k : α) (c : β) (l : List α) :
    (l.flatMap fun key => if key = k then [c] else []) = List.replicate (l.count k) c := by
  induction l with
  | nil => rfl
  | cons a t ih =>
    by_cases h : a = k
    · subst h
      simp [List.flatMap_cons, ih, List.replicate_succ]
    · have hb : (a == k) = false := by simpa using h
      simp [List.flatMap_cons, ih, h, List.count_cons, hb]

theorem checksOf_of_mem (iv : IstioValidations) (hnd : (iv.map (·.1)).Nodup)
    (k : IstioValidationKey) (v : IstioValidation) (h : (k, v) ∈ iv) :
    checksOf iv k = v.Checks := by
  induction iv with
  | nil => simp at h
  | cons e t ih =>
    simp only [List.map_cons, List.nodup_cons] at hnd
    rcases List.mem_cons.mp h with h1 | h1
    · rw [← h1]
      simp [checksOf]
    · have hne : ¬ e.1 = k := by
        intro hk
        exact hnd.1 (List.mem_map.mpr ⟨(k, v), h1, hk.symm⟩)
      simp only [checksOf, hne, if_false]
      exact ih hnd.2 h1

theorem names_mergeOne (iv : IstioValidations) (key : IstioValidationKey)
    (validation : IstioValidation) (hiv : ∀ e ∈ iv, e.2.Name = e.1.Name)
    (hv : validation.Name = key.Name) :
    ∀ e ∈ mergeOne iv key validation, e.2.Name = e.1.Name := by
  intro e he
  unfold mergeOne at he
  split_ifs at he
  · obtain ⟨e0, he0, rfl⟩ := List.mem_map.mp he
    by_cases hk : e0.1 = key
    · rw [if_pos hk]
      exact hiv e0 he0
    · rw [if_neg hk]
      exact hiv e0 he0
  · rcases List.mem_append.mp he with h | h
    · exact hiv e h
    · rw [List.mem_singleton.mp h]
      exact hv

theorem names_checkHostCounter (ro : RangeOrder) (hostCounter : HostCounter) :
    ∀ e ∈ checkHostCounter ro hostCounter, e.2.Name = e.1.Name := by
  rw [checkHostCounter_eq_calls]
  refine foldl_invariant (fun iv : IstioValidations => ∀ e ∈ iv, e.2.Name = e.1.Name) _ _ ?_ _
    (fun e he => by simp at he)
  intro v c _ hv
  rw [multipleVirtualServiceCheck_eq]
  exact names_mergeOne v _ _ hv rfl

/-- The graphs that `Check` returns under two orders of iteration over its maps
have the same keys, and the entries of a key have the same name, object type,
`Valid` flag and findings, and the same references up to their order. -/
theorem Check_order_entries (env : Environment) (ro1 ro2 : RangeOrder) (s : SingleHostChecker) :
    (∀ k, k ∈ (Check env ro1 s).map (·.1) ↔ k ∈ (Check env ro2 s).map (·.1)) ∧
    ∀ k v1 v2, (k, v1) ∈ Check env ro1 s → (k, v2) ∈ Check env ro2 s →
      v1.Name = v2.Name ∧ v1.ObjectType = v2.ObjectType ∧ v1.Valid = v2.Valid ∧
        v1.Checks = v2.Checks ∧ ∀ r, r ∈ v1.References ↔ r ∈ v2.References := by
  unfold Check
  have hkeys : ∀ (roa rob : RangeOrder) (k : IstioValidationKey),
      k ∈ (checkHostCounter roa (buildHostCounter env s)).map (·.1) →
        k ∈ (checkHostCounter rob (buildHostCounter env s)).map (·.1) := by
    intro roa rob k hk
    obtain ⟨c, hc, hkc⟩ := (mem_keys_checkHostCounter roa _ k).mp hk
    obtain ⟨c2, hc2, h1, _⟩ := calls_order roa rob _ c hc
    exact (mem_keys_checkHostCounter rob _ k).mpr ⟨c2, hc2, by rw [h1]; exact hkc⟩
  have hrefs : ∀ (roa rob : RangeOrder) (a b : IstioValidationKey),
      refers (checkHostCounter roa (buildHostCounter env s)) a b →
        refers (checkHostCounter rob (buildHostCounter env s)) a b := by
    intro roa rob a b hab
    obtain ⟨c, hc, hkc, r, hr, hrb, hne⟩ := (refers_checkHostCounter roa _ a b).mp hab
    obtain ⟨c2, hc2, h1, h2⟩ := calls_order roa rob _ c hc
    exact (refers_checkHostCounter rob _ a b).mpr
      ⟨c2, hc2, by rw [h1]; exact hkc, r, (h2 r).mp hr, hrb, hne⟩
  refine ⟨fun k => ⟨hkeys ro1 ro2 k, hkeys ro2 ro1 k⟩, ?_⟩
  intro k v1 v2 h1 h2
  have n1 := nodup_keys_checkHostCounter ro1 (buildHostCounter env s)
  have n2 := nodup_keys_checkHostCounter ro2 (buildHostCounter env s)
  obtain ⟨a1, a2, _⟩ := checkHostCounter_entries ro1 _ _ h1
  obtain ⟨b1, b2, _⟩ := checkHostCounter_entries ro2 _ _ h2
  have hname1 := names_checkHostCounter ro1 _ _ h1
  have hname2 := names_checkHostCounter ro2 _ _ h2
  refine ⟨hname1.trans hname2.symm, a2.trans b2.symm, a1.trans b1.symm, ?_, ?_⟩
  · rw [← checksOf_of_mem _ n1 k v1 h1, ← checksOf_of_mem _ n2 k v2 h2,
      checksOf_checkHostCounter, checksOf_checkHostCounter, flatMap_if_eq_replicate,
      flatMap_if_eq_replicate, (keys_calls_perm ro1 ro2 _).count_eq]
  · intro r
    constructor
    · intro hr
      obtain ⟨w, hw, hrw⟩ := hrefs ro1 ro2 k r ⟨v1, h1, hr⟩
      rw [entry_unique _ n2 k v2 w h2 hw]
      exact hrw
    · intro hr
      obtain ⟨w, hw, hrw⟩ := hrefs ro2 ro1 k r ⟨v2, h2, hr⟩
      rw [entry_unique _ n1 k v1 w h1 hw]
      exact hrw

end VirtualServices
end Kiali

/-! ## The order of iteration over the selector map of the gateway checker -/

namespace Kiali
namespace Gateways

open Models GoLib

theorem foldlM_skip_groups (host : Host) (selector : String) :
    ∀ (groups : List (String × List Host)) (_ : ∀ e ∈ groups, e.1 ≠ selector)
      (duplicates : List Host),
      groups.foldlM
        (fun (duplicates : List Host) (group : String × List Host) =>
          if group.1 ≠ selector then some duplicates
          else findDuplicates host group.2 duplicates) duplicates = some duplicates := by
  intro groups
  induction groups with
  | nil => intro _ duplicates; rfl
  | cons e t ih =>
    intro h duplicates
    have he : e.1 ≠ selector := h e (by simp)
    rw [List.foldlM_cons, if_pos he]
    exact ih (fun x hx => h x (by simp [hx])) duplicates

/-- The loop of `findMatch` over a map that holds each selector once, in any
order of its entries, is the loop over the bindings of the one selector. -/
theorem foldlM_selector_groups (host : Host) (selector : String) :
    ∀ (groups : List (String × List Host)) (_ : (groups.map (·.1)).Nodup)
      (duplicates : List Host),
      groups.foldlM
        (fun (duplicates : List Host) (group : String × List Host) =>
          if group.1 ≠ selector then some duplicates
          else findDuplicates host group.2 duplicates) duplicates =
        findDuplicates host (VirtualServices.mapIndex groups selector) duplicates := by
  intro groups
  induction groups with
  | nil => intro _ duplicates; rfl
  | cons e t ih =>
    intro hnd duplicates
    obtain ⟨k0, grp⟩ := e
    simp only [List.map_cons, List.nodup_cons] at hnd
    rw [List.foldlM_cons]
    by_cases hk : k0 = selector
    · subst hk
      have hskip : ∀ x ∈ t, x.1 ≠ k0 := by
        intro x hx hxk
        exact hnd.1 (List.mem_map.mpr ⟨x, hx, hxk⟩)
      have hidx : VirtualServices.mapIndex ((k0, grp) :: t) k0 = grp := by
        simp [VirtualServices.mapIndex, List.lookup]
      rw [hidx]
      simp only [ne_eq, not_true_eq_false, if_false]
      cases hr : findDuplicates host grp duplicates with
      | none => rfl
      | some d => exact foldlM_skip_groups host k0 t hskip d
    · have hb : (selector == k0) = false := by
        simp only [beq_eq_false_iff_ne, ne_eq]
        exact fun x => hk x.symm
      have hidx : VirtualServices.mapIndex ((k0, grp) :: t) selector =
          VirtualServices.mapIndex t selector := by
        simp [VirtualServices.mapIndex, List.lookup, hb]
      rw [hidx, if_pos hk]
      exact ih hnd.2 duplicates

theorem mapIndex_perm {α : Type} (l1 l2 : List (String × List α)) (hp : l1.Perm l2)
    (hnd : (l1.map (·.1)).Nodup) (key : String) :
    VirtualServices.mapIndex l1 key = VirtualServices.mapIndex l2 key := by
  have hnd2 : (l2.map (·.1)).Nodup := (hp.map _).nodup_iff.mp hnd
  by_cases hany : (l1.any fun e => decide (e.1 = key)) = true
  · obtain ⟨e, he, hk⟩ := List.any_eq_true.mp hany
    have hk' : e.1 = key := by simpa using hk
    rw [← hk', VirtualServices.mapIndex_of_mem l1 hnd e he,
      VirtualServices.mapIndex_of_mem l2 hnd2 e (hp.mem_iff.mp he)]
  · have hany2 : ¬ (l2.any fun e => decide (e.1 = key)) = true := by
      intro h2
      obtain ⟨e, he, hk⟩ := List.any_eq_true.mp h2
      exact hany (List.any_eq_true.mpr ⟨e, hp.mem_iff.mpr he, hk⟩)
    unfold VirtualServices.mapIndex
    rw [VirtualServices.lookup_of_not_any key l1 hany,
      VirtualServices.lookup_of_not_any key l2 hany2]

/-- The loop of `findMatch` over the map `m.existingList` gives the same result in
every order of iteration: the result of the loop over the bindings of the
selector. -/
theorem findMatchRange_eq (ro : VirtualServices.RangeOrder)
    (existingList : List (String × List Host)) (hnd : (existingList.map (·.1)).Nodup)
    (host : Host) (selector : String) :
    findMatchRange ro existingList host selector =
      findMatch (fun sel => VirtualServices.mapIndex existingList sel) host selector := by
  unfold findMatchRange findMatch
  have hp := ro.arranges existingList
  have hnd2 : ((ro.order existingList).map (·.1)).Nodup := (hp.map _).nodup_iff.mpr hnd
  rw [foldlM_selector_groups host selector _ hnd2 [], mapIndex_perm _ _ hp hnd2 selector]

theorem sameResult_foldlM {σ τ α : Type} (R : σ → τ → Prop) (f : σ → α → Option σ)
    (g : τ → α → Option τ) (l : List α)
    (h : ∀ s t, R s t → ∀ a ∈ l, sameResult R (f s a) (g t a)) :
    ∀ s t, R s t → sameResult R (l.foldlM f s) (l.foldlM g t) := by
  induction l with
  | nil => intro s t hst; exact hst
  | cons a rest ih =>
    intro s t hst
    rw [List.foldlM_cons, List.foldlM_cons]
    have ha := h s t hst a (by simp)
    cases hf : f s a with
    | none =>
      cases hg : g t a with
      | none => trivial
      | some t2 => rw [hf, hg] at ha; exact ha.elim
    | some s2 =>
      cases hg : g t a with
      | none => rw [hf, hg] at ha; exact ha.elim
      | some t2 =>
        rw [hf, hg] at ha
        exact ih (fun s t hst a ha => h s t hst a (by simp [ha])) s2 t2 ha

theorem sameState_checkHost (ro : VirtualServices.RangeOrder) (sel : String) (st : RangeState)
    (st2 : CheckState) (h : sameState st st2) (host : Host) :
    sameResult sameState (checkHostRange ro sel st host) (checkHost sel st2 host) := by
  obtain ⟨hv, hnd, hidx⟩ := h
  unfold checkHostRange checkHost
  have hfun : (fun s => VirtualServices.mapIndex st.existingList s) = st2.existingList :=
    funext hidx
  rw [findMatchRange_eq ro st.existingList hnd host sel, hfun]
  cases hm : findMatch st2.existingList host sel with
  | none => trivial
  | some r =>
    obtain ⟨duplicate, dhosts⟩ := r
    refine ⟨?_, ?_, ?_⟩
    · simp only [hv]
    · exact (VirtualServices.keyed_mapUpsert (fun _ => True) st.existingList sel [host]
        (fun l => l ++ [host]) ⟨hnd, fun _ _ => trivial⟩ trivial (fun _ _ => trivial)).1
    · intro s
      show VirtualServices.mapIndex
        (VirtualServices.mapUpsert st.existingList sel [host] fun l => l ++ [host]) s = _
      rw [VirtualServices.mapIndex_mapUpsert _ _ _ _ _ (by rfl)]
      by_cases hs : s = sel
      · simp only [hs, if_true]
        rw [hidx sel]
      · simp only [hs, if_false]
        exact hidx s

theorem sameState_checkGateway (ext : External) (ro : VirtualServices.RangeOrder)
    (st : RangeState) (st2 : CheckState) (h : sameState st st2) (g : IstioObject) :
    sameResult sameState (checkGatewayRange ext ro st g) (checkGateway ext st2 g) := by
  unfold checkGatewayRange checkGateway
  cases hsel : selectorString ext g with
  | none => trivial
  | some sel =>
    dsimp only
    split
    · rename_i servers _
      refine sameResult_foldlM sameState _ _ _ ?_ st st2 h
      intro s t hst idef _
      exact sameResult_foldlM sameState _ _ _
        (fun s t hst host _ => sameState_checkHost ro sel s t hst host) s t hst
    · exact h

/-- The graph that `Check` returns does not depend on the order in which
`findMatch` visits the entries of the map `m.existingList`. -/
theorem CheckRange_eq_Check (ext : External) (ro : VirtualServices.RangeOrder)
    (GatewaysPerNamespace : List (List IstioObject)) :
    CheckRange ext ro GatewaysPerNamespace = Check ext GatewaysPerNamespace := by
  unfold CheckRange Check
  have hstart : sameState { validations := [], existingList := [] }
      { validations := [], existingList := fun _ => [] } :=
    ⟨rfl, by simp, fun _ => rfl⟩
  have h := sameResult_foldlM sameState
    (fun (st : RangeState) (nsG : List IstioObject) => nsG.foldlM (checkGatewayRange ext ro) st)
    (fun (st : CheckState) (nsG : List IstioObject) => nsG.foldlM (checkGateway ext) st)
    GatewaysPerNamespace
    (fun s t hst nsG _ => sameResult_foldlM sameState _ _ _
      (fun s t hst g _ => sameState_checkGateway ext ro s t hst g) s t hst)
    _ _ hstart
  dsimp only
  revert h
  generalize List.foldlM (fun (st : RangeState) (nsG : List IstioObject) =>
    nsG.foldlM (checkGatewayRange ext ro) st) _ GatewaysPerNamespace = r1
  generalize List.foldlM (fun (st : CheckState) (nsG : List IstioObject) =>
    nsG.foldlM (checkGateway ext) st) _ GatewaysPerNamespace = r2
  intro h
  match r1, r2, h with
  | none, none, _ => rfl
  | some s, some t, h => exact congrArg some h.1

end Gateways
end Kiali

/-! ## Two runs of a checker on the same input -/

namespace Kiali
namespace VirtualServices

open Models Gateways

/-- C28 fails as stated: on the routing rules `virtual-1` of the host `*`,
`virtual-2` of the host `reviews` and `virtual-3` of the host `ratings`, the
entry of `virtual-1` lists its two references in one order when the maps are
visited in the order of insertion and in the other order when they are visited
in the reverse order. -/
theorem Check_reference_order_differs :
    ((Check Environment.sample RangeOrder.insertion
        (sampleChecker [sampleVirtualService "virtual-1" ["*"],
          sampleVirtualService "virtual-2" ["reviews"],
          sampleVirtualService "virtual-3" ["ratings"]])).lookup
        { ObjectType := "virtualservice", Namespace := "bookinfo", Name := "virtual-1" }).map
      (fun v => v.References.map (·.Name)) = some ["virtual-2", "virtual-3"] ∧
    ((Check Environment.sample RangeOrder.reversed
        (sampleChecker [sampleVirtualService "virtual-1" ["*"],
          sampleVirtualService "virtual-2" ["reviews"],
          sampleVirtualService "virtual-3" ["ratings"]])).lookup
        { ObjectType := "virtualservice", Namespace := "bookinfo", Name := "virtual-1" }).map
      (fun v => v.References.map (·.Name)) = some ["virtual-3", "virtual-2"] := by
  decide

/-- C28 (amended): two runs of a checker on the same input return the same
graph up to the order of the reference lists. The graph of the gateway checker
does not depend on the order in which `findMatch` visits the selector map. The
graphs of the routing-rule checker under two orders of iteration over its maps
have the same keys, and the two entries of a key have the same name, object
type, `Valid` flag and list of findings, and the same references as a set. -/
theorem Check_same_up_to_reference_order :
    (∀ (ext : External) (ro : RangeOrder) (gws : List (List IstioObject)),
      Gateways.CheckRange ext ro gws = Gateways.Check ext gws) ∧
    (∀ (env : Environment) (ro1 ro2 : RangeOrder) (s : SingleHostChecker),
      (∀ k, k ∈ (Check env ro1 s).map (·.1) ↔ k ∈ (Check env ro2 s).map (·.1)) ∧
      ∀ k v1 v2, (k, v1) ∈ Check env ro1 s → (k, v2) ∈ Check env ro2 s →
        v1.Name = v2.Name ∧ v1.ObjectType = v2.ObjectType ∧ v1.Valid = v2.Valid ∧
          v1.Checks = v2.Checks ∧ ∀ r, r ∈ v1.References ↔ r ∈ v2.References) :=
  ⟨Gateways.CheckRange_eq_Check, Check_order_entries⟩

theorem Check_same_up_to_reference_order_witness :
    Gateways.CheckRange External.sample RangeOrder.reversed
        [[sampleGateway "validgateway" "test" "real" 80 ["valid"]],
         [sampleGateway "stillvalid" "bookinfo" "real" 80 ["valid"]]] =
      Gateways.Check External.sample
        [[sampleGateway "validgateway" "test" "real" 80 ["valid"]],
         [sampleGateway "stillvalid" "bookinfo" "real" 80 ["valid"]]] ∧
    ∃ v1 v2,
      (vsKey (sampleVirtualService "virtual-1" ["*"]), v1) ∈
        Check Environment.sample RangeOrder.insertion
          (sampleChecker [sampleVirtualService "virtual-1" ["*"],
            sampleVirtualService "virtual-2" ["reviews"],
            sampleVirtualService "virtual-3" ["ratings"]]) ∧
      (vsKey (sampleVirtualService "virtual-1" ["*"]), v2) ∈
        Check Environment.sample RangeOrder.reversed
          (sampleChecker [sampleVirtualService "virtual-1" ["*"],
            sampleVirtualService "virtual-2" ["reviews"],
            sampleVirtualService "virtual-3" ["ratings"]]) ∧
      v1.References ≠ v2.References ∧
      (v1.Name = v2.Name ∧ v1.ObjectType = v2.ObjectType ∧ v1.Valid = v2.Valid ∧
        v1.Checks = v2.Checks ∧ ∀ r, r ∈ v1.References ↔ r ∈ v2.References) :=
  ⟨Check_same_up_to_reference_order.1 External.sample RangeOrder.reversed _,
    { Name := "virtual-1", ObjectType := "virtualservice", Valid := true,
      Checks := [Build "virtualservices.singlehost" "spec/hosts"],
      References :=
        [{ ObjectType := "virtualservice", Namespace := "bookinfo", Name := "virtual-2" },
         { ObjectType := "virtualservice", Namespace := "bookinfo", Name := "virtual-3" }] },
    { Name := "virtual-1", ObjectType := "virtualservice", Valid := true,
      Checks := [Build "virtualservices.singlehost" "spec/hosts"],
      References :=
        [{ ObjectType := "virtualservice", Namespace := "bookinfo", Name := "virtual-3" },
         { ObjectType := "virtualservice", Namespace := "bookinfo", Name := "virtual-2" }] },
    by decide, by decide, by decide,
    (Check_same_up_to_reference_order.2 Environment.sample RangeOrder.insertion
      RangeOrder.reversed
      (sampleChecker [sampleVirtualService "virtual-1" ["*"],
        sampleVirtualService "virtual-2" ["reviews"],
        sampleVirtualService "virtual-3" ["ratings"]])).2
      (vsKey (sampleVirtualService "virtual-1" ["*"])) _ _ (by decide) (by decide)⟩

end VirtualServices
end Kiali

/-! ## The mesh-scoped policies of the disabled-by-routing-policy check -/

namespace Kiali
namespace DestinationRules

open Models Gateways

theorem checkPeerAuthentications_none (k : Kubernetes) (validations : List IstioCheck)
    (l : List IstioObject) (h : ∀ p ∈ l, (k.PeerAuthnHasMTLSEnabled p).1 = false) :
    checkPeerAuthentications k validations l = none := by
  induction l with
  | nil => rfl
  | cons p t ih =>
    have hp : (k.PeerAuthnHasMTLSEnabled p).1 = false := h p (by simp)
    simp only [checkPeerAuthentications, hp]
    exact ih (fun q hq => h q (by simp [hq]))

theorem checkMeshPeerAuthentications_strict (k : Kubernetes) (validations : List IstioCheck)
    (l : List IstioObject) (h : ∃ mp ∈ l, k.PeerAuthnHasStrictMTLS mp = true) :
    checkMeshPeerAuthentications k validations l =
      some (validations ++
        [Build "destinationrules.mtls.meshpolicymtlsenabled" "spec/trafficPolicy/tls/mode"],
        false) := by
  induction l with
  | nil => simp at h
  | cons p t ih =>
    by_cases hp : k.PeerAuthnHasStrictMTLS p = true
    · simp only [checkMeshPeerAuthentications, hp, if_true]
    · obtain ⟨mp, hmp, hs⟩ := h
      have hmem : mp ∈ t := by
        rcases List.mem_cons.mp hmp with e | e
        · exact absurd (e ▸ hs) hp
        · exact e
      simp only [checkMeshPeerAuthentications, hp]
      exact ih ⟨mp, hmem, hs⟩

theorem checkMeshPeerAuthentications_none (k : Kubernetes) (validations : List IstioCheck)
    (l : List IstioObject) (h : ¬ ∃ mp ∈ l, k.PeerAuthnHasStrictMTLS mp = true) :
    checkMeshPeerAuthentications k validations l = none := by
  induction l with
  | nil => rfl
  | cons p t ih =>
    have hp : ¬ k.PeerAuthnHasStrictMTLS p = true := fun hs => h ⟨p, by simp, hs⟩
    simp only [checkMeshPeerAuthentications, hp]
    exact ih (fun ⟨mp, hmp, hs⟩ => h ⟨mp, by simp [hmp], hs⟩)

/-- C31: when the traffic-routing policy sets the namespace-wide mode `DISABLE`
and no namespace-scoped authentication policy has the flag of a defined mode
that `Check` tests, `Check` returns exactly the one finding
`destinationrules.mtls.meshpolicymtlsenabled` at `spec/trafficPolicy/tls/mode`
and `false` if and only if some mesh-scoped authentication policy is strict, and
otherwise no finding and `true`. -/
theorem Check_no_namespace_policy (k : Kubernetes) (m : DisabledNamespaceWideMTLSChecker)
    (hdr : (k.DestinationRuleHasNamespaceWideMTLSEnabled m.DestinationRule.Namespace
      m.DestinationRule).2 = "DISABLE")
    (hnone : ∀ p ∈ m.MTLSDetails.PeerAuthentications, (k.PeerAuthnHasMTLSEnabled p).1 = false) :
    (m.Check k =
        ([{ Message := "destinationrules.mtls.meshpolicymtlsenabled"
            Severity := SeverityLevel.ErrorSeverity
            Path := "spec/trafficPolicy/tls/mode" }], false) ↔
      ∃ mp ∈ m.MTLSDetails.MeshPeerAuthentications, k.PeerAuthnHasStrictMTLS mp = true) ∧
    ((¬ ∃ mp ∈ m.MTLSDetails.MeshPeerAuthentications, k.PeerAuthnHasStrictMTLS mp = true) →
      m.Check k = ([], true)) := by
  have hstrict : (∃ mp ∈ m.MTLSDetails.MeshPeerAuthentications,
      k.PeerAuthnHasStrictMTLS mp = true) → m.Check k =
        ([{ Message := "destinationrules.mtls.meshpolicymtlsenabled"
            Severity := SeverityLevel.ErrorSeverity
            Path := "spec/trafficPolicy/tls/mode" }], false) := by
    intro h
    unfold DisabledNamespaceWideMTLSChecker.Check
    simp only [hdr, ne_eq, not_true_eq_false, if_false,
      checkPeerAuthentications_none k [] _ hnone,
      checkMeshPeerAuthentications_strict k [] _ h]
    rfl
  have hnot : (¬ ∃ mp ∈ m.MTLSDetails.MeshPeerAuthentications,
      k.PeerAuthnHasStrictMTLS mp = true) → m.Check k = ([], true) := by
    intro h
    unfold DisabledNamespaceWideMTLSChecker.Check
    simp only [hdr, ne_eq, not_true_eq_false, if_false,
      checkPeerAuthentications_none k [] _ hnone,
      checkMeshPeerAuthentications_none k [] _ h]
  refine ⟨⟨?_, hstrict⟩, hnot⟩
  intro hres
  by_contra hno
  rw [hnot hno] at hres
  simp at hres

theorem Check_no_namespace_policy_witness :
    (DisabledNamespaceWideMTLSChecker.Check Kubernetes.sample
        { DestinationRule := sampleObject "disable-mtls" "bookinfo" "DISABLE"
          MTLSDetails :=
            { PeerAuthentications := [sampleObject "off" "bookinfo" "DISABLE"]
              MeshPeerAuthentications :=
                [sampleObject "first" "istio-system" "PERMISSIVE",
                 sampleObject "default" "istio-system" "STRICT"] } } =
      ([{ Message := "destinationrules.mtls.meshpolicymtlsenabled"
          Severity := SeverityLevel.ErrorSeverity
          Path := "spec/trafficPolicy/tls/mode" }], false) ↔
      ∃ mp ∈ [sampleObject "first" "istio-system" "PERMISSIVE",
          sampleObject "default" "istio-system" "STRICT"],
        Kubernetes.sample.PeerAuthnHasStrictMTLS mp = true) ∧
    DisabledNamespaceWideMTLSChecker.Check Kubernetes.sample
        { DestinationRule := sampleObject "disable-mtls" "bookinfo" "DISABLE"
          MTLSDetails :=
            { PeerAuthentications := [sampleObject "off" "bookinfo" "DISABLE"]
              MeshPeerAuthentications :=
                [sampleObject "first" "istio-system" "PERMISSIVE",
                 sampleObject "default" "istio-system" "STRICT"] } } =
      ([{ Message := "destinationrules.mtls.meshpolicymtlsenabled"
          Severity := SeverityLevel.ErrorSeverity
          Path := "spec/trafficPolicy/tls/mode" }], false) ∧
    DisabledNamespaceWideMTLSChecker.Check Kubernetes.sample
        { DestinationRule := sampleObject "disable-mtls" "bookinfo" "DISABLE"
          MTLSDetails :=
            { MeshPeerAuthentications := [sampleObject "default" "istio-system" "PERMISSIVE"] } } =
      ([], true) :=
  ⟨(Check_no_namespace_policy Kubernetes.sample
      { DestinationRule := sampleObject "disable-mtls" "bookinfo" "DISABLE"
        MTLSDetails :=
          { PeerAuthentications := [sampleObject "off" "bookinfo" "DISABLE"]
            MeshPeerAuthentications :=
              [sampleObject "first" "istio-system" "PERMISSIVE",
               sampleObject "default" "istio-system" "STRICT"] } }
      (by decide) (by intro p hp; rw [List.mem_singleton.mp hp]; decide)).1,
    by decide, by decide⟩

end DestinationRules
end Kiali

/-! ## Properties of the disabled-by-authentication-policy check -/

namespace Kiali
namespace PeerAuthentications

open Models Gateways

theorem checkDestinationRules_found (k : Kubernetes) (c : DisabledNamespaceWideChecker)
    (validations : List IstioCheck) (l : List IstioObject)
    (h : ∃ dr ∈ l, requiresMutual k c dr) :
    checkDestinationRules k c validations l =
      some (validations ++
        [Build "peerauthentications.mtls.disabledestinationrulemissing" "spec/mtls"], false) := by
  induction l with
  | nil => simp at h
  | cons p t ih =>
    by_cases h1 : (k.DestinationRuleHasNamespaceWideMTLSEnabled c.PeerAuthn.Namespace p).2 =
        "ISTIO_MUTUAL" ∨
        (k.DestinationRuleHasNamespaceWideMTLSEnabled c.PeerAuthn.Namespace p).2 = "MUTUAL"
    · simp only [checkDestinationRules, h1, if_true]
    · by_cases h2 : (k.DestinationRuleHasMeshWideMTLSEnabled p).2 = "ISTIO_MUTUAL" ∨
          (k.DestinationRuleHasMeshWideMTLSEnabled p).2 = "MUTUAL"
      · simp only [checkDestinationRules, h1, h2, if_true, if_false]
      · obtain ⟨dr, hdr, hreq⟩ := h
        have hmem : dr ∈ t := by
          rcases List.mem_cons.mp hdr with e | e
          · subst e
            rcases hreq with hr | hr
            · exact absurd hr h1
            · exact absurd hr h2
          · exact e
        simp only [checkDestinationRules, h1, h2, if_false]
        exact ih ⟨dr, hmem, hreq⟩

theorem checkDestinationRules_none (k : Kubernetes) (c : DisabledNamespaceWideChecker)
    (validations : List IstioCheck) (l : List IstioObject)
    (h : ¬ ∃ dr ∈ l, requiresMutual k c dr) :
    checkDestinationRules k c validations l = none := by
  induction l with
  | nil => rfl
  | cons p t ih =>
    have h1 : ¬ ((k.DestinationRuleHasNamespaceWideMTLSEnabled c.PeerAuthn.Namespace p).2 =
        "ISTIO_MUTUAL" ∨
        (k.DestinationRuleHasNamespaceWideMTLSEnabled c.PeerAuthn.Namespace p).2 = "MUTUAL") :=
      fun hr => h ⟨p, by simp, Or.inl hr⟩
    have h2 : ¬ ((k.DestinationRuleHasMeshWideMTLSEnabled p).2 = "ISTIO_MUTUAL" ∨
        (k.DestinationRuleHasMeshWideMTLSEnabled p).2 = "MUTUAL") :=
      fun hr => h ⟨p, by simp, Or.inr hr⟩
    simp only [checkDestinationRules, h1, h2, if_false]
    exact ih (fun ⟨dr, hdr, hreq⟩ => h ⟨dr, by simp [hdr], hreq⟩)

/-- The two results of `Check`: the finding and `false` when the policy under
test has the mode `DISABLE` and a traffic-routing policy of the list requires
mutual TLS, no finding and `true` otherwise. -/
theorem Check_cases (k : Kubernetes) (c : DisabledNamespaceWideChecker) :
    (((k.PeerAuthnHasMTLSEnabled c.PeerAuthn).2 = "DISABLE" ∧
        ∃ dr ∈ c.DestinationRules, requiresMutual k c dr) →
      c.Check k =
        ([{ Message := "peerauthentications.mtls.disabledestinationrulemissing"
            Severity := SeverityLevel.ErrorSeverity
            Path := "spec/mtls" }], false)) ∧
    (¬ ((k.PeerAuthnHasMTLSEnabled c.PeerAuthn).2 = "DISABLE" ∧
        ∃ dr ∈ c.DestinationRules, requiresMutual k c dr) →
      c.Check k = ([], true)) := by
  constructor
  · rintro ⟨hmode, hreq⟩
    unfold DisabledNamespaceWideChecker.Check
    simp only [hmode, ne_eq, not_true_eq_false, if_false,
      checkDestinationRules_found k c [] _ hreq]
    rfl
  · intro hnot
    unfold DisabledNamespaceWideChecker.Check
    by_cases hmode : (k.PeerAuthnHasMTLSEnabled c.PeerAuthn).2 = "DISABLE"
    · have hreq : ¬ ∃ dr ∈ c.DestinationRules, requiresMutual k c dr :=
        fun hr => hnot ⟨hmode, hr⟩
      simp only [hmode, ne_eq, not_true_eq_false, if_false,
        checkDestinationRules_none k c [] _ hreq]
    · simp only [ne_eq, hmode, not_false_eq_true, if_true]

/-- C32: `Check` returns exactly the one finding
`peerauthentications.mtls.disabledestinationrulemissing` at the path `spec/mtls`
and `false` if and only if the authentication policy under test has the mode
`DISABLE` and some traffic-routing policy of the list has the namespace-wide
mode, for the namespace of the policy, or the mesh-wide mode `MUTUAL` or
`ISTIO_MUTUAL`; in every other case it returns no finding and `true`. -/
theorem Check_disabled_by_authentication_policy (k : Kubernetes)
    (c : DisabledNamespaceWideChecker) :
    (c.Check k =
        ([{ Message := "peerauthentications.mtls.disabledestinationrulemissing"
            Severity := SeverityLevel.ErrorSeverity
            Path := "spec/mtls" }], false) ↔
      ((k.PeerAuthnHasMTLSEnabled c.PeerAuthn).2 = "DISABLE" ∧
        ∃ dr ∈ c.DestinationRules,
          ((k.DestinationRuleHasNamespaceWideMTLSEnabled c.PeerAuthn.Namespace dr).2 =
              "ISTIO_MUTUAL" ∨
            (k.DestinationRuleHasNamespaceWideMTLSEnabled c.PeerAuthn.Namespace dr).2 =
              "MUTUAL") ∨
          ((k.DestinationRuleHasMeshWideMTLSEnabled dr).2 = "ISTIO_MUTUAL" ∨
            (k.DestinationRuleHasMeshWideMTLSEnabled dr).2 = "MUTUAL"))) ∧
    (¬ ((k.PeerAuthnHasMTLSEnabled c.PeerAuthn).2 = "DISABLE" ∧
        ∃ dr ∈ c.DestinationRules,
          ((k.DestinationRuleHasNamespaceWideMTLSEnabled c.PeerAuthn.Namespace dr).2 =
              "ISTIO_MUTUAL" ∨
            (k.DestinationRuleHasNamespaceWideMTLSEnabled c.PeerAuthn.Namespace dr).2 =
              "MUTUAL") ∨
          ((k.DestinationRuleHasMeshWideMTLSEnabled dr).2 = "ISTIO_MUTUAL" ∨
            (k.DestinationRuleHasMeshWideMTLSEnabled dr).2 = "MUTUAL")) →
      c.Check k = ([], true)) := by
  obtain ⟨h1, h2⟩ := Check_cases k c
  refine ⟨⟨?_, h1⟩, h2⟩
  intro hres
  by_contra hno
  rw [h2 hno] at hres
  simp at hres

/-- C40: for every input, the findings and the flag that the two checks return
agree: the flag is false if and only if there is a finding, and there is never
more than one finding. -/
theorem Check_valid_iff_no_finding :
    (∀ (k : DestinationRules.Kubernetes) (m : DestinationRules.DisabledNamespaceWideMTLSChecker),
      ((m.Check k).2 = false ↔ (m.Check k).1 ≠ []) ∧ (m.Check k).1.length ≤ 1) ∧
    (∀ (k : Kubernetes) (c : DisabledNamespaceWideChecker),
      ((c.Check k).2 = false ↔ (c.Check k).1 ≠ []) ∧ (c.Check k).1.length ≤ 1) := by
  constructor
  · intro k m
    have hpa : ∀ l, DestinationRules.checkPeerAuthentications k [] l = none ∨
        (∃ f, DestinationRules.checkPeerAuthentications k [] l = some ([f], false)) ∨
        DestinationRules.checkPeerAuthentications k [] l = some ([], true) := by
      intro l
      induction l with
      | nil => exact Or.inl rfl
      | cons p t ih =>
        unfold DestinationRules.checkPeerAuthentications
        split_ifs
        · exact Or.inr (Or.inl ⟨_, rfl⟩)
        · exact Or.inr (Or.inr rfl)
        · exact ih
    have hmesh : ∀ l, DestinationRules.checkMeshPeerAuthentications k [] l = none ∨
        ∃ f, DestinationRules.checkMeshPeerAuthentications k [] l = some ([f], false) := by
      intro l
      induction l with
      | nil => exact Or.inl rfl
      | cons p t ih =>
        unfold DestinationRules.checkMeshPeerAuthentications
        split_ifs
        · exact Or.inr ⟨_, rfl⟩
        · exact ih
    unfold DestinationRules.DisabledNamespaceWideMTLSChecker.Check
    dsimp only
    split_ifs
    · simp
    · rcases hpa m.MTLSDetails.PeerAuthentications with h | ⟨f, h⟩ | h
      · rw [h]
        rcases hmesh m.MTLSDetails.MeshPeerAuthentications with h2 | ⟨f, h2⟩
        · rw [h2]; simp
        · rw [h2]; simp
      · rw [h]; simp
      · rw [h]; simp
  · intro k c
    by_cases h : (k.PeerAuthnHasMTLSEnabled c.PeerAuthn).2 = "DISABLE" ∧
        ∃ dr ∈ c.DestinationRules, requiresMutual k c dr
    · rw [(Check_cases k c).1 h]
      simp
    · rw [(Check_cases k c).2 h]
      simp

end PeerAuthentications
end Kiali

/-! ## Properties of the telemetry helpers -/

namespace Kiali
namespace Util

/-- C33: `HandleResponseCode` returns `-` whenever the response code is `0`;
otherwise it returns the response code when the protocol is not GRPC, or the GRPC
status is not supplied, or the response code is an HTTP error, and the GRPC
status in the remaining case. -/
theorem HandleResponseCode_cases (g : Graph) (protocol responseCode : String)
    (grpcResponseStatusOk : Bool) (grpcResponseStatus : String) :
    (responseCode = "0" →
      HandleResponseCode g protocol responseCode grpcResponseStatusOk grpcResponseStatus = "-") ∧
    (responseCode ≠ "0" →
      (protocol ≠ g.GRPCName ∨ grpcResponseStatusOk = false ∨ g.IsHTTPErr responseCode = true) →
      HandleResponseCode g protocol responseCode grpcResponseStatusOk grpcResponseStatus =
        responseCode) ∧
    (responseCode ≠ "0" → protocol = g.GRPCName → grpcResponseStatusOk = true →
      g.IsHTTPErr responseCode = false →
      HandleResponseCode g protocol responseCode grpcResponseStatusOk grpcResponseStatus =
        grpcResponseStatus) := by
  unfold HandleResponseCode
  refine ⟨fun h => by simp [h], fun h0 h => ?_, fun h0 h1 h2 h3 => ?_⟩
  · rw [if_neg h0, if_pos]
    rcases h with h | h | h
    · exact Or.inl h
    · exact Or.inr (Or.inr h)
    · exact Or.inr (Or.inl h)
  · rw [if_neg h0, if_neg]
    simp [h1, h2, h3]

theorem splitData_ne_nil (sep : Char) (s : List Char) : splitData sep s ≠ [] := by
  cases s with
  | nil => simp [splitData]
  | cons c cs =>
    unfold splitData
    split_ifs
    · simp
    · split <;> simp

/-- The pieces of `strings.Split` hold no separator, and joined by the separator
they give the string back. -/
theorem splitData_spec (sep : Char) (s : List Char) :
    List.intercalate [sep] (splitData sep s) = s ∧ ∀ piece ∈ splitData sep s, sep ∉ piece := by
  induction s with
  | nil => simp [splitData, List.intercalate]
  | cons c cs ih =>
    obtain ⟨h1, h2⟩ := ih
    unfold splitData
    by_cases hc : c = sep
    · rw [if_pos hc]
      constructor
      · cases hs : splitData sep cs with
        | nil => exact absurd hs (splitData_ne_nil sep cs)
        | cons p ps =>
          rw [hs] at h1
          simp only [List.intercalate, List.intersperse, List.flatten, List.nil_append,
            List.singleton_append] at h1 ⊢
          rw [h1, hc]
      · intro piece hp
        rcases List.mem_cons.mp hp with e | e
        · rw [e]; simp
        · exact h2 piece e
    · rw [if_neg hc]
      cases hs : splitData sep cs with
      | nil => exact absurd hs (splitData_ne_nil sep cs)
      | cons p ps =>
        rw [hs] at h1 h2
        constructor
        · cases ps with
          | nil =>
            simp only [List.intercalate, List.intersperse, List.flatten, List.append_nil] at h1 ⊢
            rw [h1]
          | cons q qs =>
            simp only [List.intercalate, List.intersperse, List.flatten, List.cons_append] at h1 ⊢
            rw [h1]
        · intro piece hp
          rcases List.mem_cons.mp hp with e | e
          · rw [e]
            intro hmem
            rcases List.mem_cons.mp hmem with e2 | e2
            · exact hc e2.symm
            · exact h2 p (by simp) e2
          · exact h2 piece (by simp [e])

theorem splitData_no_sep (sep : Char) (a : List Char) (h : sep ∉ a) : splitData sep a = [a] := by
  induction a with
  | nil => rfl
  | cons c cs ih =>
    simp only [List.mem_cons, not_or] at h
    have hc : ¬ c = sep := fun e => h.1 e.symm
    unfold splitData
    rw [if_neg hc, ih h.2]

theorem splitData_append (sep : Char) (a rest : List Char) (h : sep ∉ a) :
    splitData sep (a ++ sep :: rest) = a :: splitData sep rest := by
  induction a with
  | nil => simp [splitData]
  | cons c cs ih =>
    simp only [List.mem_cons, not_or] at h
    have hc : ¬ c = sep := fun e => h.1 e.symm
    rw [List.cons_append]
    conv_lhs => unfold splitData
    rw [if_neg hc, ih h.2]

/-- C34: `handleMultiClusterRequest` returns the namespace, the name and `true`
exactly when the source namespace and the source workload are both the unknown
value and the destination service name is a name, a dot, a namespace, a dot and
the multi-cluster suffix, with no other dot; in every other case it returns the
given destination namespace and name and `false`. -/
theorem handleMultiClusterRequest_cases (g : Graph)
    (sourceWlNs sourceWl destSvcNs destSvcName : String) :
    (∀ name ns : String, sourceWlNs = g.Unknown → sourceWl = g.Unknown →
      '.' ∉ name.data → '.' ∉ ns.data → '.' ∉ g.IstioMultiClusterHostSuffix.data →
      destSvcName = name ++ "." ++ ns ++ "." ++ g.IstioMultiClusterHostSuffix →
      handleMultiClusterRequest g sourceWlNs sourceWl destSvcNs destSvcName = (ns, name, true)) ∧
    ((handleMultiClusterRequest g sourceWlNs sourceWl destSvcNs destSvcName).2.2 = true →
      sourceWlNs = g.Unknown ∧ sourceWl = g.Unknown ∧
      ∃ name ns : String, '.' ∉ name.data ∧ '.' ∉ ns.data ∧
        destSvcName = name ++ "." ++ ns ++ "." ++ g.IstioMultiClusterHostSuffix ∧
        handleMultiClusterRequest g sourceWlNs sourceWl destSvcNs destSvcName =
          (ns, name, true)) ∧
    ((handleMultiClusterRequest g sourceWlNs sourceWl destSvcNs destSvcName).2.2 = false →
      handleMultiClusterRequest g sourceWlNs sourceWl destSvcNs destSvcName =
        (destSvcNs, destSvcName, false)) := by
  refine ⟨?_, ?_, ?_⟩
  · intro name ns h1 h2 hname hns hsuffix hform
    have hsplit : stringsSplit destSvcName '.' = [name, ns, g.IstioMultiClusterHostSuffix] := by
      unfold stringsSplit
      have hdata : destSvcName.data =
          name.data ++ '.' :: (ns.data ++ '.' :: g.IstioMultiClusterHostSuffix.data) := by
        rw [hform]
        simp [String.data_append]
      rw [hdata, splitData_append _ _ _ hname, splitData_append _ _ _ hns,
        splitData_no_sep _ _ hsuffix]
      rfl
    unfold handleMultiClusterRequest
    rw [if_pos ⟨h1, h2⟩]
    simp only [hsplit, if_true]
  · intro hres
    unfold handleMultiClusterRequest at hres ⊢
    by_cases hsrc : sourceWlNs = g.Unknown ∧ sourceWl = g.Unknown
    · rw [if_pos hsrc] at hres ⊢
      refine ⟨hsrc.1, hsrc.2, ?_⟩
      have hspec := splitData_spec '.' destSvcName.data
      cases hsp : splitData '.' destSvcName.data with
      | nil => exact absurd hsp (splitData_ne_nil _ _)
      | cons d0 t0 =>
        match t0, hsp with
        | [], hsp =>
          simp only [stringsSplit, hsp, List.map_cons, List.map_nil] at hres
          exact absurd hres (by simp)
        | [d1], hsp =>
          simp only [stringsSplit, hsp, List.map_cons, List.map_nil] at hres
          exact absurd hres (by simp)
        | [d1, d2], hsp =>
          simp only [stringsSplit, hsp, List.map_cons, List.map_nil] at hres ⊢
          by_cases he : String.mk d2 = g.IstioMultiClusterHostSuffix
          · rw [if_pos he]
            rw [hsp] at hspec
            obtain ⟨hjoin, hno⟩ := hspec
            refine ⟨String.mk d0, String.mk d1, hno d0 (by simp), hno d1 (by simp), ?_, rfl⟩
            apply String.ext
            rw [← he, ← hjoin]
            simp [String.data_append, List.intercalate, List.intersperse, List.flatten]
          · rw [if_neg he] at hres
            exact absurd hres (by simp)
        | _ :: _ :: _ :: _, hsp =>
          simp only [stringsSplit, hsp, List.map_cons] at hres
          exact absurd hres (by simp)
    · rw [if_neg hsrc] at hres
      exact absurd hres (by simp)
  · intro hres
    unfold handleMultiClusterRequest at hres ⊢
    by_cases hsrc : sourceWlNs = g.Unknown ∧ sourceWl = g.Unknown
    · rw [if_pos hsrc] at hres ⊢
      dsimp only at hres ⊢
      split
      · rename_i e0 e1 e2 heq
        rw [heq] at hres
        dsimp only at hres
        by_cases he : e2 = g.IstioMultiClusterHostSuffix
        · rw [if_pos he] at hres
          exact absurd hres (by simp)
        · rw [if_neg he]
      · rfl
    · rw [if_neg hsrc]

end Util
end Kiali

/-! ## The overall status on statuses computed by the table -/

namespace Kiali
namespace Mtls

/-- The status of the table is one of three when it is not `NOT_ENABLED`. -/
theorem finalStatus_cases (m : MtlsStatus) (dr pa : String) :
    (m.finalStatus dr pa).OverallStatus = MTLSEnabled ∨
    (m.finalStatus dr pa).OverallStatus = MTLSDisabled ∨
    (m.finalStatus dr pa).OverallStatus = MTLSPartiallyEnabled ∨
    ((m.finalStatus dr pa).OverallStatus = MTLSNotEnabled ∧ pa = "" ∧ dr = "") := by
  rw [finalStatus_overall]
  have h := specTable_mem dr pa m.AutoMtlsEnabled m.AllowPermissive
  simp only [List.mem_cons, List.mem_singleton, List.not_mem_nil, or_false] at h
  rcases h with h | h | h | h
  · exact Or.inl h
  · exact Or.inr (Or.inr (Or.inl h))
  · exact Or.inr (Or.inr (Or.inr ⟨h, specTable_not_enabled _ _ _ _ h⟩))
  · exact Or.inr (Or.inl h)

theorem finalStatus_empty (m : MtlsStatus) :
    (m.finalStatus "" "").OverallStatus = MTLSNotEnabled := by
  cases m with
  | mk ns a p => cases a <;> cases p <;> rfl

/-- The overall status of an empty namespace status and a status computed by the
table is `NOT_ENABLED` exactly when both modes are empty. -/
theorem OverallMtlsStatus_empty_not_enabled_iff (m : MtlsStatus) (dr pa : String) :
    m.OverallMtlsStatus {} (m.finalStatus dr pa) = MTLSNotEnabled ↔ dr = "" ∧ pa = "" := by
  rw [OverallMtlsStatus_empty_ns]
  constructor
  · intro h
    have hmodes : (m.finalStatus dr pa).hasNoConfig = (pa == "" && dr == "") := rfl
    split_ifs at h with h1 h2 h3 h4
    · simp only [TlsStatus.hasDefinedTls, Bool.or_eq_true, beq_iff_eq] at h1
      rcases h1 with h1 | h1
      · rw [h1] at h; exact absurd h (by decide)
      · rw [h1] at h; exact absurd h (by decide)
    · rw [hmodes] at h2
      simp only [Bool.and_eq_true, beq_iff_eq] at h2
      exact ⟨h2.2, h2.1⟩
    · exact absurd h (by decide)
    · exact absurd h (by decide)
    · exact absurd h (by decide)
  · rintro ⟨rfl, rfl⟩
    have hd : (m.finalStatus "" "").hasDefinedTls = false := by
      simp only [TlsStatus.hasDefinedTls, finalStatus_empty]
      decide
    have hn : (m.finalStatus "" "").hasNoConfig = true := rfl
    simp [hd, hn]

/-- A namespace status that is `NOT_ENABLED` leaves the result to the cascade on
the mesh status. -/
theorem OverallMtlsStatus_of_not_enabled (m : MtlsStatus) (nsStatus meshStatus : TlsStatus)
    (h : nsStatus.OverallStatus = MTLSNotEnabled) :
    m.OverallMtlsStatus nsStatus meshStatus = m.OverallMtlsStatus {} meshStatus := by
  have hd : nsStatus.hasDefinedTls = false := by
    simp only [TlsStatus.hasDefinedTls, h]
    decide
  have hp : nsStatus.hasPartialTlsConfig = false := by
    simp only [TlsStatus.hasPartialTlsConfig, h]
    decide
  rw [OverallMtlsStatus_empty_ns, MtlsStatus.OverallMtlsStatus]
  simp [hd, hp]

/-- C36: for a namespace status and a mesh status computed by `finalStatus` under
the flags of the resolver, `OverallMtlsStatus` returns `NOT_ENABLED` if and only
if the four modes are empty. -/
theorem OverallMtlsStatus_not_enabled_iff (m : MtlsStatus) (nsDr nsPa meshDr meshPa : String) :
    m.OverallMtlsStatus (m.finalStatus nsDr nsPa) (m.finalStatus meshDr meshPa) =
        MTLSNotEnabled ↔
      nsDr = "" ∧ nsPa = "" ∧ meshDr = "" ∧ meshPa = "" := by
  have hns_nonempty : (m.finalStatus nsDr nsPa).OverallStatus ≠ MTLSNotEnabled →
      ¬ (nsDr = "" ∧ nsPa = "") := by
    rintro h ⟨rfl, rfl⟩
    exact h (finalStatus_empty m)
  rcases finalStatus_cases m nsDr nsPa with h | h | h | ⟨h, hpa, hdr⟩
  · have hd : (m.finalStatus nsDr nsPa).hasDefinedTls = true := by
      simp [TlsStatus.hasDefinedTls, h]
    rw [OverallMtlsStatus_of_hasDefinedTls m _ _ hd, h]
    have hne := hns_nonempty (by rw [h]; decide)
    constructor
    · intro e; exact absurd e (by decide)
    · rintro ⟨a, b, _⟩; exact absurd ⟨a, b⟩ hne
  · have hd : (m.finalStatus nsDr nsPa).hasDefinedTls = true := by
      simp [TlsStatus.hasDefinedTls, h]
    rw [OverallMtlsStatus_of_hasDefinedTls m _ _ hd, h]
    have hne := hns_nonempty (by rw [h]; decide)
    constructor
    · intro e; exact absurd e (by decide)
    · rintro ⟨a, b, _⟩; exact absurd ⟨a, b⟩ hne
  · have hne := hns_nonempty (by rw [h]; decide)
    rw [OverallMtlsStatus_ns_inherits m _ _ h, OverallMtlsStatus_empty_not_enabled_iff]
    have e1 : (m.finalStatus nsDr nsPa).DestinationRuleStatus = nsDr := rfl
    have e2 : (m.finalStatus nsDr nsPa).PeerAuthenticationStatus = nsPa := rfl
    rw [e1, e2]
    constructor
    · rintro ⟨a, b⟩
      exfalso
      apply hne
      constructor
      · by_contra hx
        have : (nsDr == "") = false := by simpa using hx
        rw [this] at a
        exact hx a
      · by_contra hx
        have : (nsPa == "") = false := by simpa using hx
        rw [this] at b
        exact hx b
    · rintro ⟨a, b, _⟩; exact absurd ⟨a, b⟩ hne
  · rw [OverallMtlsStatus_of_not_enabled m _ _ h, OverallMtlsStatus_empty_not_enabled_iff]
    constructor
    · rintro ⟨a, b⟩; exact ⟨hdr, hpa, a, b⟩
    · rintro ⟨_, _, a, b⟩; exact ⟨a, b⟩

/-- C37: when the two modes of the namespace are not empty, the overall status of
the namespace status computed by `finalStatus` is the same for every two mesh
statuses. -/
theorem OverallMtlsStatus_ns_both_modes (m : MtlsStatus) (nsDr nsPa : String)
    (h1 : nsDr ≠ "") (h2 : nsPa ≠ "") (m1 m2 : TlsStatus) :
    m.OverallMtlsStatus (m.finalStatus nsDr nsPa) m1 =
      m.OverallMtlsStatus (m.finalStatus nsDr nsPa) m2 := by
  rcases finalStatus_cases m nsDr nsPa with h | h | h | ⟨_, hpa, _⟩
  · have hd : (m.finalStatus nsDr nsPa).hasDefinedTls = true := by
      simp [TlsStatus.hasDefinedTls, h]
    rw [OverallMtlsStatus_of_hasDefinedTls m _ _ hd, OverallMtlsStatus_of_hasDefinedTls m _ _ hd]
  · have hd : (m.finalStatus nsDr nsPa).hasDefinedTls = true := by
      simp [TlsStatus.hasDefinedTls, h]
    rw [OverallMtlsStatus_of_hasDefinedTls m _ _ hd, OverallMtlsStatus_of_hasDefinedTls m _ _ hd]
  · rw [OverallMtlsStatus_ns_inherits m _ _ h, OverallMtlsStatus_ns_inherits m _ _ h]
    have e1 : (m.finalStatus nsDr nsPa).DestinationRuleStatus = nsDr := rfl
    have e2 : (m.finalStatus nsDr nsPa).PeerAuthenticationStatus = nsPa := rfl
    have b1 : (nsDr == "") = false := by simpa using h1
    have b2 : (nsPa == "") = false := by simpa using h2
    simp only [e1, e2, b1, b2, Bool.false_eq_true, if_false]
  · exact absurd hpa h2

theorem OverallMtlsStatus_ns_both_modes_witness :
    (MtlsStatus.finalStatus ⟨"bookinfo", true, false⟩ "ISTIO_MUTUAL" "DISABLE").OverallStatus =
        MTLSPartiallyEnabled ∧
      MtlsStatus.OverallMtlsStatus ⟨"bookinfo", true, false⟩
          (MtlsStatus.finalStatus ⟨"bookinfo", true, false⟩ "ISTIO_MUTUAL" "DISABLE")
          ⟨"", "STRICT", MTLSEnabled⟩ =
        MtlsStatus.OverallMtlsStatus ⟨"bookinfo", true, false⟩
          (MtlsStatus.finalStatus ⟨"bookinfo", true, false⟩ "ISTIO_MUTUAL" "DISABLE")
          ⟨"DISABLE", "DISABLE", MTLSDisabled⟩ :=
  ⟨rfl, OverallMtlsStatus_ns_both_modes _ "ISTIO_MUTUAL" "DISABLE" (by decide) (by decide) _ _⟩

end Mtls
end Kiali

/-! ## A routing rule alone in the input -/

namespace Kiali
namespace VirtualServices

open Models Gateways

theorem length_flatMap_le_one {α β : Type} (f : α → List β) (Q : α → Prop) (l : List α)
    (hf : ∀ a ∈ l, (f a).length ≤ 1) (hQ : ∀ a ∈ l, ¬ Q a → f a = [])
    (huniq : l.Pairwise fun a b => ¬ (Q a ∧ Q b)) : (l.flatMap f).length ≤ 1 := by
  induction l with
  | nil => simp
  | cons a t ih =>
    have ht := ih (fun x hx => hf x (by simp [hx])) (fun x hx => hQ x (by simp [hx]))
      (List.Pairwise.of_cons huniq)
    rw [List.flatMap_cons, List.length_append]
    by_cases ha : Q a
    · have hrest : t.flatMap f = [] := by
        rw [List.flatMap_eq_nil_iff]
        intro x hx
        exact hQ x (by simp [hx]) (fun hqx => (List.rel_of_pairwise_cons huniq hx) ⟨ha, hqx⟩)
      rw [hrest]
      simpa using hf a (by simp)
    · rw [hQ a (by simp) ha]
      simpa using ht

/-- A routing rule alone in the input, with no gateway named twice, no two hosts
grouped under the same cluster, namespace and service and no host grouped under
the service `*`, is not flagged. -/
theorem single_rule_not_flagged (env : Environment) (ro : RangeOrder) (s : SingleHostChecker)
    (vs : IstioObject) (hrules : s.VirtualServices = [vs]) (hgw : (gatewayScope vs).Nodup)
    (hkeys : ((getHosts env s vs).map fun host =>
      ((groupingHost env vs host).Cluster, (groupingHost env vs host).Namespace,
        (groupingHost env vs host).Service)).Nodup)
    (hwild : ∀ host ∈ getHosts env s vs, (groupingHost env vs host).Service ≠ "*") :
    Check env ro s = [] := by
  have hnone : ∀ k, k ∉ (Check env ro s).map (·.1) := by
    intro k hk
    unfold Check at hk
    obtain ⟨c, hc, _⟩ := (mem_keys_checkHostCounter ro _ k).mp hk
    obtain ⟨gw, cluster, ns, service, _, _, hcond⟩ := call_within_bucket env ro s c hc
    rcases hcond with hlen | ⟨⟨wild, hmem, host, hhost, _, _, _, hsv⟩, _⟩
    · rw [storedAt_buildHostCounter, hrules] at hlen
      simp only [List.flatMap_cons, List.flatMap_nil, List.append_nil] at hlen
      have hle := length_flatMap_le_one
        (fun host => (gatewayScope vs).flatMap fun g =>
          if g = gw ∧ (groupingHost env vs host).Cluster = cluster ∧
              (groupingHost env vs host).Namespace = ns ∧
              (groupingHost env vs host).Service = service then [vs] else [])
        (fun host => ((groupingHost env vs host).Cluster, (groupingHost env vs host).Namespace,
          (groupingHost env vs host).Service) = (cluster, ns, service))
        (getHosts env s vs) ?_ ?_ ?_
      · omega
      · intro host _
        exact (length_flatMap_ite_le_one gw _ vs _ hgw).1
      · intro host _ hq
        rw [List.flatMap_eq_nil_iff]
        intro g _
        rw [if_neg]
        rintro ⟨_, h1, h2, h3⟩
        exact hq (by
          show ((groupingHost env vs host).Cluster, (groupingHost env vs host).Namespace,
            (groupingHost env vs host).Service) = (cluster, ns, service)
          rw [h1, h2, h3])
      · unfold List.Nodup at hkeys
        rw [List.pairwise_map] at hkeys
        exact hkeys.imp fun hne hq => hne (hq.1.trans hq.2.symm)
    · rw [hrules, List.mem_singleton] at hmem
      subst hmem
      exact hwild host hhost hsv
  cases hgraph : Check env ro s with
  | nil => rfl
  | cons e t =>
    exact absurd (by rw [hgraph]; simp) (hnone e.1)

/-- C35: a routing rule alone in the input is flagged when two of its hosts
resolve to the same service, and when it declares the host `*` next to another
host: `Check` returns an entry for the rule with two findings and no reference.
A routing rule alone in the input with no gateway named twice, no two hosts
grouped under the same cluster, namespace and service and no host grouped under
the service `*` is not flagged. -/
theorem single_rule_flagged :
    (Check Environment.sample RangeOrder.insertion
      (sampleChecker [sampleVirtualService "virtual-1" ["reviews", "reviews"]]) =
      [({ ObjectType := "virtualservice", Namespace := "bookinfo", Name := "virtual-1" },
        { Name := "virtual-1", ObjectType := "virtualservice", Valid := true,
          Checks := [Build "virtualservices.singlehost" "spec/hosts",
            Build "virtualservices.singlehost" "spec/hosts"],
          References := [] })] ∧
    Check Environment.sample RangeOrder.insertion
      (sampleChecker [sampleVirtualService "virtual-1" ["*", "reviews"]]) =
      [({ ObjectType := "virtualservice", Namespace := "bookinfo", Name := "virtual-1" },
        { Name := "virtual-1", ObjectType := "virtualservice", Valid := true,
          Checks := [Build "virtualservices.singlehost" "spec/hosts",
            Build "virtualservices.singlehost" "spec/hosts"],
          References := [] })] ∧
    Check Environment.sample RangeOrder.insertion
      (sampleChecker [sampleVirtualService "virtual-1" ["reviews", "ratings"]]) = []) ∧
    ∀ (env : Environment) (ro : RangeOrder) (s : SingleHostChecker) (vs : IstioObject),
      s.VirtualServices = [vs] → (gatewayScope vs).Nodup →
      ((getHosts env s vs).map fun host =>
        ((groupingHost env vs host).Cluster, (groupingHost env vs host).Namespace,
          (groupingHost env vs host).Service)).Nodup →
      (∀ host ∈ getHosts env s vs, (groupingHost env vs host).Service ≠ "*") →
      Check env ro s = [] :=
  ⟨by decide, single_rule_not_flagged⟩

end VirtualServices
end Kiali

/-! ## The reference of a gateway to itself -/

namespace Kiali
namespace Gateways

open Models GoLib

theorem sublist_flatMap {α β : Type} (f : α → List β) {l1 l2 : List α} (h : l1.Sublist l2) :
    (l1.flatMap f).Sublist (l2.flatMap f) := by
  induction h with
  | slnil => simp
  | cons a _ ih =>
    rw [List.flatMap_cons]
    exact List.sublist_append_of_sublist_right ih
  | cons₂ a _ ih =>
    rw [List.flatMap_cons, List.flatMap_cons]
    exact List.Sublist.append (List.Sublist.refl _) ih

/-- The step of `Check` for a binding that matches two of the bindings before it,
or one binding with the key of its own gateway, makes the entry of the gateway
refer to its own key. -/
theorem refers_self_stepValidations (validations : IstioValidations) (existing : List Host)
    (host : Host)
    (h : (∃ h1 h2, [h1, h2].Sublist existing ∧ h1.Port = host.Port ∧ h2.Port = host.Port ∧
          hostnamesMatch host h1 = some true ∧ hostnamesMatch host h2 = some true) ∨
        (∃ h1 ∈ existing, h1.Port = host.Port ∧ hostnamesMatch host h1 = some true ∧
          hostKey h1 = hostKey host)) :
    refers (stepValidations validations existing host) (hostKey host) (hostKey host) := by
  rw [refers_stepValidations]
  right
  rcases h with ⟨h1, h2, hsub, p1, p2, m1, m2⟩ | ⟨h1, hmem, p1, m1, hk⟩
  · refine ⟨host, ?_, Or.inl ⟨rfl, rfl⟩⟩
    have hs := (sublist_flatMap
      (fun h => if h.Port = host.Port ∧ hostnamesMatch host h = some true then [host, h] else [])
      hsub).drop 1
    have hmem : host ∈ ([h1, h2].flatMap fun h =>
        if h.Port = host.Port ∧ hostnamesMatch host h = some true then [host, h] else []).drop 1 := by
      simp [List.flatMap_cons, p1, p2, m1, m2]
    exact hs.subset hmem
  · refine ⟨h1, ?_, Or.inl ⟨hk.symm, rfl⟩⟩
    exact mem_drop_one_pairs host (fun h => h.Port = host.Port ∧ hostnamesMatch host h = some true)
      existing h1 hmem ⟨p1, m1⟩

theorem refers_mono_stepValidations (validations : IstioValidations) (existing : List Host)
    (host : Host) (a b : IstioValidationKey) (h : refers validations a b) :
    refers (stepValidations validations existing host) a b :=
  (refers_stepValidations validations existing host a b).mpr (Or.inl h)

/-- The bindings of a selector after a run: those before the run, then those of
the run with the selector, in order. -/
theorem run_existingList (bs : List (Host × String)) :
    ∀ (st st' : CheckState), bs.foldlM (fun st b => checkHost b.2 st b.1) st = some st' →
      (∀ a b, refers st.validations a b → refers st'.validations a b) ∧
      ∀ s, st'.existingList s =
        st.existingList s ++ (bs.filter fun x => decide (x.2 = s)).map (·.1) := by
  induction bs with
  | nil =>
    intro st st' h
    simp only [List.foldlM_nil, pure, Option.some.injEq] at h
    subst h
    exact ⟨fun _ _ hr => hr, fun s => by simp⟩
  | cons b t ih =>
    intro st st' h
    obtain ⟨st1, h1, h2⟩ := foldlM_cons_some _ b t st st' h
    obtain ⟨_, hv, he⟩ := checkHost_eq_some b.2 st b.1 st1 h1
    obtain ⟨hm, hex⟩ := ih st1 st' h2
    refine ⟨fun a c hr => hm a c (hv ▸ refers_mono_stepValidations _ _ _ a c hr), ?_⟩
    intro s
    rw [hex s, he]
    by_cases hs : s = b.2
    · subst hs
      simp [List.filter_cons]
    · have hne : ¬ b.2 = s := fun e => hs e.symm
      simp [List.filter_cons, hs, hne]

/-- C39: in a graph that `Check` returns, the entry of the gateway that owns a
binding lists its own key among its references whenever the binding overlaps two
or more of the bindings inserted before it, or overlaps a binding of its own
gateway inserted before it; overlapping is having the same selector string and
port and matching hostnames. -/
theorem Check_self_reference (ext : External) (gws : List (List IstioObject))
    (graph : IstioValidations) (hc : Check ext gws = some graph)
    (pre post : List (Host × String)) (b : Host × String)
    (hb : allBindings ext gws = some (pre ++ b :: post))
    (hover :
      (∃ h1 h2, [h1, h2].Sublist pre ∧ h1.2 = b.2 ∧ h2.2 = b.2 ∧
        h1.1.Port = b.1.Port ∧ h2.1.Port = b.1.Port ∧
        hostnamesMatch b.1 h1.1 = some true ∧ hostnamesMatch b.1 h2.1 = some true) ∨
      (∃ h1 ∈ pre, h1.2 = b.2 ∧ h1.1.Port = b.1.Port ∧
        hostnamesMatch b.1 h1.1 = some true ∧ hostKey h1.1 = hostKey b.1)) :
    ∃ entry, (hostKey b.1, entry) ∈ graph ∧ hostKey b.1 ∈ entry.References := by
  obtain ⟨bs, st, hbs, hrun, hg⟩ := Check_some_run ext gws graph hc
  rw [hb] at hbs
  simp only [Option.some.injEq] at hbs
  subst hbs
  rw [List.foldlM_append] at hrun
  cases hpre : pre.foldlM (fun st b => checkHost b.2 st b.1)
      { validations := [], existingList := fun _ => [] } with
  | none => simp [hpre] at hrun
  | some st0 =>
    rw [hpre] at hrun
    simp only [Option.bind_eq_bind, Option.some_bind] at hrun
    obtain ⟨st1, h1, h2⟩ := foldlM_cons_some _ b post st0 st hrun
    obtain ⟨_, hex0⟩ := run_existingList pre _ st0 hpre
    obtain ⟨_, hv, _⟩ := checkHost_eq_some b.2 st0 b.1 st1 h1
    obtain ⟨hmono, _⟩ := run_existingList post st1 st h2
    have hexisting : st0.existingList b.2 =
        (pre.filter fun x => decide (x.2 = b.2)).map (·.1) := by
      rw [hex0]
      simp
    have hstep : refers st1.validations (hostKey b.1) (hostKey b.1) := by
      rw [hv]
      apply refers_self_stepValidations
      rw [hexisting]
      rcases hover with ⟨x, y, hsub, sx, sy, px, py, mx, my⟩ | ⟨x, hx, sx, px, mx, hk⟩
      · left
        refine ⟨x.1, y.1, ?_, px, py, mx, my⟩
        have hs := ((hsub.filter fun x => decide (x.2 = b.2)).map (·.1))
        simpa [List.filter_cons, sx, sy] using hs
      · right
        refine ⟨x.1, ?_, px, mx, hk⟩
        exact List.mem_map.mpr ⟨x, List.mem_filter.mpr ⟨hx, by simpa using sx⟩, rfl⟩
    rw [← hg]
    exact hmono _ _ hstep

theorem Check_self_reference_witness :
    ∃ entry,
      (hostKey
          { Port := 80, Hostname := "valid", Namespace := "test", ServerIndex := 0, HostIndex := 0,
            GatewayRuleName := "second" }, entry) ∈
        (Check External.sample
          [[sampleGateway "first" "test" "real" 80 ["valid", "*"],
            sampleGateway "second" "test" "real" 80 ["valid"]]]).getD [] ∧
      hostKey
          { Port := 80, Hostname := "valid", Namespace := "test", ServerIndex := 0, HostIndex := 0,
            GatewayRuleName := "second" } ∈ entry.References :=
  Check_self_reference External.sample
    [[sampleGateway "first" "test" "real" 80 ["valid", "*"],
      sampleGateway "second" "test" "real" 80 ["valid"]]]
    ((Check External.sample
      [[sampleGateway "first" "test" "real" 80 ["valid", "*"],
        sampleGateway "second" "test" "real" 80 ["valid"]]]).getD [])
    (by decide)
    [({ Port := 80, Hostname := "valid", Namespace := "test", ServerIndex := 0, HostIndex := 0,
        GatewayRuleName := "first" }, "app=real"),
     ({ Port := 80, Hostname := "*", Namespace := "test", ServerIndex := 0, HostIndex := 1,
        GatewayRuleName := "first" }, "app=real")]
    []
    ({ Port := 80, Hostname := "valid", Namespace := "test", ServerIndex := 0, HostIndex := 0,
       GatewayRuleName := "second" }, "app=real")
    (by decide)
    (Or.inl ⟨_, _, List.Sublist.refl _, by decide⟩)

end Gateways
end Kiali

/-! ## The order of the gateways -/

namespace Kiali
namespace Gateways

open Models GoLib

/-- The hostname test gives the same answer in both directions when it
completes in both. -/
theorem hostnamesMatch_comm (a b : Host) (h1 : hostnamesMatch a b ≠ none)
    (h2 : hostnamesMatch b a ≠ none) : hostnamesMatch a b = hostnamesMatch b a := by
  unfold hostnamesMatch at h1 h2 ⊢
  by_cases hw : a.Hostname = wildCardMatch ∨ b.Hostname = wildCardMatch
  · have hw' : b.Hostname = wildCardMatch ∨ a.Hostname = wildCardMatch := hw.symm
    rw [if_pos hw, if_pos hw']
  · have hw' : ¬ (b.Hostname = wildCardMatch ∨ a.Hostname = wildCardMatch) := fun h => hw h.symm
    rw [if_neg hw] at h1 ⊢
    rw [if_neg hw'] at h2 ⊢
    revert h1 h2
    dsimp only
    generalize regexpMatchString (stringsJoin ["^", stringsReplace a.Hostname '.' "\\.", "$"]) _ = A
    generalize regexpMatchString (stringsJoin ["^", stringsReplace b.Hostname '.' "\\.", "$"]) _ = B
    rcases A with _ | (_ | _) <;> rcases B with _ | (_ | _) <;> simp

/-- A run of `Check` over a list of bindings that returns has made no
`regexp.MustCompile` panic: every comparison it made completed. -/
theorem run_comparable (bs : List (Host × String)) :
    ∀ (st st' : CheckState), bs.foldlM (fun st b => checkHost b.2 st b.1) st = some st' →
      (∀ b ∈ bs, ∀ h ∈ st.existingList b.2, h.Port = b.1.Port → hostnamesMatch b.1 h ≠ none) ∧
      comparable bs := by
  induction bs with
  | nil =>
    intro st st' _
    exact ⟨fun b hb => by simp at hb, List.Pairwise.nil⟩
  | cons b t ih =>
    intro st st' h
    obtain ⟨st1, h1, h2⟩ := foldlM_cons_some _ b t st st' h
    obtain ⟨hsafe, _, he⟩ := checkHost_eq_some b.2 st b.1 st1 h1
    obtain ⟨hex, hcomp⟩ := ih st1 st' h2
    constructor
    · intro y hy x hx hp
      rcases List.mem_cons.mp hy with e | hy
      · subst e
        exact hsafe x hx hp
      · apply hex y hy x _ hp
        rw [he]
        dsimp only
        split
        · exact List.mem_append_left _ hx
        · exact hx
    · unfold comparable
      rw [List.pairwise_cons]
      refine ⟨?_, hcomp⟩
      intro y hy hsel hp
      apply hex y hy b.1 _ hp
      rw [he]
      dsimp only
      rw [if_pos hsel.symm]
      simp

theorem pair_sublist_perm {α : Type} {l l' : List α} (hp : l.Perm l') (a b : α)
    (h : [a, b].Sublist l) : [a, b].Sublist l' ∨ [b, a].Sublist l' := by
  obtain ⟨l0, hl0, hs⟩ : List.Subperm [a, b] l' := h.subperm.trans hp.subperm
  have hlen := hl0.length_eq
  match l0, hl0, hs, hlen with
  | [x, y], hl0, hs, _ =>
    have hx : x ∈ [a, b] := hl0.subset (by simp)
    simp only [List.mem_cons, List.mem_singleton, List.not_mem_nil, or_false] at hx
    rcases hx with e | e
    · subst e
      have := List.perm_singleton.mp (List.Perm.cons_inv hl0)
      simp only [List.cons.injEq, and_true] at this
      subst this
      exact Or.inl hs
    · subst e
      have := List.perm_singleton.mp (List.Perm.cons_inv (hl0.trans (List.Perm.swap x a [])))
      simp only [List.cons.injEq, and_true] at this
      subst this
      exact Or.inr hs

theorem bindingsOf_cons (ext : External) (g : IstioObject) (gs : List IstioObject)
    (bs : List (Host × String)) :
    bindingsOf ext (g :: gs) = some bs ↔
      ∃ sel rest, selectorString ext g = some sel ∧ bindingsOf ext gs = some rest ∧
        bs = (gatewayHosts ext g).map (fun h => (h, sel)) ++ rest := by
  rw [bindingsOf]
  cases hs : selectorString ext g with
  | none => simp
  | some sel =>
    cases hr : bindingsOf ext gs with
    | none => simp
    | some rest => simp [eq_comm]

/-- The bindings of a permutation of a list of gateways are a permutation of
the bindings of the list. -/
theorem bindingsOf_perm (ext : External) {gs gs' : List IstioObject} (hp : gs.Perm gs') :
    ∀ bs, bindingsOf ext gs = some bs → ∃ bs', bindingsOf ext gs' = some bs' ∧ bs.Perm bs' := by
  induction hp with
  | nil => intro bs h; exact ⟨bs, h, List.Perm.refl _⟩
  | cons g _ ih =>
    intro bs h
    obtain ⟨sel, rest, hs, hr, e⟩ := (bindingsOf_cons ext g _ bs).mp h
    obtain ⟨rest', hr', hperm⟩ := ih rest hr
    subst e
    exact ⟨_, (bindingsOf_cons ext g _ _).mpr ⟨sel, rest', hs, hr', rfl⟩,
      List.Perm.append_left _ hperm⟩
  | swap x y l =>
    intro bs h
    obtain ⟨sely, rest1, hsy, hr1, e⟩ := (bindingsOf_cons ext y _ bs).mp h
    obtain ⟨selx, rest, hsx, hr, e1⟩ := (bindingsOf_cons ext x _ rest1).mp hr1
    subst e1
    subst e
    refine ⟨_, (bindingsOf_cons ext x _ _).mpr ⟨selx, _, hsx,
      (bindingsOf_cons ext y _ _).mpr ⟨sely, rest, hsy, hr, rfl⟩, rfl⟩, ?_⟩
    exact List.perm_append_comm_assoc _ _ _
  | trans _ _ ih1 ih2 =>
    intro bs h
    obtain ⟨bs2, h2, p2⟩ := ih1 bs h
    obtain ⟨bs3, h3, p3⟩ := ih2 bs2 h2
    exact ⟨bs3, h3, p2.trans p3⟩

/-- When `Check` returns a graph for an input and for a permutation of its
gateways, every key of the first graph is a key of the second. -/
theorem Check_keys_perm (ext : External) (gws gws' : List (List IstioObject))
    (graph graph' : IstioValidations) (hp : gws.flatten.Perm gws'.flatten)
    (hc : Check ext gws = some graph) (hc' : Check ext gws' = some graph')
    (k : IstioValidationKey) (hk : k ∈ graph.map (·.1)) : k ∈ graph'.map (·.1) := by
  obtain ⟨bs, hb, hkeys⟩ := Check_keys ext gws graph hc
  obtain ⟨bs', hb', hkeys'⟩ := Check_keys ext gws' graph' hc'
  obtain ⟨bs2, hb2, hperm⟩ := bindingsOf_perm ext hp bs hb
  have e2 : bs2 = bs' := by
    unfold allBindings at hb'
    rw [hb2] at hb'
    exact Option.some.inj hb'
  subst e2
  obtain ⟨bs3, st', hb3, hrun', _⟩ := Check_some_run ext gws' graph' hc'
  have e3 : bs3 = bs2 := by
    rw [hb'] at hb3
    exact (Option.some.inj hb3).symm
  subst e3
  have hcomp : comparable bs3 := (run_comparable bs3 _ st' hrun').2
  obtain ⟨b1, b2, hsub, hsel, hport, hm, e⟩ := (hkeys k).mp hk
  rw [hkeys']
  rcases pair_sublist_perm hperm b1 b2 hsub with h | h
  · exact ⟨b1, b2, h, hsel, hport, hm, e⟩
  · refine ⟨b2, b1, h, hsel.symm, hport.symm, ?_, e.symm⟩
    have hne : hostnamesMatch b1.1 b2.1 ≠ none :=
      sublist_pair_of_pairwise _ bs3 b2 b1 hcomp h hsel.symm hport.symm
    rw [← hostnamesMatch_comm b2.1 b1.1 (by rw [hm]; simp) hne]
    exact hm

/-- C38 at a failing input, with what holds of the order of the gateways. The
hostname test of `findMatch` is not symmetric where `regexp.MustCompile`
panics: with `**.example.com` bound first and `*.example.com` second the first
expression `^*\.example\.com$` matches and the second one is never compiled, so
the pair is reported and `Check` returns a graph with the keys of both gateways;
in the other order the first expression is `^**\.example\.com$`, which Go
rejects, and `findMatch` and `Check` panic. Where the test completes in both
directions it gives the same answer, and when `Check` returns a graph for an
input and for a permutation of its gateways the two graphs have the same keys. -/
theorem Check_gateway_order_panics :
    hostnamesMatch ⟨80, "*.example.com", "test", 0, 0, "second"⟩
        ⟨80, "**.example.com", "test", 0, 0, "first"⟩ = some true ∧
    hostnamesMatch ⟨80, "**.example.com", "test", 0, 0, "first"⟩
        ⟨80, "*.example.com", "test", 0, 0, "second"⟩ = none ∧
    findMatch (fun _ => [⟨80, "**.example.com", "test", 0, 0, "first"⟩])
        ⟨80, "*.example.com", "test", 0, 0, "second"⟩ "app=real" =
      some (true, [⟨80, "*.example.com", "test", 0, 0, "second"⟩,
        ⟨80, "**.example.com", "test", 0, 0, "first"⟩]) ∧
    findMatch (fun _ => [⟨80, "*.example.com", "test", 0, 0, "second"⟩])
        ⟨80, "**.example.com", "test", 0, 0, "first"⟩ "app=real" = none ∧
    (Check External.sample
        [[sampleGateway "first" "test" "real" 80 ["**.example.com"],
          sampleGateway "second" "test" "real" 80 ["*.example.com"]]]).map
        (fun graph => graph.map (·.1)) =
      some [⟨"gateway", "test", "first"⟩, ⟨"gateway", "test", "second"⟩] ∧
    Check External.sample
        [[sampleGateway "second" "test" "real" 80 ["*.example.com"],
          sampleGateway "first" "test" "real" 80 ["**.example.com"]]] = none ∧
    (∀ a b : Host, hostnamesMatch a b ≠ none → hostnamesMatch b a ≠ none →
      hostnamesMatch a b = hostnamesMatch b a) ∧
    (∀ (ext : External) (gws gws' : List (List IstioObject)) (graph graph' : IstioValidations),
      gws.flatten.Perm gws'.flatten → Check ext gws = some graph → Check ext gws' = some graph' →
      ∀ k, k ∈ graph.map (·.1) ↔ k ∈ graph'.map (·.1)) :=
  ⟨by decide, by decide, by decide, by decide, by decide, by decide, hostnamesMatch_comm,
    fun ext gws gws' graph graph' hp hc hc' k =>
      ⟨Check_keys_perm ext gws gws' graph graph' hp hc hc' k,
        Check_keys_perm ext gws' gws graph' graph hp.symm hc' hc k⟩⟩

end Gateways
end Kiali

/-! ## Keys of the graph and conflicts between routing rules -/

namespace Kiali
namespace VirtualServices

open Models Gateways

theorem nodup_flatMap_self {α : Type} (f : α → List α) (l : List α) (hnd : l.Nodup)
    (hlen : ∀ a ∈ l, (f a).length ≤ 1) (hself : ∀ a ∈ l, ∀ x ∈ f a, x = a) :
    (l.flatMap f).Nodup := by
  induction l with
  | nil => simp
  | cons a t ih =>
    obtain ⟨hat, ht⟩ := List.nodup_cons.mp hnd
    rw [List.flatMap_cons, List.nodup_append]
    refine ⟨?_, ih ht (fun x hx => hlen x (by simp [hx])) (fun x hx => hself x (by simp [hx])), ?_⟩
    · have h1 := hlen a (by simp)
      match f a, h1 with
      | [], _ => simp
      | [x], _ => simp
    · intro x hx hx'
      have e := hself a (by simp) x hx
      obtain ⟨b, hb, hxb⟩ := List.mem_flatMap.mp hx'
      have e' := hself b (by simp [hb]) x hxb
      rw [← e, e'] at hat
      exact hat hb

/-- When no routing rule of the input comes twice, names a gateway twice or has
two hosts grouped under the same cluster, namespace and service, no routing rule
is stored twice at a key of the host counter of `Check`. -/
theorem nodup_storedAt_buildHostCounter (env : Environment) (s : SingleHostChecker)
    (hrules : s.VirtualServices.Nodup)
    (hgw : ∀ vs ∈ s.VirtualServices, (gatewayScope vs).Nodup)
    (hkeys : ∀ vs ∈ s.VirtualServices, ((getHosts env s vs).map fun host =>
      ((groupingHost env vs host).Cluster, (groupingHost env vs host).Namespace,
        (groupingHost env vs host).Service)).Nodup)
    (gw cluster ns service : String) :
    (storedAt (buildHostCounter env s) gw cluster ns service).Nodup := by
  rw [storedAt_buildHostCounter]
  refine nodup_flatMap_self _ _ hrules ?_ ?_
  · intro vs hvs
    refine length_flatMap_le_one
      (fun host => (gatewayScope vs).flatMap fun g =>
        if g = gw ∧ (groupingHost env vs host).Cluster = cluster ∧
            (groupingHost env vs host).Namespace = ns ∧
            (groupingHost env vs host).Service = service then [vs] else [])
      (fun host => ((groupingHost env vs host).Cluster, (groupingHost env vs host).Namespace,
        (groupingHost env vs host).Service) = (cluster, ns, service))
      (getHosts env s vs) ?_ ?_ ?_
    · intro host _
      exact (length_flatMap_ite_le_one gw _ vs _ (hgw vs hvs)).1
    · intro host _ hq
      rw [List.flatMap_eq_nil_iff]
      intro g _
      rw [if_neg]
      rintro ⟨_, h1, h2, h3⟩
      exact hq (by
        show ((groupingHost env vs host).Cluster, (groupingHost env vs host).Namespace,
          (groupingHost env vs host).Service) = (cluster, ns, service)
        rw [h1, h2, h3])
    · have hk := hkeys vs hvs
      unfold List.Nodup at hk
      rw [List.pairwise_map] at hk
      exact hk.imp fun hne hq => hne (hq.1.trans hq.2.symm)
  · intro vs _ x hx
    simp only [List.mem_flatMap] at hx
    obtain ⟨host, _, g, _, hmem⟩ := hx
    split_ifs at hmem
    · exact List.mem_singleton.mp hmem
    · simp at hmem

/-- When no routing rule of the input comes twice, names a gateway twice, has two
hosts grouped under the same cluster, namespace and service, or has a host
grouped under the service `*` next to a host grouped under another service of
the same cluster and namespace, every key of the graph of `Check` is the key of
a routing rule in conflict with another routing rule of the input. -/
theorem keys_in_conflict (env : Environment) (ro : RangeOrder) (s : SingleHostChecker)
    (hrules : s.VirtualServices.Nodup)
    (hgw : ∀ vs ∈ s.VirtualServices, (gatewayScope vs).Nodup)
    (hkeys : ∀ vs ∈ s.VirtualServices, ((getHosts env s vs).map fun host =>
      ((groupingHost env vs host).Cluster, (groupingHost env vs host).Namespace,
        (groupingHost env vs host).Service)).Nodup)
    (hwild : ∀ vs ∈ s.VirtualServices, ∀ h ∈ getHosts env s vs, ∀ h' ∈ getHosts env s vs,
      (groupingHost env vs h).Service = "*" →
      (groupingHost env vs h').Cluster = (groupingHost env vs h).Cluster →
      (groupingHost env vs h').Namespace = (groupingHost env vs h).Namespace →
      (groupingHost env vs h').Service = "*")
    (k : IstioValidationKey) (hk : k ∈ (Check env ro s).map (·.1)) :
    ∃ vs ∈ s.VirtualServices, inConflict env s vs ∧ k = vsKey vs := by
  unfold Check at hk
  obtain ⟨c, hc, hkey⟩ := (mem_keys_checkHostCounter ro _ k).mp hk
  obtain ⟨gw, cluster, ns, service, hmaps, _, hcond⟩ := call_within_bucket env ro s c hc
  have hboth : ∀ (r : IstioObject) (sv : String), mapsTo env s r gw cluster ns "*" →
      mapsTo env s r gw cluster ns sv → sv = "*" := by
    rintro r sv ⟨hr, h, hh, _, c1, n1, s1⟩ ⟨_, h', hh', _, c2, n2, s2⟩
    rw [← s2]
    exact hwild r hr h hh h' hh' s1 (c2.trans c1.symm) (n2.trans n1.symm)
  refine ⟨c.1, hmaps.1, ?_, hkey.symm⟩
  rcases hcond with hlen | ⟨⟨wild, hw⟩, other, sv, hne, ho⟩
  · obtain ⟨b, hb, hbne⟩ := exists_ne_of_length_gt_one _ c.1 hlen
      (nodup_storedAt_buildHostCounter env s hrules hgw hkeys gw cluster ns service)
    have hbm := (mem_storedAt_buildHostCounter env s gw cluster ns service b).mp hb
    exact ⟨b, hbm.1, hbne, gw, cluster, ns, service, service, hmaps, hbm, Or.inl rfl⟩
  · by_cases hs : service = "*"
    · refine ⟨other, ho.1, ?_, gw, cluster, ns, service, sv, hmaps, ho, Or.inr (Or.inl hs)⟩
      intro e
      rw [e] at ho
      rw [hs] at hmaps hne
      exact hne (hboth c.1 sv hmaps ho)
    · refine ⟨wild, hw.1, ?_, gw, cluster, ns, service, "*", hmaps, hw, Or.inr (Or.inr rfl)⟩
      intro e
      rw [e] at hw
      exact hs (hboth c.1 service hw hmaps)

/-- The two routing rules of the test with the host `reviews` meet the conditions
of `keys_in_conflict`, and the key of the second one is the key of a routing
rule in conflict. -/
theorem keys_in_conflict_test_rules :
    ∃ vs ∈ [sampleVirtualService "virtual-1" ["reviews"],
        sampleVirtualService "virtual-2" ["reviews"]],
      inConflict Environment.sample
        (sampleChecker [sampleVirtualService "virtual-1" ["reviews"],
          sampleVirtualService "virtual-2" ["reviews"]]) vs ∧
      (⟨"virtualservice", "bookinfo", "virtual-2"⟩ : IstioValidationKey) = vsKey vs :=
  keys_in_conflict Environment.sample RangeOrder.insertion
    (sampleChecker [sampleVirtualService "virtual-1" ["reviews"],
      sampleVirtualService "virtual-2" ["reviews"]])
    (by simp [sampleChecker, sampleVirtualService])
    (by
      intro vs hvs
      simp only [sampleChecker, List.mem_cons, List.mem_singleton, List.not_mem_nil,
        or_false] at hvs
      rcases hvs with e | e <;> subst e <;> decide)
    (by
      intro vs hvs
      simp only [sampleChecker, List.mem_cons, List.mem_singleton, List.not_mem_nil,
        or_false] at hvs
      rcases hvs with e | e <;> subst e <;> decide)
    (by
      intro vs hvs
      simp only [sampleChecker, List.mem_cons, List.mem_singleton, List.not_mem_nil,
        or_false] at hvs
      rcases hvs with e | e <;> subst e <;> decide)
    ⟨"virtualservice", "bookinfo", "virtual-2"⟩ (by decide)

/-- C15 at a failing input, with what holds of the keys of the graphs. Every
entry of a graph returned by the gateway checker holds at least one finding, and
every key of it is the key of the owner of one of two bindings with the same
selector string and port whose hostnames match; every entry of the graph of the
routing-rule checker, for every order of iteration over its maps, holds at least
one finding. A routing rule that takes part in no conflict is a key all the
same: the rule `virtual-1` with the hosts `reviews` and `reviews`, alone in the
input, is the key of the graph, and so is the rule alone with the hosts `*` and
`reviews`. When no routing rule comes twice, names a gateway twice, has two
hosts grouped under the same cluster, namespace and service, or has a host
grouped under the service `*` next to another service of the same cluster and
namespace, every key of the graph is the key of a routing rule of the input in
conflict with another one, as for the two rules of the test with the host
`reviews`. -/
theorem rule_without_conflict_is_key :
    (∀ (ext : External) (gws : List (List IstioObject)) (graph : IstioValidations),
      Gateways.Check ext gws = some graph →
      (∀ e ∈ graph, e.2.Checks ≠ []) ∧
      ∃ bs, allBindings ext gws = some bs ∧
        ∀ k ∈ graph.map (·.1), ∃ b1 b2, [b1, b2].Sublist bs ∧ b1.2 = b2.2 ∧
          b1.1.Port = b2.1.Port ∧ hostnamesMatch b2.1 b1.1 = some true ∧
          (k = hostKey b1.1 ∨ k = hostKey b2.1)) ∧
    (∀ (env : Environment) (ro : RangeOrder) (s : SingleHostChecker),
      ∀ e ∈ Check env ro s, e.2.Checks ≠ []) ∧
    ((Check Environment.sample RangeOrder.insertion
        (sampleChecker [sampleVirtualService "virtual-1" ["reviews", "reviews"]])).map (·.1) =
        [⟨"virtualservice", "bookinfo", "virtual-1"⟩] ∧
      ∀ vs, ¬ inConflict Environment.sample
        (sampleChecker [sampleVirtualService "virtual-1" ["reviews", "reviews"]]) vs) ∧
    ((Check Environment.sample RangeOrder.insertion
        (sampleChecker [sampleVirtualService "virtual-1" ["*", "reviews"]])).map (·.1) =
        [⟨"virtualservice", "bookinfo", "virtual-1"⟩] ∧
      ∀ vs, ¬ inConflict Environment.sample
        (sampleChecker [sampleVirtualService "virtual-1" ["*", "reviews"]]) vs) ∧
    (∀ (env : Environment) (ro : RangeOrder) (s : SingleHostChecker),
      s.VirtualServices.Nodup →
      (∀ vs ∈ s.VirtualServices, (gatewayScope vs).Nodup) →
      (∀ vs ∈ s.VirtualServices, ((getHosts env s vs).map fun host =>
        ((groupingHost env vs host).Cluster, (groupingHost env vs host).Namespace,
          (groupingHost env vs host).Service)).Nodup) →
      (∀ vs ∈ s.VirtualServices, ∀ h ∈ getHosts env s vs, ∀ h' ∈ getHosts env s vs,
        (groupingHost env vs h).Service = "*" →
        (groupingHost env vs h').Cluster = (groupingHost env vs h).Cluster →
        (groupingHost env vs h').Namespace = (groupingHost env vs h).Namespace →
        (groupingHost env vs h').Service = "*") →
      ∀ k ∈ (Check env ro s).map (·.1),
        ∃ vs ∈ s.VirtualServices, inConflict env s vs ∧ k = vsKey vs) ∧
    (Check Environment.sample RangeOrder.insertion
        (sampleChecker [sampleVirtualService "virtual-1" ["reviews"],
          sampleVirtualService "virtual-2" ["reviews"]])).map (·.1) =
      [⟨"virtualservice", "bookinfo", "virtual-1"⟩, ⟨"virtualservice", "bookinfo", "virtual-2"⟩] := by
  have hlone : ∀ (r vs : IstioObject), ¬ inConflict Environment.sample (sampleChecker [r]) vs := by
    rintro r vs ⟨other, hmem, hne, _, _, _, _, _, ⟨hvs, _⟩, _, _⟩
    have e1 : other = r := List.mem_singleton.mp hmem
    have e2 : vs = r := List.mem_singleton.mp hvs
    exact hne (e1.trans e2.symm)
  refine ⟨?_, Check_entries_findings, ⟨by decide, hlone _⟩, ⟨by decide, hlone _⟩,
    keys_in_conflict, by decide⟩
  intro ext gws graph hc
  constructor
  · refine Check_entries (fun v => v.Checks ≠ []) (fun _ _ _ => by simp) (fun _ _ h => h) ?_
      ext gws graph hc
    intro v w hv _
    simp [mergeEntry, hv]
  · obtain ⟨bs, hb, hk⟩ := Check_keys ext gws graph hc
    exact ⟨bs, hb, fun k hkm => (hk k).mp hkm⟩

end VirtualServices
end Kiali
